import Mathlib

/-!
Verification of the `msearch` multimap engine (`msearch.go`).

The engine stores, for each key, a chain of on-disk records inside a
memory-mapped file.  We shallowly embed the Go code:

* machine bytes are `Nat`s `< 256`; the mapped region is a function
  `Mem := Nat → Nat` (the mapping is a sparse 64 GiB reservation, so we
  model it as unbounded; every access the engine performs on reachable
  states lies below the append offset);
* Go byte slices that are assembled in private buffers are `List Nat`;
* `int` offsets kept in the key index are `Int` (the sentinel `notExist`
  is `-1`, exactly as in the source);
* fallible code returns `Except Unit α`: `.error ()` marks a Go runtime
  panic (out-of-range slice index) or a diverging loop, which in the real
  program aborts the process, so no successor state exists;
* the append `f.Write` may fail; we pass an oracle `io : Option Nat`
  (`none` = full success, `some n` = the platform wrote only the first
  `n` bytes and reported an error).

Every definition in the "code" section below is translated line by line
from `src/msearch.go`; deviations forced by the model (Go capacity
semantics, unbounded chain walks) are marked with comments.
-/

set_option maxHeartbeats 1000000
set_option maxRecDepth 100000

namespace Msearch

/-- Byte strings (Go `[]byte` / `string` contents). -/
abbrev Bytes := List Nat

/-- The mapped region: a byte per address. -/
abbrev Mem := Nat → Nat

/-- Read `n` bytes at offset `o` (Go `s.bytesAddr[o : o+n]`). -/
def readBytes (m : Mem) (o n : Nat) : Bytes :=
  (List.range n).map (fun i => m (o + i))

/-- Write the bytes `bs` at offset `o`.  Stored values are reduced mod 256
because the Go region has element type `byte`. -/
def writeBytes (m : Mem) (o : Nat) (bs : Bytes) : Mem :=
  fun a => if o ≤ a ∧ a < o + bs.length then bs.getD (a - o) 0 % 256 else m a

/-- Go `copy(b[i:], src)`: overwrite `b` starting at `i`, truncating at
`b`'s length; the rest of `b` is untouched. -/
def listCopy (b : Bytes) (i : Nat) (src : Bytes) : Bytes :=
  b.take i ++ src.take (b.length - i) ++ b.drop (i + src.length)

/-- Source function `bigUint64`: decode a big-endian integer from at most
8 bytes; longer buffers yield 0.  (Inputs are Go `byte`s, hence `< 256`;
the totals stored by the engine are far below `2^63`, so Go's signed
64-bit `int` arithmetic never wraps on the buffers the engine decodes.) -/
def bigUint64 (buf : Bytes) : Nat :=
  if buf.length > 8 then 0 else buf.foldl (fun x b => x * 256 + b) 0

/-- Go `binary.BigEndian.PutUint64`: the 8 big-endian bytes of
`n % 2^64`. -/
def putUint64 (n : Nat) : Bytes :=
  (List.range 8).map (fun i => n / 256 ^ (7 - i) % 256)

/-- Sentinel `notExist`: the index sentinel marking a key known to be absent. -/
def notExist : Int := -1

/-- Engine state: the append offset, the in-memory key index and the
mapped region.  (`NewMsearch` on a fresh file yields `initState`.) -/
structure MState where
  offset : Nat
  keyMap : Bytes → Option Int
  mem : Mem

/-- State produced by `NewMsearch` on an empty backing file. -/
def initState : MState :=
  { offset := 0, keyMap := fun _ => none, mem := fun _ => 0 }

/-- Runtime panic / divergence marker. -/
abbrev Res (α : Type) := Except Unit α

deriving instance DecidableEq for Except

/-- Error results of `add` (`Add` / `Update`). -/
inductive AddErr
  | tooLarge  -- "value exceed max length 255"
  | ioFail    -- the underlying `f.Write` failed
deriving DecidableEq, Repr

/-! ### The record scan loops

Each record is `[total(8) | klen(1) | key | value slots | selfEnd(8) |
next(8)]`.  The Go loops run over `b := s.bytesAddr[o : o+total]` with
`i` from `int(b[8] + 1 + 8)` up to `len(b) - 16`; `b[i]` is `mem (o+i)`.
The start index is computed in byte arithmetic: `b[8] + 1 + 8` is a
`byte` sum, so it wraps modulo 256 before the conversion to `int` (for a
key of length 247..255 the scan starts inside the `total` field, at
`klen - 247`). -/

/-- The loop body of `get`: collect the live values of one record.
`bound = total - 16`.  The loop index strictly increases every iteration,
so `bound` iterations always suffice; the structural `fuel` argument
(instantiated with `bound` at the call site) therefore never changes the
result, and when it runs out the returned value coincides with the
loop-exit value. -/
def getLoop (m : Mem) (o bound : Nat) : Nat → Nat → List Bytes
  | 0, _ => []
  | fuel + 1, i =>
    if i < bound then
      let c := m (o + i)
      if c = 0 then getLoop m o bound fuel (i + 1)
      else readBytes m (o + i + 1) c :: getLoop m o bound fuel (i + c + 1)
    else []

/-- Source function `get`: decode one record, returning its live values and its `next`
pointer.  Go panics when `total < 16` (`b[8]` and `b[:len(b)-16]` are out
of range); we surface that as `.error ()`. -/
def get (m : Mem) (o : Nat) : Res (List Bytes × Nat) :=
  let total := bigUint64 (readBytes m o 8)
  if total < 16 then .error ()
  else
    .ok (getLoop m o (total - 16) (total - 16) ((m (o + 8) + 9) % 256),
         bigUint64 (readBytes m (o + total - 8) 8))

/-- The chain walk of `gets`.  The Go loop has no fuel; on the cyclic
chains that no reachable state contains it would diverge, which we map to
`.error ()`.  Callers pass fuel `s.offset + 1`, which the forward-link
invariant shows is never exhausted. -/
def getsLoop (m : Mem) : Nat → Nat → Res (List Bytes)
  | 0, _ => .error ()
  | fuel + 1, o => do
    let (list, d) ← get m o
    if d = 0 then .ok list
    else do
      let rest ← getsLoop m fuel d
      .ok (list ++ rest)

/-- Source function `gets` (the body of `Get`). -/
def gets (s : MState) (key : Bytes) : Res (List Bytes) :=
  match s.keyMap key with
  | none => .ok []
  | some o =>
    if o = notExist then .ok []
    else getsLoop s.mem (s.offset + 1) o.toNat

/-- The loop body of `del`: tombstone every live slot whose value is in
`vset`.  The length byte `bi` is read before the slot is zeroed, exactly
as in the source. -/
def delLoop (o total : Nat) (vset : List Bytes) : Nat → Mem → Nat → Mem
  | 0, m, _ => m
  | fuel + 1, m, i =>
    if i < total - 16 then
      let c := m (o + i)
      if c = 0 then delLoop o total vset fuel m (i + 1)
      else
        let v := readBytes m (o + i + 1) c
        let m' := if v ∈ vset then
            writeBytes (writeBytes m (o + i + 1) (List.replicate c 0)) (o + i) [0]
          else m
        delLoop o total vset fuel m' (i + c + 1)
    else m

/-- Source function `del`: process one record, returning the updated memory and the
record's `next` pointer.  A negative `offset` (the sentinel, leaked in by
`dels`) makes Go panic on `s.bytesAddr[offset : offset+8]`; `total` in
`1..15` makes `b[8]` / `b[:len(b)-16]` panic. -/
def del (m : Mem) (offset : Int) (vset : List Bytes) : Res (Mem × Nat) :=
  if offset < 0 then .error ()
  else
    let o := offset.toNat
    let total := bigUint64 (readBytes m o 8)
    if total = 0 then .ok (m, 0)
    else if total < 16 then .error ()
    else
      let m' := delLoop o total vset (total - 16) m ((m (o + 8) + 9) % 256)
      .ok (m', bigUint64 (readBytes m' (o + total - 8) 8))

/-- The chain walk of `dels` (same fuel convention as `getsLoop`). -/
def delsLoop (vset : List Bytes) : Nat → Mem → Int → Res Mem
  | 0, _, _ => .error ()
  | fuel + 1, m, offset => do
    let (m', d) ← del m offset vset
    if d = 0 then .ok m' else delsLoop vset fuel m' (Int.ofNat d)

/-- Source function `dels` (the body of `Del`).  Note: the source checks only `!ok`, not
the `notExist` sentinel, before walking the chain. -/
def dels (s : MState) (key : Bytes) (values : List Bytes) : Res MState :=
  match s.keyMap key with
  | none => .ok s
  | some offset =>
    if values = [] then .ok s   -- `len(valueMap) == 0`
    else do
      let m' ← delsLoop values (s.offset + 1) s.mem offset
      .ok { s with mem := m' }

/-- The loop body of `delPrefix`: tombstone every live slot whose value
starts with one of the `prefixes`.  (The source zeroes the slot once per
matching prefix; repeated zeroing writes the same bytes, so we perform
it once.) -/
def delPrefixLoop (o total : Nat) (prefixes : List Bytes) : Nat → Mem → Nat → Mem
  | 0, m, _ => m
  | fuel + 1, m, i =>
    if i < total - 16 then
      let c := m (o + i)
      if c = 0 then delPrefixLoop o total prefixes fuel m (i + 1)
      else
        let v := readBytes m (o + i + 1) c
        let m' := if prefixes.any (fun p => p.isPrefixOf v) then
            writeBytes (writeBytes m (o + i + 1) (List.replicate c 0)) (o + i) [0]
          else m
        delPrefixLoop o total prefixes fuel m' (i + c + 1)
    else m

/-- Source function `delPrefix`: one record of the prefix-delete walk. -/
def delPrefix (m : Mem) (offset : Int) (prefixes : List Bytes) : Res (Mem × Nat) :=
  if offset < 0 then .error ()
  else
    let o := offset.toNat
    let total := bigUint64 (readBytes m o 8)
    if total = 0 then .ok (m, 0)
    else if total < 16 then .error ()
    else
      let m' := delPrefixLoop o total prefixes (total - 16) m ((m (o + 8) + 9) % 256)
      .ok (m', bigUint64 (readBytes m' (o + total - 8) 8))

/-- The chain walk of `delsPrefix`. -/
def delsPrefixLoop (prefixes : List Bytes) : Nat → Mem → Int → Res Mem
  | 0, _, _ => .error ()
  | fuel + 1, m, offset => do
    let (m', d) ← delPrefix m offset prefixes
    if d = 0 then .ok m' else delsPrefixLoop prefixes fuel m' (Int.ofNat d)

/-- Source function `delsPrefix` (the body of `DelByPrefix`); like `dels` it checks only
`!ok`, not the sentinel. -/
def delsPrefix (s : MState) (key : Bytes) (values : List Bytes) : Res MState :=
  match s.keyMap key with
  | none => .ok s
  | some offset =>
    if values = [] then .ok s
    else do
      let m' ← delsPrefixLoop values (s.offset + 1) s.mem offset
      .ok { s with mem := m' }

/-! ### Gap scanning (`empty1` / `empty`) and tail lookup (`b8`) -/

/-- The loop of `empty1` with its mutable locals `t` (≡ `first`) and
`start`.  Result `(start, end_, t, early)`: `early` records the
mid-loop `return` (gap followed by a live slot), in which case `lastDec`
is left `0`. -/
def empty1Loop (m : Mem) (o bound : Nat) : Nat → Nat → Bool → Nat →
    Nat × Nat × Bool × Bool
  | 0, _, t, start => (start, 0, t, false)
  | fuel + 1, i, t, start =>
    if i < bound then
      let c := m (o + i)
      if c = 0 then
        if t then empty1Loop m o bound fuel (i + 1) t start
        else empty1Loop m o bound fuel (i + 1) true i
      else
        if t then (start, i, t, true)
        else empty1Loop m o bound fuel (i + c + 1) t start
    else (start, 0, t, false)

/-- Source function `empty1`: find the first run of `0x00` bytes of one record.  Returns
`(o, lastDec, start, end, t)`.  Go panics for `total < 16` exactly as in
`get`. -/
def empty1 (m : Mem) (offset : Nat) : Res (Nat × Nat × Nat × Nat × Bool) :=
  let total := bigUint64 (readBytes m offset 8)
  if total < 16 then .error ()
  else
    let r := empty1Loop m offset (total - 16) (total - 16) ((m (offset + 8) + 9) % 256) false 0
    if r.2.2.2 then
      .ok (offset, 0, r.1, r.2.1, r.2.2.1)
    else
      let e := if r.2.2.1 ∧ r.2.1 = 0 then total - 16 else r.2.1
      .ok (offset, bigUint64 (readBytes m (offset + total - 8) 8), r.1, e, r.2.2.1)

/-- The chain walk of `empty` (fuel convention as above); returns
`(o, start, end, t)`. -/
def emptyLoop (m : Mem) : Nat → Nat → Res (Nat × Nat × Nat × Bool)
  | 0, _ => .error ()
  | fuel + 1, offset => do
    let r ← empty1 m offset
    let (o, lastDec, start, e, t) := r
    if lastDec = 0 ∨ t then .ok (o, start, e, t)
    else emptyLoop m fuel lastDec

/-- Source function `b8`: the `next` field location of the record at `offset`, plus its
decoded value.  Mirrors the dead-code guard `offset >= s.offset`. -/
def b8 (s : MState) (offset : Nat) : Res (Nat × Option Nat) :=
  if offset ≥ s.offset then .ok (0, none)
  else
    let total := bigUint64 (readBytes s.mem offset 8)
    if offset + total < 8 then .error ()   -- Go: negative slice bound
    else
      .ok (bigUint64 (readBytes s.mem (offset + total - 8) 8),
           some (offset + total - 8))

/-- Source function `getB8byOffset`: walk to the chain tail and return the address of its
`next` field (as an `Option`, `none` standing for Go's `nil` slice). -/
def getB8Loop (s : MState) : Nat → Nat → Res (Option Nat)
  | 0, _ => .error ()
  | fuel + 1, offset => do
    let (lastDec, l) ← b8 s offset
    if lastDec = 0 then .ok l else getB8Loop s fuel lastDec

/-! ### Record construction (`add`) -/

/-- The value loop of `add`: write each value as `[len][bytes]` into the
scratch buffer, growing it by 1 KiB when `len(b) < idx+len(value)+2`.
Returns the final buffer and `idx`, or the 255-limit error. -/
def addLoop : Bytes → Nat → List Bytes → Except AddErr (Bytes × Nat)
  | b, idx, [] => .ok (b, idx)
  | b, idx, v :: vs =>
    let b1 := if b.length < idx + v.length + 2 then b ++ List.replicate 1024 0 else b
    if v.length > 255 then .error .tooLarge
    else addLoop (listCopy (b1.set idx v.length) (idx + 1) v) (idx + 1 + v.length) vs

/-- Source function `add`: assemble a record for `key`/`values`, append it, publish the
key if absent or the sentinel, and patch the previous tail's `next` field
(`b8loc`).  Result: `(state, error?, total)`.

Model notes, marked against the source:
* `PutUint64(b[idx:], …)` bounds-checks `len(b) ≥ idx+8`; the reslice
  `b = b[:total]` requires `total ≤ cap(b)`.  We fault (`.error ()`) when
  `total > len(b)`: Go faults whenever `total > cap(b)`, and for the
  initial buffer and its first growth `cap = len`, so this is exact
  except for records beyond 2 KiB whose final slack is 8..15 bytes,
  where Go reads unspecified capacity bytes.
* on `io = some n` the platform appended `n` bytes before failing; the
  mapping shows them, and the function returns before touching the index,
  the tail link or the offset, exactly as the source does. -/
def add (s : MState) (io : Option Nat) (b8loc : Option Nat) (key : Bytes)
    (values : List Bytes) : Res (MState × Option AddErr × Nat) :=
  let b0 : Bytes := List.replicate 1024 0
  let b0 := b0.set 8 (key.length % 256)
  let n := min key.length (b0.length - 9)
  let b0 := listCopy b0 9 key
  match addLoop b0 (n + 1 + 8) values with
  | .error e => .ok (s, some e, 0)
  | .ok (b, idx) =>
    if b.length < idx + 8 then .error ()       -- PutUint64 bounds check
    else
      let total := idx + 16
      if b.length < total then .error ()       -- b[:total] beyond capacity
      else
        let b := (listCopy b idx (putUint64 (total + s.offset))).take total
        let b := listCopy b 0 (putUint64 total)
        match io with
        | some nw =>
          .ok ({ s with mem := writeBytes s.mem s.offset (b.take nw) }, some .ioFail, 0)
        | none =>
          let mem1 := writeBytes s.mem s.offset b
          let km := fun k =>
            if k = key then
              match s.keyMap key with
              | none => some (Int.ofNat s.offset)
              | some i => if i = notExist then some (Int.ofNat s.offset) else some i
            else s.keyMap k
          let mem2 := match b8loc with
            | some a => writeBytes mem1 a (putUint64 s.offset)
            | none => mem1
          .ok ({ offset := s.offset + total, keyMap := km, mem := mem2 }, none, total)

/-- Source function `adds` (the body of `Add`).  The single-value fast path scans the
chain for a gap and writes in place when the value is strictly shorter
than the gap.  NOTE (faithful to the source): the in-place branch reads
`total` at the *head* offset but slices at the gap record `o`, so the
slot write is bounded by the head record's length: `b[start]` panics when
`start ≥ total_head`, and the payload copy is truncated to
`total_head - start - 1` bytes. -/
def adds (s : MState) (io : Option Nat) (key : Bytes) (values : List Bytes) :
    Res (MState × Option AddErr) :=
  if values = [] then .ok (s, none)
  else
    match s.keyMap key with
    | none => do
      let r ← add s io none key values
      .ok (r.1, r.2.1)
    | some offInt =>
      if offInt = notExist then do
        let r ← add s io none key values
        .ok (r.1, r.2.1)
      else do
        let offset := offInt.toNat
        let fast ← (match values with
          | [value] => do
            let r ← emptyLoop s.mem (s.offset + 1) offset
            let (o, start, e, t) := r
            if t ∧ value.length < e - start then
              let total := bigUint64 (readBytes s.mem offset 8)
              if start < total then
                let m1 := writeBytes s.mem (o + start) [value.length % 256]
                let m2 := writeBytes m1 (o + start + 1) (value.take (total - start - 1))
                pure (some ({ s with mem := m2 }, (none : Option AddErr)))
              else (.error () : Res _)   -- Go: index b[start] out of range
            else pure none
          | _ => pure none)
        match fast with
        | some r => .ok r
        | none => do
          let l ← getB8Loop s (s.offset + 1) offset
          let r ← add s io l key values
          .ok (r.1, r.2.1)

/-- Source function `Exist`: true iff the key has a real offset; otherwise installs the
`notExist` sentinel and reports false. -/
def Exist (s : MState) (key : Bytes) : MState × Bool :=
  match s.keyMap key with
  | some o =>
    if o ≠ notExist then (s, true)
    else ({ s with keyMap := fun k => if k = key then some notExist else s.keyMap k }, false)
  | none =>
    ({ s with keyMap := fun k => if k = key then some notExist else s.keyMap k }, false)

/-- Source function `Update`: read the old values, delete them, then add the new ones. -/
def Update (s : MState) (io : Option Nat) (key : Bytes) (values : List Bytes) :
    Res (MState × Option AddErr) := do
  let old ← gets s key
  let s1 ← dels s key old
  adds s1 io key values


/-! ### Abstract records

A record is described abstractly by its key, its list of value slots, and
its two trailer fields; `recBytes` is its exact byte image. -/

/-- One value slot: a live value or a single tombstone byte. -/
inductive Slot
  | tomb
  | live (v : Bytes)
deriving DecidableEq, Repr

/-- Byte image of a slot. -/
def slotBytes : Slot → Bytes
  | .tomb => [0]
  | .live v => v.length :: v

/-- Byte image of a slot list (the record's value area). -/
def slotsBytes (l : List Slot) : Bytes := (l.map slotBytes).flatten

/-- The live values of a slot list, in order. -/
def liveVals (l : List Slot) : List Bytes :=
  l.filterMap (fun s => match s with | .tomb => none | .live v => some v)

/-- The slot that `add` writes for one value: a zero-length value leaves a
single tombstone byte. -/
def slotOf (v : Bytes) : Slot := if v.length = 0 then .tomb else .live v

/-- Slots written by `add` for a value list. -/
def slotsOf (vs : List Bytes) : List Slot := vs.map slotOf

/-- All bytes below 256 (automatic for data that came from Go strings). -/
abbrev CleanBytes (b : Bytes) : Prop := ∀ x ∈ b, x < 256

/-- Well-formed slot: a live value has length 1..255 and clean bytes. -/
def SlotWF : Slot → Prop
  | .tomb => True
  | .live v => 1 ≤ v.length ∧ v.length ≤ 255 ∧ CleanBytes v

/-- Abstract record. -/
structure Rec where
  key : Bytes
  slots : List Slot
  selfEnd : Nat
  next : Nat

/-- Total byte length of a record: 8 (total) + 1 (klen) + key + value
area + 16 (trailer). -/
def recSize (r : Rec) : Nat := 25 + r.key.length + (slotsBytes r.slots).length

/-- Exact byte image of a record. -/
def recBytes (r : Rec) : Bytes :=
  putUint64 (recSize r) ++ ((r.key.length :: r.key) ++ (slotsBytes r.slots
    ++ (putUint64 r.selfEnd ++ putUint64 r.next)))

/-! ### Basic lemmas about the byte primitives -/

theorem readBytes_length (m : Mem) (o n : Nat) : (readBytes m o n).length = n := by
  simp [readBytes]

theorem readBytes_getD (m : Mem) (o n j : Nat) (h : j < n) :
    (readBytes m o n).getD j 0 = m (o + j) := by
  simp [readBytes, List.getD, List.getElem?_map, List.getElem?_range, h]

theorem readBytes_succ (m : Mem) (o n : Nat) :
    readBytes m o (n + 1) = m o :: readBytes m (o + 1) n := by
  simp only [readBytes, List.range_succ_eq_map, List.map_cons, List.map_map]
  refine congrArg₂ List.cons (by simp) ?_
  apply List.map_congr_left
  intro i _
  simp only [Function.comp]
  congr 1
  omega

theorem readBytes_congr (m1 m2 : Mem) (o1 o2 n : Nat)
    (h : ∀ j < n, m1 (o1 + j) = m2 (o2 + j)) :
    readBytes m1 o1 n = readBytes m2 o2 n := by
  simp only [readBytes]
  exact List.map_congr_left (by intro i hi; exact h i (List.mem_range.mp hi))

theorem readBytes_add (m : Mem) (o n1 n2 : Nat) :
    readBytes m o (n1 + n2) = readBytes m o n1 ++ readBytes m (o + n1) n2 := by
  apply List.ext_getElem
  · simp [readBytes]
  · intro i h1 h2
    by_cases hi : i < n1
    · simp [readBytes, List.getElem_append, hi]
    · simp only [readBytes] at *
      rw [List.getElem_append_right]
      · simp only [List.getElem_map, List.getElem_range]
        congr 1
        simp at h1 ⊢
        omega
      · simpa using hi

theorem writeBytes_inside (m : Mem) (o : Nat) (bs : Bytes) (a : Nat)
    (h1 : o ≤ a) (h2 : a < o + bs.length) :
    writeBytes m o bs a = bs.getD (a - o) 0 % 256 := by
  simp [writeBytes, h1, h2]

theorem writeBytes_at (m : Mem) (o : Nat) (bs : Bytes) (j : Nat) (h : j < bs.length) :
    writeBytes m o bs (o + j) = bs.getD j 0 % 256 := by
  rw [writeBytes_inside m o bs (o + j) (by omega) (by omega)]
  simp

theorem writeBytes_outside (m : Mem) (o : Nat) (bs : Bytes) (a : Nat)
    (h : a < o ∨ o + bs.length ≤ a) : writeBytes m o bs a = m a := by
  simp only [writeBytes]
  rw [if_neg]
  omega

theorem putUint64_length (n : Nat) : (putUint64 n).length = 8 := by
  simp [putUint64]

theorem putUint64_clean (n : Nat) : CleanBytes (putUint64 n) := by
  intro x hx
  simp only [putUint64, List.mem_map] at hx
  obtain ⟨i, _, rfl⟩ := hx
  exact Nat.mod_lt _ (by norm_num)

theorem putUint64_zero : putUint64 0 = List.replicate 8 0 := by
  decide

theorem bigUint64_putUint64 (n : Nat) (h : n < 2 ^ 64) :
    bigUint64 (putUint64 n) = n := by
  have : putUint64 n = [n / 256 ^ 7 % 256, n / 256 ^ 6 % 256, n / 256 ^ 5 % 256,
      n / 256 ^ 4 % 256, n / 256 ^ 3 % 256, n / 256 ^ 2 % 256, n / 256 ^ 1 % 256,
      n / 256 ^ 0 % 256] := by
    simp [putUint64, List.range_succ]
  rw [this]
  simp only [bigUint64]
  norm_num [List.foldl]
  omega


/-! ### List helpers for the scratch-buffer computation -/

theorem set_append_replicate (P : Bytes) (pad x : Nat) (h : 1 ≤ pad) :
    (P ++ List.replicate pad 0).set P.length x = P ++ x :: List.replicate (pad - 1) 0 := by
  rw [List.set_append, if_neg (by omega)]
  congr 1
  obtain ⟨pad, rfl⟩ : ∃ q, pad = q + 1 := ⟨pad - 1, by omega⟩
  simp [List.replicate_succ]

theorem listCopy_fill (P : Bytes) (pad : Nat) (v : Bytes) (h : v.length ≤ pad) :
    listCopy (P ++ List.replicate pad 0) P.length v =
      P ++ v ++ List.replicate (pad - v.length) 0 := by
  simp only [listCopy, List.take_left, List.length_append, List.length_replicate,
    Nat.add_sub_cancel_left, List.drop_append, List.drop_replicate]
  rw [List.take_of_length_le h, List.append_assoc]

/-- Byte image of the value slots `add` writes for a value list. -/
def valSlotBytes (vs : List Bytes) : Bytes := (vs.map (fun v => v.length :: v)).flatten

theorem valSlotBytes_nil : valSlotBytes [] = [] := rfl

theorem valSlotBytes_cons (v : Bytes) (vs : List Bytes) :
    valSlotBytes (v :: vs) = (v.length :: v) ++ valSlotBytes vs := by
  simp [valSlotBytes]

theorem slotBytes_slotOf (v : Bytes) : slotBytes (slotOf v) = v.length :: v := by
  by_cases h : v.length = 0
  · rw [List.length_eq_zero] at h
    subst h
    rfl
  · simp [slotOf, h, slotBytes]

theorem valSlotBytes_eq (vs : List Bytes) : valSlotBytes vs = slotsBytes (slotsOf vs) := by
  induction vs with
  | nil => rfl
  | cons v vs ih =>
    rw [valSlotBytes_cons, ih]
    simp only [slotsOf, slotsBytes, List.map_cons, List.flatten_cons, slotBytes_slotOf]

/-! ### Characterisation of the `add` record builder -/

theorem addLoop_err (vs : List Bytes) :
    ∀ b idx e, addLoop b idx vs = .error e → e = .tooLarge := by
  induction vs with
  | nil => intro b idx e h; simp [addLoop] at h
  | cons v vs ih =>
    intro b idx e h
    simp only [addLoop] at h
    split at h
    · injection h with h1
      exact h1.symm
    · exact ih _ _ _ h

theorem addLoop_ok (vs : List Bytes) (hv : ∀ v ∈ vs, v.length ≤ 255) :
    ∀ (P : Bytes) (pad : Nat),
      ∃ pad', pad ≤ pad' + (valSlotBytes vs).length ∧
        addLoop (P ++ List.replicate pad 0) P.length vs =
          .ok (P ++ valSlotBytes vs ++ List.replicate pad' 0,
               P.length + (valSlotBytes vs).length) := by
  induction vs with
  | nil =>
    intro P pad
    refine ⟨pad, by simp [valSlotBytes], ?_⟩
    simp [addLoop, valSlotBytes]
  | cons v vs ih =>
    intro P pad
    have hvlen : v.length ≤ 255 := hv v (by simp)
    obtain ⟨pad1, hgrow, hpadle, hpad1ge⟩ :
        ∃ pad1, (if (P ++ List.replicate pad 0).length < P.length + v.length + 2
            then (P ++ List.replicate pad 0) ++ List.replicate 1024 0
            else (P ++ List.replicate pad 0)) = P ++ List.replicate pad1 0
          ∧ pad ≤ pad1 ∧ v.length + 2 ≤ pad1 := by
      by_cases hc : (P ++ List.replicate pad 0).length < P.length + v.length + 2
      · refine ⟨pad + 1024, ?_, by omega, ?_⟩
        · rw [if_pos hc, List.append_assoc, ← List.replicate_add]
        · simp at hc
          omega
      · refine ⟨pad, by rw [if_neg hc], le_refl _, ?_⟩
        simp at hc
        omega
    have hset : (P ++ List.replicate pad1 0).set P.length v.length =
        (P ++ [v.length]) ++ List.replicate (pad1 - 1) 0 := by
      rw [set_append_replicate P pad1 v.length (by omega), List.append_assoc]
      rfl
    have hcopy : listCopy ((P ++ [v.length]) ++ List.replicate (pad1 - 1) 0)
        (P ++ [v.length]).length v =
        (P ++ (v.length :: v)) ++ List.replicate (pad1 - 1 - v.length) 0 := by
      rw [listCopy_fill _ _ _ (by omega)]
      simp [List.append_assoc]
    obtain ⟨pad', hle, hrec⟩ := ih (fun w hw => hv w (by simp [hw])) (P ++ (v.length :: v))
      (pad1 - 1 - v.length)
    refine ⟨pad', ?_, ?_⟩
    · rw [valSlotBytes_cons]
      simp only [List.length_append, List.length_cons] at hle ⊢
      omega
    · simp only [addLoop]
      rw [hgrow, if_neg (by omega), hset]
      have hidx : P.length + 1 = (P ++ [v.length]).length := by simp
      rw [hidx, hcopy]
      have hidx2 : (P ++ [v.length]).length + v.length = (P ++ (v.length :: v)).length := by
        simp
        omega
      rw [hidx2, hrec, valSlotBytes_cons]
      congr 2
      · simp [List.append_assoc]
      · simp
        omega


/-- The abstract record `add` builds for `key`/`values` when the append
lands at offset `off`. -/
def addRec (key : Bytes) (values : List Bytes) (off : Nat) : Rec :=
  { key := key, slots := slotsOf values,
    selfEnd := 25 + key.length + (valSlotBytes values).length + off,
    next := 0 }

theorem recSize_addRec (key : Bytes) (values : List Bytes) (off : Nat) :
    recSize (addRec key values off) = 25 + key.length + (valSlotBytes values).length := by
  simp [recSize, addRec, ← valSlotBytes_eq]

theorem add_tooLarge_spec (s : MState) (io : Option Nat) (b8loc : Option Nat)
    (key : Bytes) (values : List Bytes) (s' : MState) (t : Nat)
    (h : add s io b8loc key values = .ok (s', some .tooLarge, t)) :
    s' = s ∧ t = 0 := by
  simp only [add] at h
  generalize addLoop (listCopy ((List.replicate 1024 0).set 8 (key.length % 256)) 9 key)
      (min key.length (((List.replicate 1024 0).set 8 (key.length % 256)).length - 9) + 1 + 8)
      values = r at h
  match r with
  | .error e =>
    simp at h
    exact ⟨h.1.symm, h.2.2.symm⟩
  | .ok (b, idx) =>
    simp only [] at h
    split at h
    · cases h
    · split at h
      · cases h
      · match io with
        | some nw => simp at h
        | none => simp at h

theorem add_ioFail_spec (s : MState) (io : Option Nat) (b8loc : Option Nat)
    (key : Bytes) (values : List Bytes) (s' : MState) (t : Nat)
    (h : add s io b8loc key values = .ok (s', some .ioFail, t)) :
    s'.offset = s.offset ∧ s'.keyMap = s.keyMap ∧ ∀ a < s.offset, s'.mem a = s.mem a := by
  simp only [add] at h
  generalize addLoop (listCopy ((List.replicate 1024 0).set 8 (key.length % 256)) 9 key)
      (min key.length (((List.replicate 1024 0).set 8 (key.length % 256)).length - 9) + 1 + 8)
      values = r at h
  match r with
  | .error e =>
    simp at h
    obtain ⟨h1, h2, h3⟩ := h
    subst h1
    exact ⟨rfl, rfl, fun a _ => rfl⟩
  | .ok (b, idx) =>
    simp only [] at h
    split at h
    · cases h
    · split at h
      · cases h
      · match io with
        | some nw =>
          simp only [Except.ok.injEq, Prod.mk.injEq] at h
          obtain ⟨h1, _, _⟩ := h
          subst h1
          refine ⟨rfl, rfl, fun a ha => ?_⟩
          exact writeBytes_outside _ _ _ _ (Or.inl ha)
        | none => simp at h


theorem take_app (A B : Bytes) (k : Nat) : (A ++ B).take (A.length + k) = A ++ B.take k :=
  List.take_append k

theorem final_buf (Q : Bytes) (pad' : Nat) (hp : 16 ≤ pad') (hq : 8 ≤ Q.length) (X Y : Nat) :
    listCopy ((listCopy (Q ++ List.replicate pad' 0) Q.length (putUint64 X)).take
        (Q.length + 16)) 0 (putUint64 Y) =
      putUint64 Y ++ Q.drop 8 ++ putUint64 X ++ List.replicate 8 0 := by
  rw [listCopy_fill Q pad' (putUint64 X) (by rw [putUint64_length]; omega)]
  have h1 : Q ++ putUint64 X ++ List.replicate (pad' - (putUint64 X).length) 0
      = Q ++ (putUint64 X ++ List.replicate (pad' - 8) 0) := by
    rw [putUint64_length, List.append_assoc]
  rw [h1, take_app]
  have h2 : (putUint64 X ++ List.replicate (pad' - 8) 0).take 16
      = putUint64 X ++ List.replicate 8 0 := by
    have h3 : (16 : Nat) = (putUint64 X).length + 8 := by rw [putUint64_length]
    have hmin : min 8 (pad' - 8) = 8 := by omega
    rw [h3, take_app, List.take_replicate, hmin]
  rw [h2]
  simp only [listCopy, List.take_zero, List.nil_append, Nat.sub_zero, putUint64_length,
    Nat.zero_add]
  have htk : (putUint64 Y).length ≤ (Q ++ (putUint64 X ++ List.replicate 8 0)).length := by
    simp only [putUint64_length, List.length_append, List.length_replicate]
    omega
  have h4 : (Q ++ (putUint64 X ++ List.replicate 8 0)).drop 8
      = Q.drop 8 ++ (putUint64 X ++ List.replicate 8 0) := by
    rw [List.drop_append_eq_append_drop]
    have h5 : 8 - Q.length = 0 := by omega
    rw [h5, List.drop_zero]
  rw [List.take_of_length_le htk, h4]
  simp only [List.append_assoc]

/-- Memory contents after a successful append of record `r`: the record
bytes land at `s.offset`, and when a previous tail exists its `next`
field (at `b8loc`) receives the new record's offset. -/
def addMem (s : MState) (b8loc : Option Nat) (r : Rec) : Mem :=
  match b8loc with
  | some a => writeBytes (writeBytes s.mem s.offset (recBytes r)) a (putUint64 s.offset)
  | none => writeBytes s.mem s.offset (recBytes r)

/-- The index after `add` publishes `key` (only when absent or sentinel). -/
def addKeyMap (s : MState) (key : Bytes) : Bytes → Option Int := fun k =>
  if k = key then
    (match s.keyMap key with
     | none => some (Int.ofNat s.offset)
     | some i => if i = notExist then some (Int.ofNat s.offset) else some i)
  else s.keyMap k

theorem add_ok_spec (s : MState) (b8loc : Option Nat) (key : Bytes) (values : List Bytes)
    (hk : key.length ≤ 255) (hv : ∀ v ∈ values, v.length ≤ 255)
    (s' : MState) (e : Option AddErr) (t : Nat)
    (h : add s none b8loc key values = .ok (s', e, t)) :
    e = none ∧ t = recSize (addRec key values s.offset) ∧
    s'.offset = s.offset + t ∧
    s'.keyMap = addKeyMap s key ∧
    s'.mem = addMem s b8loc (addRec key values s.offset) := by
  have h256 : key.length % 256 = key.length := Nat.mod_eq_of_lt (by omega)
  have hb0 : listCopy ((List.replicate 1024 0).set 8 (key.length % 256)) 9 key
      = ((List.replicate 8 0 ++ [key.length]) ++ key) ++ List.replicate (1015 - key.length) 0 := by
    have hsplit : (List.replicate 1024 0 : Bytes) = List.replicate 8 0 ++ List.replicate 1016 0 := by
      rw [← List.replicate_add]
    have hsetx := set_append_replicate (List.replicate 8 0) 1016 key.length (by omega)
    simp only [List.length_replicate, show (1016 - 1 : Nat) = 1015 by rfl] at hsetx
    rw [h256, hsplit, hsetx]
    have hP : (List.replicate 8 0 : Bytes) ++ key.length :: List.replicate 1015 0
        = (List.replicate 8 0 ++ [key.length]) ++ List.replicate 1015 0 := by
      rw [List.append_assoc]
      rfl
    rw [hP]
    have h9 : ((List.replicate 8 0 : Bytes) ++ [key.length]).length = 9 := by
      simp only [List.length_append, List.length_replicate, List.length_cons, List.length_nil]
    rw [← h9, listCopy_fill (List.replicate 8 0 ++ [key.length]) 1015 key (by omega)]
  have hn : min key.length (((List.replicate 1024 0).set 8 (key.length % 256)).length - 9)
      = key.length := by
    simp only [List.length_set, List.length_replicate]
    omega
  obtain ⟨pad', hple, hloop⟩ := addLoop_ok values hv ((List.replicate 8 0 ++ [key.length]) ++ key)
    (1015 - key.length)
  have hlenP : (((List.replicate 8 0 : Bytes) ++ [key.length]) ++ key).length
      = key.length + 1 + 8 := by
    simp only [List.length_append, List.length_replicate, List.length_cons, List.length_nil]
    omega
  rw [hlenP] at hloop
  simp only [add, hb0, hn, hloop] at h
  split at h
  · cases h
  · split at h
    · cases h
    · rename_i hc1 hc2
      simp only [List.length_append, List.length_replicate, List.length_cons,
        List.length_nil] at hc1 hc2
      have hpad16 : 16 ≤ pad' := by omega
      simp only [Except.ok.injEq, Prod.mk.injEq] at h
      obtain ⟨hstate, he, ht⟩ := h
      subst he
      subst ht
      subst hstate
      have hsz : recSize (addRec key values s.offset)
          = key.length + 1 + 8 + (valSlotBytes values).length + 16 := by
        rw [recSize_addRec]
        omega
      refine ⟨rfl, by rw [hsz], rfl, rfl, ?_⟩
      have hbuf : listCopy ((listCopy (((List.replicate 8 0 ++ [key.length]) ++ key)
            ++ valSlotBytes values ++ List.replicate pad' 0)
            (key.length + 1 + 8 + (valSlotBytes values).length)
            (putUint64 (key.length + 1 + 8 + (valSlotBytes values).length + 16 + s.offset))).take
            (key.length + 1 + 8 + (valSlotBytes values).length + 16)) 0
            (putUint64 (key.length + 1 + 8 + (valSlotBytes values).length + 16))
          = recBytes (addRec key values s.offset) := by
        have hQlen : ((((List.replicate 8 0 : Bytes) ++ [key.length]) ++ key)
            ++ valSlotBytes values).length
            = key.length + 1 + 8 + (valSlotBytes values).length := by
          simp only [List.length_append, List.length_replicate, List.length_cons,
            List.length_nil]
          omega
        have hq8 : 8 ≤ ((((List.replicate 8 0 : Bytes) ++ [key.length]) ++ key)
            ++ valSlotBytes values).length := by
          rw [hQlen]
          omega
        rw [← hQlen, final_buf _ _ hpad16 hq8]
        have hdrop : ((((List.replicate 8 0 : Bytes) ++ [key.length]) ++ key)
            ++ valSlotBytes values).drop 8
            = (key.length :: key) ++ valSlotBytes values := by
          rw [List.append_assoc, List.append_assoc, List.drop_append_eq_append_drop]
          simp
        rw [hdrop, hQlen]
        simp only [recBytes, addRec, recSize, valSlotBytes_eq, putUint64_zero]
        have h25 : key.length + 1 + 8 + (slotsBytes (slotsOf values)).length + 16
            = 25 + key.length + (slotsBytes (slotsOf values)).length := by omega
        rw [h25]
        simp only [List.append_assoc, List.cons_append, List.singleton_append]
      cases b8loc with
      | none =>
        show writeBytes s.mem s.offset _ = _
        simp only [addMem]
        rw [hbuf]
      | some a =>
        show writeBytes (writeBytes s.mem s.offset _) _ _ = _
        simp only [addMem]
        rw [hbuf]

/-- A single-value `add` with a key and value of at most 255 bytes never
hits the scratch-buffer bounds checks: the record is at most
26 + 255 + 255 bytes, well inside the initial 1 KiB buffer, so the
append completes and advances the offset by the record size. -/
theorem add_single_ok (s : MState) (b8loc : Option Nat) (key v : Bytes)
    (hk : key.length ≤ 255) (hv : v.length ≤ 255) :
    ∃ s', add s none b8loc key [v] = .ok (s', none, 26 + key.length + v.length) ∧
      s'.offset = s.offset + (26 + key.length + v.length) := by
  have h256 : key.length % 256 = key.length := Nat.mod_eq_of_lt (by omega)
  have hvl : (valSlotBytes [v]).length = v.length + 1 := by
    simp [valSlotBytes]
  have hb0 : listCopy ((List.replicate 1024 0).set 8 (key.length % 256)) 9 key
      = ((List.replicate 8 0 ++ [key.length]) ++ key) ++ List.replicate (1015 - key.length) 0 := by
    have hsplit : (List.replicate 1024 0 : Bytes) = List.replicate 8 0 ++ List.replicate 1016 0 := by
      rw [← List.replicate_add]
    have hsetx := set_append_replicate (List.replicate 8 0) 1016 key.length (by omega)
    simp only [List.length_replicate, show (1016 - 1 : Nat) = 1015 by rfl] at hsetx
    rw [h256, hsplit, hsetx]
    have hP : (List.replicate 8 0 : Bytes) ++ key.length :: List.replicate 1015 0
        = (List.replicate 8 0 ++ [key.length]) ++ List.replicate 1015 0 := by
      rw [List.append_assoc]
      rfl
    rw [hP]
    have h9 : ((List.replicate 8 0 : Bytes) ++ [key.length]).length = 9 := by
      simp only [List.length_append, List.length_replicate, List.length_cons, List.length_nil]
    rw [← h9, listCopy_fill (List.replicate 8 0 ++ [key.length]) 1015 key (by omega)]
  have hn : min key.length (((List.replicate 1024 0).set 8 (key.length % 256)).length - 9)
      = key.length := by
    simp only [List.length_set, List.length_replicate]
    omega
  obtain ⟨pad', hple, hloop⟩ := addLoop_ok [v]
    (by intro x hx; rw [List.mem_singleton] at hx; subst hx; exact hv)
    ((List.replicate 8 0 ++ [key.length]) ++ key) (1015 - key.length)
  have hlenP : (((List.replicate 8 0 : Bytes) ++ [key.length]) ++ key).length
      = key.length + 1 + 8 := by
    simp only [List.length_append, List.length_replicate, List.length_cons, List.length_nil]
    omega
  rw [hlenP] at hloop
  have hpad : 16 ≤ pad' := by
    rw [hvl] at hple
    omega
  simp only [add, hb0, hn, hloop]
  have hblen : ((((List.replicate 8 0 : Bytes) ++ [key.length]) ++ key)
      ++ valSlotBytes [v] ++ List.replicate pad' 0).length
      = key.length + 1 + 8 + (valSlotBytes [v]).length + pad' := by
    simp only [List.length_append, List.length_replicate, List.length_cons, List.length_nil]
    omega
  rw [if_neg (by rw [hblen, hvl]; omega), if_neg (by rw [hblen, hvl]; omega)]
  have heq : key.length + 1 + 8 + (valSlotBytes [v]).length + 16
      = 26 + key.length + v.length := by
    rw [hvl]
    omega
  rw [heq]
  exact ⟨_, rfl, rfl⟩


/-! ### Reading a record back from memory -/

theorem getD_concat (A B : Bytes) (j : Nat) :
    (A ++ B).getD (A.length + j) 0 = B.getD j 0 := by
  rw [List.getD_append_right _ _ _ _ (by omega)]
  congr 1
  omega

theorem getD_mod_256 (b : Bytes) (hc : CleanBytes b) (j : Nat) :
    b.getD j 0 % 256 = b.getD j 0 := by
  by_cases h : j < b.length
  · have : b.getD j 0 ∈ b := by
      rw [List.getD_eq_getElem b 0 h]
      exact List.getElem_mem h
    exact Nat.mod_eq_of_lt (hc _ this)
  · rw [List.getD_eq_default b 0 (by omega)]

theorem recBytes_length (r : Rec) : (recBytes r).length = recSize r := by
  simp only [recBytes, List.length_append, putUint64_length, List.length_cons, recSize]
  omega

theorem slotsBytes_clean (sl : List Slot) (hwf : ∀ s ∈ sl, SlotWF s) :
    CleanBytes (slotsBytes sl) := by
  intro x hx
  simp only [slotsBytes, List.mem_flatten, List.mem_map] at hx
  obtain ⟨l, ⟨sl1, hsl1, rfl⟩, hx⟩ := hx
  cases sl1 with
  | tomb =>
    simp only [slotBytes, List.mem_singleton] at hx
    omega
  | live v =>
    obtain ⟨h1, h2, h3⟩ := hwf _ hsl1
    simp only [slotBytes, List.mem_cons] at hx
    rcases hx with rfl | hx
    · omega
    · exact h3 _ hx

theorem recBytes_clean (r : Rec) (hk : r.key.length ≤ 255) (hkc : CleanBytes r.key)
    (hwf : ∀ s ∈ r.slots, SlotWF s) : CleanBytes (recBytes r) := by
  intro x hx
  simp only [recBytes, List.mem_append, List.mem_cons] at hx
  rcases hx with hx | (rfl | hx) | hx | hx | hx
  · exact putUint64_clean _ _ hx
  · omega
  · exact hkc _ hx
  · exact slotsBytes_clean _ hwf _ hx
  · exact putUint64_clean _ _ hx
  · exact putUint64_clean _ _ hx

theorem readBytes_eq_of_getD (m : Mem) (o n : Nat) (B : Bytes) (hlen : B.length = n)
    (h : ∀ j < n, m (o + j) = B.getD j 0) : readBytes m o n = B := by
  apply List.ext_getElem
  · rw [readBytes_length, hlen]
  · intro j h1 h2
    have hj : j < n := by rw [readBytes_length] at h1; exact h1
    have hh := h j hj
    rw [List.getD_eq_getElem B 0 h2] at hh
    rw [← hh]
    simp [readBytes]

/-- Pointwise record read hypothesis: `m` holds `recBytes r` at `o`. -/
def RecAt (m : Mem) (o : Nat) (r : Rec) : Prop :=
  ∀ j < recSize r, m (o + j) = (recBytes r).getD j 0

theorem RecAt_total (m : Mem) (o : Nat) (r : Rec) (h : RecAt m o r)
    (hsz : recSize r < 2 ^ 64) :
    bigUint64 (readBytes m o 8) = recSize r := by
  have hr : readBytes m o 8 = putUint64 (recSize r) := by
    apply readBytes_eq_of_getD _ _ _ _ (putUint64_length _)
    intro j hj
    rw [h j (by simp only [recSize]; omega)]
    simp only [recBytes]
    rw [List.getD_append _ _ _ _ (by rw [putUint64_length]; omega)]
  rw [hr]
  exact bigUint64_putUint64 _ hsz

theorem RecAt_klen (m : Mem) (o : Nat) (r : Rec) (h : RecAt m o r) :
    m (o + 8) = r.key.length := by
  rw [h 8 (by simp only [recSize]; omega)]
  simp only [recBytes]
  rw [show (8 : Nat) = (putUint64 (recSize r)).length + 0 by rw [putUint64_length],
    getD_concat]
  rfl

theorem RecAt_area (m : Mem) (o : Nat) (r : Rec) (h : RecAt m o r) :
    ∀ j < (slotsBytes r.slots).length,
      m (o + (r.key.length + 9 + j)) = (slotsBytes r.slots).getD j 0 := by
  intro j hj
  rw [h (r.key.length + 9 + j) (by simp only [recSize]; omega)]
  have hre : recBytes r = (putUint64 (recSize r) ++ (r.key.length :: r.key))
      ++ (slotsBytes r.slots ++ (putUint64 r.selfEnd ++ putUint64 r.next)) := by
    simp only [recBytes, List.append_assoc]
  rw [hre]
  have hlen : (putUint64 (recSize r) ++ (r.key.length :: r.key)).length
      = 9 + r.key.length := by
    simp only [List.length_append, putUint64_length, List.length_cons]
    omega
  rw [show r.key.length + 9 + j = (putUint64 (recSize r) ++ (r.key.length :: r.key)).length + j
      by rw [hlen]; omega, getD_concat]
  rw [List.getD_append _ _ _ _ hj]

theorem RecAt_next (m : Mem) (o : Nat) (r : Rec) (h : RecAt m o r)
    (hnext : r.next < 2 ^ 64) :
    bigUint64 (readBytes m (o + recSize r - 8) 8) = r.next := by
  have hre : recBytes r = (putUint64 (recSize r) ++ ((r.key.length :: r.key)
      ++ (slotsBytes r.slots ++ putUint64 r.selfEnd))) ++ putUint64 r.next := by
    simp only [recBytes, List.append_assoc]
  have hlen : (putUint64 (recSize r) ++ ((r.key.length :: r.key)
      ++ (slotsBytes r.slots ++ putUint64 r.selfEnd))).length = recSize r - 8 := by
    simp only [List.length_append, putUint64_length, List.length_cons, recSize]
    omega
  have hr : readBytes m (o + recSize r - 8) 8 = putUint64 r.next := by
    apply readBytes_eq_of_getD _ _ _ _ (putUint64_length _)
    intro j hj
    have ho : o + recSize r - 8 + j = o + (recSize r - 8 + j) := by
      simp only [recSize]
      omega
    rw [ho, h (recSize r - 8 + j) (by simp only [recSize] at *; omega), hre]
    rw [show recSize r - 8 + j = (putUint64 (recSize r) ++ ((r.key.length :: r.key)
        ++ (slotsBytes r.slots ++ putUint64 r.selfEnd))).length + j by rw [hlen], getD_concat]
  rw [hr]
  exact bigUint64_putUint64 _ hnext


theorem liveVals_nil : liveVals [] = [] := rfl

theorem liveVals_tomb (rest : List Slot) : liveVals (.tomb :: rest) = liveVals rest := rfl

theorem liveVals_live (v : Bytes) (rest : List Slot) :
    liveVals (.live v :: rest) = v :: liveVals rest := rfl

theorem liveVals_slotsOf (vs : List Bytes) (hv : ∀ v ∈ vs, v.length ≠ 0) :
    liveVals (slotsOf vs) = vs := by
  induction vs with
  | nil => rfl
  | cons v rest ih =>
    have h1 : slotOf v = .live v := by
      simp [slotOf, hv v (by simp)]
    simp only [slotsOf, List.map_cons] at *
    rw [h1, liveVals_live, ih (fun w hw => hv w (by simp [hw]))]

theorem slotsBytes_cons (s : Slot) (rest : List Slot) :
    slotsBytes (s :: rest) = slotBytes s ++ slotsBytes rest := by
  simp [slotsBytes]

theorem getLoop_stop (m : Mem) (o bound fuel i : Nat) (h : ¬ i < bound) :
    getLoop m o bound fuel i = [] := by
  cases fuel with
  | zero => rfl
  | succ f =>
    show (if i < bound then
        (if m (o + i) = 0 then getLoop m o bound f (i + 1)
         else readBytes m (o + i + 1) (m (o + i)) :: getLoop m o bound f (i + m (o + i) + 1))
      else []) = []
    rw [if_neg h]

theorem getLoop_zero (m : Mem) (o bound fuel i : Nat) (h : i < bound) (h0 : m (o + i) = 0) :
    getLoop m o bound (fuel + 1) i = getLoop m o bound fuel (i + 1) := by
  show (if i < bound then
      (if m (o + i) = 0 then getLoop m o bound fuel (i + 1)
       else readBytes m (o + i + 1) (m (o + i)) :: getLoop m o bound fuel (i + m (o + i) + 1))
    else []) = getLoop m o bound fuel (i + 1)
  rw [if_pos h, if_pos h0]

theorem getLoop_live (m : Mem) (o bound fuel i : Nat) (h : i < bound) (h0 : m (o + i) ≠ 0) :
    getLoop m o bound (fuel + 1) i
      = readBytes m (o + i + 1) (m (o + i)) :: getLoop m o bound fuel (i + m (o + i) + 1) := by
  show (if i < bound then
      (if m (o + i) = 0 then getLoop m o bound fuel (i + 1)
       else readBytes m (o + i + 1) (m (o + i)) :: getLoop m o bound fuel (i + m (o + i) + 1))
    else []) = readBytes m (o + i + 1) (m (o + i)) :: getLoop m o bound fuel (i + m (o + i) + 1)
  rw [if_pos h, if_neg h0]

/-- The `get` scan over a well-formed slot area yields exactly the live
values, in order (any fuel of at least the area size works). -/
theorem getLoop_slots (m : Mem) (o : Nat) :
    ∀ (sl : List Slot), (∀ s ∈ sl, SlotWF s) →
    ∀ (i bound fuel : Nat), bound = i + (slotsBytes sl).length →
      (slotsBytes sl).length ≤ fuel →
      (∀ j < (slotsBytes sl).length, m (o + (i + j)) = (slotsBytes sl).getD j 0) →
      getLoop m o bound fuel i = liveVals sl := by
  intro sl
  induction sl with
  | nil =>
    intro _ i bound fuel hb _ _
    rw [getLoop_stop _ _ _ _ _ (by simp [slotsBytes] at hb; omega)]
    rfl
  | cons s rest ih =>
    intro hwf i bound fuel hb hfuel hr
    rw [slotsBytes_cons] at hb hfuel hr
    cases s with
    | tomb =>
      obtain ⟨f, rfl⟩ : ∃ f, fuel = f + 1 := by
        refine ⟨fuel - 1, ?_⟩
        simp only [slotBytes, List.length_append, List.length_singleton] at hfuel
        omega
      have h0 : m (o + i) = 0 := by
        have h00 := hr 0 (by simp [slotBytes])
        simpa [slotBytes] using h00
      rw [getLoop_zero _ _ _ _ _ (by simp only [slotBytes, List.length_append,
        List.length_singleton] at hb ⊢; omega) h0, liveVals_tomb]
      apply ih (fun w hw => hwf w (by simp [hw])) (i + 1) bound f
      · simp only [slotBytes, List.length_append, List.length_singleton] at hb ⊢
        omega
      · simp only [slotBytes, List.length_append, List.length_singleton] at hfuel ⊢
        omega
      · intro j hj
        have hh := hr (1 + j) (by simp only [slotBytes, List.length_append,
          List.length_singleton]; omega)
        rw [show o + (i + (1 + j)) = o + (i + 1 + j) by omega] at hh
        rw [hh]
        simp only [slotBytes]
        rw [show (1 + j : Nat) = ([0] : Bytes).length + j by simp, getD_concat]
    | live v =>
      obtain ⟨hv1, hv2, hv3⟩ := hwf (.live v) (by simp)
      have hlb : slotBytes (.live v) = v.length :: v := rfl
      rw [hlb] at hb hfuel hr
      obtain ⟨f, rfl⟩ : ∃ f, fuel = f + 1 := by
        refine ⟨fuel - 1, ?_⟩
        simp only [List.length_append, List.length_cons] at hfuel
        omega
      have h0 : m (o + i) = v.length := by
        have h00 := hr 0 (by simp)
        simpa using h00
      have hval : readBytes m (o + i + 1) v.length = v := by
        apply readBytes_eq_of_getD _ _ _ _ rfl
        intro j hj
        have hh := hr (1 + j) (by simp only [List.length_append, List.length_cons]; omega)
        rw [show o + (i + (1 + j)) = o + i + 1 + j by omega] at hh
        rw [hh, show (1 + j : Nat) = j + 1 by omega,
          List.getD_append _ _ _ _ (by simp only [List.length_cons]; omega),
          List.getD_cons_succ]
      have hlt : i < bound := by
        simp only [List.length_append, List.length_cons] at hb
        omega
      have hne : m (o + i) ≠ 0 := by
        rw [h0]
        omega
      rw [getLoop_live _ _ _ _ _ hlt hne, h0, hval, liveVals_live]
      congr 1
      apply ih (fun w hw => hwf w (by simp [hw])) (i + v.length + 1) bound f
      · simp only [List.length_append, List.length_cons] at hb ⊢
        omega
      · simp only [List.length_append, List.length_cons] at hfuel ⊢
        omega
      · intro j hj
        have hjj : v.length + 1 + j < (List.length v :: v ++ slotsBytes rest).length := by
          simp only [List.length_append, List.length_cons]
          omega
        have hh := hr (v.length + 1 + j) hjj
        rw [show o + (i + (v.length + 1 + j)) = o + (i + v.length + 1 + j) by omega] at hh
        have hcast : v.length + 1 + j = (List.length v :: v).length + j := by
          simp only [List.length_cons]
        rw [hh, hcast, getD_concat]

theorem slotsOf_wf (vs : List Bytes) (hv : ∀ v ∈ vs, v.length ≤ 255 ∧ CleanBytes v) :
    ∀ s ∈ slotsOf vs, SlotWF s := by
  intro s hs
  simp only [slotsOf, List.mem_map] at hs
  obtain ⟨v, hvm, rfl⟩ := hs
  by_cases h0 : v.length = 0
  · simp [slotOf, h0, SlotWF]
  · obtain ⟨h1, h2⟩ := hv v hvm
    simp only [slotOf, h0, if_neg]
    exact ⟨by omega, h1, h2⟩

/-- Decoding a record stored at `o`: `get` returns its live values and its
`next` pointer. -/
theorem get_record (m : Mem) (o : Nat) (r : Rec) (h : RecAt m o r)
    (hwf : ∀ s ∈ r.slots, SlotWF s) (hkl : r.key.length ≤ 246)
    (hsz : recSize r < 2 ^ 64) (hnext : r.next < 2 ^ 64) :
    get m o = .ok (liveVals r.slots, r.next) := by
  simp only [get]
  rw [RecAt_total m o r h hsz, RecAt_klen m o r h]
  rw [if_neg (by simp only [recSize]; omega)]
  rw [Nat.mod_eq_of_lt (show r.key.length + 9 < 256 by omega)]
  have harea : getLoop m o (recSize r - 16) (recSize r - 16) (r.key.length + 9)
      = liveVals r.slots := by
    apply getLoop_slots m o r.slots hwf (r.key.length + 9) (recSize r - 16) (recSize r - 16)
    · simp only [recSize]
      omega
    · simp only [recSize]
      omega
    · intro j hj
      exact RecAt_area m o r h j hj
  rw [harea, RecAt_next m o r h hnext]

/-- Claim C1, amended: on a key that is absent from the index (or mapped
to the sentinel) **of length at most 246**, a successful `Add(k, v₁…vₙ)`
of non-empty values of length 1..255 makes `Get(k)` return exactly
`[v₁, …, vₙ]` in that order.  For keys of length 247..255 the round trip
fails: `Get`'s scan start `int(b[8] + 1 + 8)` wraps modulo 256, the scan
begins inside the `total` field and the record is misparsed (see the C1
counterexample).  The size bound keeps the record's `total` inside its
64-bit field. -/
theorem C1_amended_add_get_roundtrip (s : MState) (key : Bytes) (values : List Bytes) (s' : MState)
    (hk : key.length ≤ 246) (hkc : CleanBytes key)
    (hv : ∀ v ∈ values, 1 ≤ v.length ∧ v.length ≤ 255 ∧ CleanBytes v)
    (hvne : values ≠ [])
    (hfresh : s.keyMap key = none ∨ s.keyMap key = some notExist)
    (hsz : 25 + key.length + (valSlotBytes values).length < 2 ^ 64)
    (h : adds s none key values = .ok (s', none)) :
    gets s' key = .ok values := by
  have hv255 : ∀ v ∈ values, v.length ≤ 255 := fun v hvm => (hv v hvm).2.1
  have hk255 : key.length ≤ 255 := by omega
  have hgoal : ∀ trip, add s none none key values = .ok trip → trip.1 = s' →
      trip.2.1 = none → gets s' key = .ok values := by
    intro trip hadd h1 h2
    obtain ⟨he, ht, hoff, hkm, hmem⟩ := add_ok_spec s none key values hk255 hv255
      trip.1 trip.2.1 trip.2.2 (by rw [hadd])
    subst h1
    -- the published index entry
    have hkmk : trip.1.keyMap key = some (Int.ofNat s.offset) := by
      rw [hkm]
      rcases hfresh with hf | hf
      · simp [addKeyMap, hf]
      · simp [addKeyMap, hf, notExist]
    have hnm : (Int.ofNat s.offset : Int) ≠ notExist := by
      simp only [notExist, Int.ofNat_eq_natCast]
      omega
    simp only [gets, hkmk, if_neg hnm, Int.toNat_ofNat]
    -- one chain step: the freshly written record, with next = 0
    have hRecAt : RecAt trip.1.mem s.offset (addRec key values s.offset) := by
      intro j hj
      rw [hmem]
      simp only [addMem]
      rw [writeBytes_at _ _ _ _ (by rw [recBytes_length]; omega)]
      exact getD_mod_256 _ (recBytes_clean _ hk255 hkc
        (slotsOf_wf values (fun v hvm => ⟨(hv v hvm).2.1, (hv v hvm).2.2⟩))) j
    have hget : get trip.1.mem s.offset = .ok (liveVals (slotsOf values), 0) := by
      have := get_record trip.1.mem s.offset (addRec key values s.offset) hRecAt
        (slotsOf_wf values (fun v hvm => ⟨(hv v hvm).2.1, (hv v hvm).2.2⟩))
        (by simpa [addRec] using hk)
        (by rw [recSize_addRec]; omega) (by simp [addRec])
      simpa [addRec] using this
    have hlive : liveVals (slotsOf values) = values :=
      liveVals_slotsOf values (fun v hvm => by have := (hv v hvm).1; omega)
    show getsLoop trip.1.mem (trip.1.offset + 1) s.offset = .ok values
    simp only [getsLoop, hget, hlive]
    rfl
  simp only [adds, if_neg hvne] at h
  rcases hfresh with hf | hf
  · rw [hf] at h
    cases hadd : add s none none key values with
    | error e =>
      rw [hadd] at h
      exact (Except.noConfusion h)
    | ok trip =>
      rw [hadd] at h
      injection h with h1
      injection h1 with h2 h3
      exact hgoal trip hadd h2 h3
  · rw [hf] at h
    simp only [if_pos rfl] at h
    cases hadd : add s none none key values with
    | error e =>
      rw [hadd] at h
      exact (Except.noConfusion h)
    | ok trip =>
      rw [hadd] at h
      injection h with h1
      injection h1 with h2 h3
      exact hgoal trip hadd h2 h3


/-- State after the witness `Add` of C1 (key "u" = [117], values "a","b"). -/
def c1State : MState :=
  match adds initState none [117] [[97], [98]] with
  | .ok p => p.1
  | .error _ => initState

/-- Witness for the amended C1: a concrete fresh-key `Add` followed by
`Get`. -/
theorem C1_amended_add_get_roundtrip_witness :
    adds initState none [117] [[97], [98]] = .ok (c1State, none) ∧
    gets c1State [117] = .ok [[97], [98]] :=
  ⟨rfl, C1_amended_add_get_roundtrip initState [117] [[97], [98]] c1State (by decide) (by decide)
    (by decide) (by decide) (Or.inl rfl) (by decide) rfl⟩

/-- A key of length 247: the shortest length at which the scan start
`(klen + 9) % 256` wraps to 0. -/
def kLong : Bytes := List.replicate 247 107

/-- State after `Add(kLong, "b")` on a fresh engine: one record of 274
bytes at offset 0. -/
def sLong1 : MState :=
  match adds initState none kLong [[98]] with
  | .ok p => p.1
  | .error _ => initState

/-- State after a further single-value `Add(kLong, "a")`: the wrapped
scan start makes `empty1` report the six high zero bytes of the `total`
field as a "gap", and the in-place write clobbers `total`. -/
def sLong2 : MState :=
  match adds sLong1 none kLong [[97]] with
  | .ok p => p.1
  | .error _ => initState

set_option maxHeartbeats 8000000 in
/-- Counterexample to C1 as stated: for a fresh key of length 247 — the
data model allows keys up to 255 bytes — a successful `Add` of the single
value `[98]` is followed by a `Get` that misparses the record.  The Go
scan start `int(b[8] + 1 + 8)` is computed in byte arithmetic, so it
wraps to `(247 + 9) % 256 = 0` and the scan begins inside the `total`
field: `Get` returns three values — the low `total` byte `[18]`, the
247-byte key itself, and `[98]` — instead of `[[98]]`. -/
theorem C1_counterexample_scan_start_wraps :
    adds initState none kLong [[98]] = .ok (sLong1, none) ∧
    gets sLong1 kLong = .ok [[18], kLong, [98]] ∧
    ([[18], kLong, [98]] : List Bytes) ≠ [[98]] :=
  ⟨rfl, by decide, by decide⟩

/-- Error projection of `adds` (drops the state). -/
def addsErr (s : MState) (io : Option Nat) (key : Bytes) (values : List Bytes) :
    Res (Option AddErr) :=
  (adds s io key values).map (fun p => p.2)

theorem res_bind_ok {α β : Type} (a : α) (f : α → Res β) :
    (Except.ok a : Res α) >>= f = f a := rfl

theorem res_bind_err {α β : Type} (f : α → Res β) :
    (Except.error () : Res α) >>= f = .error () := rfl

theorem res_bind_pure {α β : Type} (a : α) (f : α → Res β) :
    (pure a : Res α) >>= f = f a := rfl

/-- Every error value `adds` returns comes out of the `add` record builder
with the same resulting state (the gap-reuse fast path never returns an
error value). -/
theorem adds_err_spec (s : MState) (io : Option Nat) (key : Bytes) (values : List Bytes)
    (s' : MState) (e : AddErr) (h : adds s io key values = .ok (s', some e)) :
    ∃ b8loc t, add s io b8loc key values = .ok (s', some e, t) := by
  cases values with
  | nil =>
    simp only [adds, if_pos rfl] at h
    injection h with h1
    injection h1 with h2 h3
    exact absurd h3 (by simp)
  | cons v vs =>
    have hv0 : (v :: vs : List Bytes) ≠ [] := by simp
    have hdirect : ∀ trip, add s io none key (v :: vs) = .ok trip →
        (Except.ok (trip.1, trip.2.1) : Res (MState × Option AddErr)) = .ok (s', some e) →
        ∃ b8loc t, add s io b8loc key (v :: vs) = .ok (s', some e, t) := by
      intro trip hadd hh
      injection hh with h1
      injection h1 with h2 h3
      exact ⟨none, trip.2.2, by rw [hadd, ← h2, ← h3]⟩
    cases hkm : s.keyMap key with
    | none =>
      simp only [adds, if_neg hv0, hkm] at h
      cases hadd : add s io none key (v :: vs) with
      | error u =>
        rw [hadd, res_bind_err] at h
        exact (Except.noConfusion h)
      | ok trip =>
        rw [hadd, res_bind_ok] at h
        exact hdirect trip hadd h
    | some offInt =>
      by_cases hsent : offInt = notExist
      · simp only [adds, if_neg hv0, hkm, if_pos hsent] at h
        cases hadd : add s io none key (v :: vs) with
        | error u =>
          rw [hadd, res_bind_err] at h
          exact (Except.noConfusion h)
        | ok trip =>
          rw [hadd, res_bind_ok] at h
          exact hdirect trip hadd h
      · have happend : ∀ (start : Nat),
            (do
              let l ← getB8Loop s (s.offset + 1) start
              let r ← add s io l key (v :: vs)
              (Except.ok (r.1, r.2.1) : Res (MState × Option AddErr))) = .ok (s', some e) →
            ∃ b8loc t, add s io b8loc key (v :: vs) = .ok (s', some e, t) := by
          intro start hh
          cases hB : getB8Loop s (s.offset + 1) start with
          | error u =>
            rw [hB, res_bind_err] at hh
            exact (Except.noConfusion hh)
          | ok l =>
            rw [hB, res_bind_ok] at hh
            cases hadd : add s io l key (v :: vs) with
            | error u =>
              rw [hadd, res_bind_err] at hh
              exact (Except.noConfusion hh)
            | ok trip =>
              rw [hadd, res_bind_ok] at hh
              injection hh with h1
              injection h1 with h2 h3
              exact ⟨l, trip.2.2, by rw [hadd, ← h2, ← h3]⟩
        cases vs with
        | nil =>
          simp only [adds, if_neg hv0, hkm, if_neg hsent] at h
          cases hE : emptyLoop s.mem (s.offset + 1) offInt.toNat with
          | error u =>
            rw [hE, res_bind_err] at h
            exact (Except.noConfusion h)
          | ok r =>
            rw [hE] at h
            obtain ⟨o, start, en, t⟩ := r
            rw [res_bind_ok] at h
            split at h
            · split at h
              · rw [res_bind_pure] at h
                injection h with h1
                injection h1 with h2 h3
                exact absurd h3 (by simp)
              · rw [res_bind_err] at h
                exact (Except.noConfusion h)
            · rw [res_bind_pure] at h
              exact happend _ h
        | cons w ws =>
          simp only [adds, if_neg hv0, hkm, if_neg hsent] at h
          rw [res_bind_pure] at h
          exact happend _ h


/-! ### Claims C2, C4, C5, C6, C8 -/

/-- State after `Exist("k")` on a fresh engine: the index maps "k"
(= [107]) to the NOT_PRESENT sentinel. -/
def c2State : MState := (Exist initState [107]).1

/-- Claim C2 (code bug): `Exist` on a missing key reports false and
installs the sentinel, after which `Del` of that key with a non-empty
value list panics — `dels` checks only `!ok`, passes `-1` to `del`, and
Go faults on the slice `s.bytesAddr[-1 : 7]` — instead of being the
claimed no-op.  (`Del` with an empty value list does remain a no-op.) -/
theorem C2_del_sentinel_panics :
    (Exist initState [107]).2 = false ∧
    c2State.keyMap [107] = some notExist ∧
    dels c2State [107] [[118]] = .error () ∧
    dels c2State [107] [] = .ok c2State :=
  ⟨rfl, rfl, rfl, rfl⟩

/-- The engine state used by the C4 bug witness: key "u" = [117] with a
28-byte head record holding "a", a second record holding a 20-byte and a
10-byte value, the 10-byte value deleted.  The chain's first gap is
`[31, 42)` in the second record — beyond the head record's 28 bytes. -/
def c4State : MState :=
  match adds initState none [117] [[97]] with
  | .ok p =>
    (match adds p.1 none [117] [List.replicate 20 65, List.replicate 10 66] with
     | .ok q =>
       (match dels q.1 [117] [List.replicate 10 66] with
        | .ok r => r
        | .error _ => initState)
     | .error _ => initState)
  | .error _ => initState

set_option maxHeartbeats 8000000 in
/-- Claim C4 (code bug): the chain's chosen gap is `[31, 42)` and the
value has length 10 = end - start - 1, so by the claim it must be written
in place; instead `adds` reads `total` at the head offset (28) but slices
at the gap record, so `b[start]` with `start = 31 ≥ 28 = total_head` is
out of range and the process panics. -/
theorem C4_gap_reuse_aliasing_panic :
    c4State.keyMap [117] = some (Int.ofNat 0) ∧
    emptyLoop c4State.mem (c4State.offset + 1) 0 = .ok (28, 31, 42, true) ∧
    bigUint64 (readBytes c4State.mem 0 8) = 28 ∧
    (List.replicate 10 122 : Bytes).length = 42 - 31 - 1 ∧
    (adds c4State none [117] [List.replicate 10 122]).isOk = false := by
  refine ⟨by decide, by decide, by decide, by decide, by decide⟩

/-- State extractor for concrete scenarios: the `.ok` state of an
`adds`-shaped result (the accompanying theorems certify the `.ok`). -/
def getOk (r : Res (MState × Option AddErr)) : MState :=
  match r with | .ok p => p.1 | .error _ => initState

/-- State extractor for concrete scenarios: the `.ok` state of a
`dels`-shaped result. -/
def getOkD (r : Res MState) : MState :=
  match r with | .ok p => p | .error _ => initState

/-- The engine state used by the C3 counterexample: key "u" = [117] with
one 37-byte record holding "a","x","bbbb","y", then "a" and "bbbb"
deleted.  The value area `[10, 21)` now holds a 2-byte zero run `[10,12)`
followed by a 5-byte zero run `[14,19)`. -/
def c3State : MState :=
  getOkD (dels (getOk (adds initState none [117] [[97], [120], [98, 98, 98, 98], [121]]))
    [117] [[97], [98, 98, 98, 98]])

set_option maxHeartbeats 8000000 in
/-- Claim C3 counterexample: the record offers a usable gap for the
3-byte value "zzz" — the maximal zero run `[14, 19)` of length 5 > 3 —
so by the claim the value must be written there in place.  Instead the
scan stops at the *first* zero run `[10, 12)` (length 2, too small),
`adds` gives up on reuse and appends a brand-new record: `end_offset`
grows from 37 to 67 and the usable run stays zero.  The code reuses the
first gap, not the first *usable* gap. -/
theorem C3_counterexample_first_gap_not_first_usable :
    c3State.offset = 37 ∧
    c3State.keyMap [117] = some (Int.ofNat 0) ∧
    emptyLoop c3State.mem (c3State.offset + 1) 0 = .ok (0, 10, 12, true) ∧
    readBytes c3State.mem 14 5 = List.replicate 5 0 ∧
    c3State.mem 13 ≠ 0 ∧ c3State.mem 19 ≠ 0 ∧
    ([122, 122, 122] : Bytes).length < 19 - 14 ∧
    (adds c3State none [117] [[122, 122, 122]]).map (fun p => (p.1.offset, p.2.isNone))
      = .ok (67, true) ∧
    (adds c3State none [117] [[122, 122, 122]]).map (fun p => p.1.mem 14) = .ok 0 := by
  refine ⟨by decide, by decide, by decide, by decide, by decide, by decide, by decide,
    by decide, by decide⟩

/-- The C7 scenario, first stage: key "u" = [117] holds "aa","bb" in one
record, then "aa" is deleted, leaving the 3-byte zero run `[10, 13)`. -/
def c7StateDel : MState :=
  getOkD (dels (getOk (adds initState none [117] [[97, 97], [98, 98]])) [117] [[97, 97]])

/-- The C7 scenario after Add A of "cccc": 4 ≥ 3 fails the fit rule, so
the record is appended at offset 32 and chained. -/
def c7StateA : MState := getOk (adds c7StateDel none [117] [[99, 99, 99, 99]])

/-- The C7 scenario after the later Add B of "x": 1 < 3 fits, so "x" is
written into the gap of the *head* record, ahead of A's record. -/
def c7StateB : MState := getOk (adds c7StateA none [117] [[120]])

set_option maxHeartbeats 8000000 in
/-- Claim C7 counterexample: Add A ("cccc") completes, then Add B ("x")
completes, yet `Get` returns `["x", "bb", "cccc"]` — B's value at index
0 strictly before A's value at index 2, because B was placed into a
reclaimed gap of the head record while A lives in an appended record.
Completed-Add order is not observation order once gap reuse occurs. -/
theorem C7_counterexample_gap_reuse_reorders :
    (adds c7StateDel none [117] [[99, 99, 99, 99]]).map (fun p => (p.1.offset, p.2.isNone))
      = .ok (63, true) ∧
    (adds c7StateA none [117] [[120]]).map (fun p => (p.1.offset, p.2.isNone))
      = .ok (63, true) ∧
    gets c7StateB [117] = .ok [[120], [98, 98], [99, 99, 99, 99]] ∧
    ([[120], [98, 98], [99, 99, 99, 99]] : List Bytes).getD 0 [] = [120] ∧
    ([[120], [98, 98], [99, 99, 99, 99]] : List Bytes).getD 2 [] = [99, 99, 99, 99] := by
  refine ⟨by decide, by decide, by decide, by decide, by decide⟩

/-- Claim C5 counterexample: `Add` with a zero-length value does not fail
— it succeeds, silently writing a single tombstone byte, and a subsequent
`Get` returns nothing. -/
theorem C5_counterexample_zero_length_value :
    addsErr initState none [107] [[]] = .ok none ∧
    (match adds initState none [107] [[]] with
     | .ok p => gets p.1 [107]
     | .error _ => .error ()) = .ok [] :=
  ⟨rfl, rfl⟩

theorem addLoop_error_iff (vs : List Bytes) :
    ∀ b idx, (∃ er, addLoop b idx vs = .error er) ↔ ∃ v ∈ vs, 255 < v.length := by
  induction vs with
  | nil =>
    intro b idx
    simp [addLoop]
  | cons v vs ih =>
    intro b idx
    by_cases hbig : 255 < v.length
    · simp only [addLoop, if_pos (by omega : v.length > 255)]
      constructor
      · intro _
        exact ⟨v, by simp, hbig⟩
      · intro _
        exact ⟨.tooLarge, rfl⟩
    · simp only [addLoop, if_neg (by omega : ¬ v.length > 255)]
      constructor
      · intro hh
        obtain ⟨w, hw, hwl⟩ := (ih _ _).mp hh
        exact ⟨w, by simp [hw], hwl⟩
      · intro ⟨w, hw, hwl⟩
        rcases List.mem_cons.mp hw with rfl | hw'
        · omega
        · exact (ih _ _).mpr ⟨w, hw', hwl⟩

theorem add_tooLarge_iff (s : MState) (io : Option Nat) (b8loc : Option Nat)
    (key : Bytes) (values : List Bytes) :
    (∃ s' t, add s io b8loc key values = .ok (s', some .tooLarge, t))
      ↔ ∃ v ∈ values, 255 < v.length := by
  rw [← addLoop_error_iff values
    (listCopy ((List.replicate 1024 0).set 8 (key.length % 256)) 9 key)
    (min key.length (((List.replicate 1024 0).set 8 (key.length % 256)).length - 9) + 1 + 8)]
  constructor
  · intro ⟨s', t, h⟩
    simp only [add] at h
    cases hl : addLoop (listCopy ((List.replicate 1024 0).set 8 (key.length % 256)) 9 key)
        (min key.length (((List.replicate 1024 0).set 8 (key.length % 256)).length - 9) + 1 + 8)
        values with
    | error er => exact ⟨er, rfl⟩
    | ok pr =>
      rw [hl] at h
      obtain ⟨b, idx⟩ := pr
      simp only [] at h
      split at h
      · cases h
      · split at h
        · cases h
        · match io, h with
          | some nw, h =>
            injection h with h1
            injection h1 with h2 h3
            injection h3 with h4
            exact absurd h4 (by simp)
          | none, h =>
            injection h with h1
            injection h1 with h2 h3
            injection h3 with h4
            exact absurd h4 (by simp)
  · intro ⟨er, hl⟩
    have her : er = .tooLarge := addLoop_err values _ _ _ hl
    subst her
    refine ⟨s, 0, ?_⟩
    simp only [add, hl]

/-- Claim C5 (amended): for a key with no live index entry, `Add` returns
the 255-byte-limit error exactly when some value is longer than 255
bytes; zero-length values are not rejected. -/
theorem C5_amended_tooLarge_iff (s : MState) (io : Option Nat) (key : Bytes)
    (values : List Bytes)
    (hfresh : s.keyMap key = none ∨ s.keyMap key = some notExist) :
    (∃ s', adds s io key values = .ok (s', some .tooLarge))
      ↔ ∃ v ∈ values, 255 < v.length := by
  constructor
  · intro ⟨s', h⟩
    obtain ⟨b8loc, t, hadd⟩ := adds_err_spec s io key values s' _ h
    exact (add_tooLarge_iff s io b8loc key values).mp ⟨s', t, hadd⟩
  · intro hex
    have hvne : values ≠ [] := by
      obtain ⟨v, hv, _⟩ := hex
      intro hcon
      rw [hcon] at hv
      cases hv
    obtain ⟨s', t, hadd⟩ := (add_tooLarge_iff s io none key values).mpr hex
    refine ⟨s', ?_⟩
    rcases hfresh with hf | hf
    · simp only [adds, if_neg hvne, hf]
      rw [hadd, res_bind_ok]
    · simp only [adds, if_neg hvne, hf]
      rw [if_true, hadd, res_bind_ok]

/-- Witness for the amended C5 at a concrete input: a 256-byte value on a
fresh key is rejected with the 255-limit error (and a 255-byte or 1-byte
value is not — see the C1 witness). -/
theorem C5_amended_witness :
    ∃ s', adds initState none [107] [List.replicate 256 97] = .ok (s', some .tooLarge) :=
  (C5_amended_tooLarge_iff initState none [107] [List.replicate 256 97]
    (Or.inl rfl)).mpr ⟨List.replicate 256 97, by simp, by simp⟩

/-- Claim C6 counterexample: a multi-value `Add` whose second value
exceeds 255 bytes returns ValueTooLarge, but the first value "a" has NOT
been appended: `end_offset` stays 0 and `Get` returns nothing — the error
is returned before `f.Write` is ever called. -/
theorem C6_counterexample_nothing_appended :
    addsErr initState none [117] [[97], List.replicate 256 98] = .ok (some .tooLarge) ∧
    (match adds initState none [117] [[97], List.replicate 256 98] with
     | .ok p => gets p.1 [117]
     | .error _ => .error ()) = .ok [] ∧
    (match adds initState none [117] [[97], List.replicate 256 98] with
     | .ok p => p.1.offset
     | .error _ => 1) = 0 :=
  ⟨rfl, rfl, rfl⟩

/-- Claim C6 (amended): when `Add` raises ValueTooLarge, the engine state
is completely unchanged — nothing was appended, the index and the chains
are untouched, and subsequent `Get`s return exactly what they did before. -/
theorem C6_amended_tooLarge_state_unchanged (s : MState) (io : Option Nat)
    (key : Bytes) (values : List Bytes) (s' : MState)
    (h : adds s io key values = .ok (s', some .tooLarge)) :
    s' = s ∧ ∀ k, gets s' k = gets s k := by
  obtain ⟨b8loc, t, hadd⟩ := adds_err_spec s io key values s' _ h
  obtain ⟨h1, _⟩ := add_tooLarge_spec s io b8loc key values s' t hadd
  exact ⟨h1, fun k => by rw [h1]⟩

/-- Witness for the amended C6. -/
theorem C6_amended_witness :
    (match adds initState none [117] [[97], List.replicate 256 98] with
     | .ok p => p.1
     | .error _ => c2State) = initState :=
  (C6_amended_tooLarge_state_unchanged initState none [117] [[97], List.replicate 256 98]
    initState rfl).1.symm ▸ rfl

/-- Claim C8: when the append write fails, `Add` surfaces the I/O error,
`end_offset` is not advanced, the key's index entry is unchanged, and no
byte below the old `end_offset` — in particular the previous tail's
`next` field — is modified, so the failed bytes are never referenced. -/
theorem C8_io_failure_no_state_change (s : MState) (io : Option Nat)
    (key : Bytes) (values : List Bytes) (s' : MState)
    (h : adds s io key values = .ok (s', some .ioFail)) :
    s'.offset = s.offset ∧ s'.keyMap = s.keyMap ∧ ∀ a < s.offset, s'.mem a = s.mem a := by
  obtain ⟨b8loc, t, hadd⟩ := adds_err_spec s io key values s' _ h
  exact add_ioFail_spec s io b8loc key values s' t hadd

/-- Witness for C8: a concrete failing write (the platform reports 3 bytes
written, then errors). -/
theorem C8_io_failure_witness :
    (match adds initState (some 3) [117] [[97]] with
     | .ok p => p.1.offset
     | .error _ => 1) = 0 := by
  have h : ∃ s', adds initState (some 3) [117] [[97]] = .ok (s', some .ioFail) := by
    refine ⟨{ initState with
      mem := writeBytes initState.mem 0 ((recBytes (addRec [117] [[97]] 0)).take 3) }, ?_⟩
    rfl
  obtain ⟨s', hs'⟩ := h
  have h1 := (C8_io_failure_no_state_change initState (some 3) [117] [[97]] s' hs').1
  rw [hs']
  show s'.offset = 0
  rw [h1]
  rfl


/-! ### The operation step relation and claim C10 -/

theorem add_keyMap_spec (s : MState) (io : Option Nat) (b8loc : Option Nat)
    (key : Bytes) (values : List Bytes) (s' : MState) (e : Option AddErr) (t : Nat)
    (h : add s io b8loc key values = .ok (s', e, t)) :
    s'.keyMap = s.keyMap ∨ s'.keyMap = addKeyMap s key := by
  simp only [add] at h
  generalize addLoop (listCopy ((List.replicate 1024 0).set 8 (key.length % 256)) 9 key)
      (min key.length (((List.replicate 1024 0).set 8 (key.length % 256)).length - 9) + 1 + 8)
      values = r at h
  match r with
  | .error er =>
    injection h with h1
    injection h1 with h2 h3
    rw [← h2]
    exact Or.inl rfl
  | .ok (b, idx) =>
    simp only [] at h
    split at h
    · cases h
    · split at h
      · cases h
      · match io with
        | some nw =>
          injection h with h1
          injection h1 with h2 h3
          rw [← h2]
          exact Or.inl rfl
        | none =>
          injection h with h1
          injection h1 with h2 h3
          rw [← h2]
          exact Or.inr rfl

theorem addKeyMap_preserves_real (s : MState) (key k : Bytes) (o : Int)
    (hk : s.keyMap k = some o) (ho : o ≠ notExist) : addKeyMap s key k = some o := by
  simp only [addKeyMap]
  by_cases he : k = key
  · subst he
    rw [if_pos rfl, hk]
    show (if o = notExist then some (Int.ofNat s.offset) else some o) = some o
    rw [if_neg ho]
  · rw [if_neg he, hk]

theorem adds_keyMap_spec (s : MState) (io : Option Nat) (key : Bytes) (values : List Bytes)
    (s' : MState) (e : Option AddErr) (h : adds s io key values = .ok (s', e)) :
    s'.keyMap = s.keyMap ∨ s'.keyMap = addKeyMap s key := by
  cases values with
  | nil =>
    simp only [adds, if_pos rfl] at h
    injection h with h1
    injection h1 with h2 h3
    rw [← h2]
    exact Or.inl rfl
  | cons v vs =>
    have hv0 : (v :: vs : List Bytes) ≠ [] := by simp
    have hdirect : ∀ b8loc trip, add s io b8loc key (v :: vs) = .ok trip →
        (Except.ok (trip.1, trip.2.1) : Res (MState × Option AddErr)) = .ok (s', e) →
        s'.keyMap = s.keyMap ∨ s'.keyMap = addKeyMap s key := by
      intro b8loc trip hadd hh
      injection hh with h1
      injection h1 with h2 h3
      rw [← h2]
      exact add_keyMap_spec s io b8loc key (v :: vs) trip.1 trip.2.1 trip.2.2 (by rw [hadd])
    cases hkm : s.keyMap key with
    | none =>
      simp only [adds, if_neg hv0, hkm] at h
      cases hadd : add s io none key (v :: vs) with
      | error u =>
        rw [hadd, res_bind_err] at h
        exact (Except.noConfusion h)
      | ok trip =>
        rw [hadd, res_bind_ok] at h
        exact hdirect none trip hadd h
    | some offInt =>
      by_cases hsent : offInt = notExist
      · simp only [adds, if_neg hv0, hkm, if_pos hsent] at h
        cases hadd : add s io none key (v :: vs) with
        | error u =>
          rw [hadd, res_bind_err] at h
          exact (Except.noConfusion h)
        | ok trip =>
          rw [hadd, res_bind_ok] at h
          exact hdirect none trip hadd h
      · have happend : ∀ (start : Nat),
            (do
              let l ← getB8Loop s (s.offset + 1) start
              let r ← add s io l key (v :: vs)
              (Except.ok (r.1, r.2.1) : Res (MState × Option AddErr))) = .ok (s', e) →
            s'.keyMap = s.keyMap ∨ s'.keyMap = addKeyMap s key := by
          intro start hh
          cases hB : getB8Loop s (s.offset + 1) start with
          | error u =>
            rw [hB, res_bind_err] at hh
            exact (Except.noConfusion hh)
          | ok l =>
            rw [hB, res_bind_ok] at hh
            cases hadd : add s io l key (v :: vs) with
            | error u =>
              rw [hadd, res_bind_err] at hh
              exact (Except.noConfusion hh)
            | ok trip =>
              rw [hadd, res_bind_ok] at hh
              exact hdirect l trip hadd hh
        cases vs with
        | nil =>
          simp only [adds, if_neg hv0, hkm, if_neg hsent] at h
          cases hE : emptyLoop s.mem (s.offset + 1) offInt.toNat with
          | error u =>
            rw [hE, res_bind_err] at h
            exact (Except.noConfusion h)
          | ok r =>
            rw [hE] at h
            obtain ⟨o, start, en, t⟩ := r
            rw [res_bind_ok] at h
            split at h
            · split at h
              · rw [res_bind_pure] at h
                injection h with h1
                injection h1 with h2 h3
                rw [← h2]
                exact Or.inl rfl
              · rw [res_bind_err] at h
                exact (Except.noConfusion h)
            · rw [res_bind_pure] at h
              exact happend _ h
        | cons w ws =>
          simp only [adds, if_neg hv0, hkm, if_neg hsent] at h
          rw [res_bind_pure] at h
          exact happend _ h

theorem dels_keyMap (s : MState) (key : Bytes) (values : List Bytes) (s' : MState)
    (h : dels s key values = .ok s') : s'.keyMap = s.keyMap := by
  cases hkm : s.keyMap key with
  | none =>
    simp only [dels, hkm] at h
    injection h with h1
    rw [← h1]
  | some offset =>
    simp only [dels, hkm] at h
    split at h
    · injection h with h1
      rw [← h1]
    · cases hd : delsLoop values (s.offset + 1) s.mem offset with
      | error u =>
        rw [hd, res_bind_err] at h
        exact (Except.noConfusion h)
      | ok m' =>
        rw [hd, res_bind_ok] at h
        injection h with h1
        rw [← h1]

theorem delsPrefix_keyMap (s : MState) (key : Bytes) (values : List Bytes) (s' : MState)
    (h : delsPrefix s key values = .ok s') : s'.keyMap = s.keyMap := by
  cases hkm : s.keyMap key with
  | none =>
    simp only [delsPrefix, hkm] at h
    injection h with h1
    rw [← h1]
  | some offset =>
    simp only [delsPrefix, hkm] at h
    split at h
    · injection h with h1
      rw [← h1]
    · cases hd : delsPrefixLoop values (s.offset + 1) s.mem offset with
      | error u =>
        rw [hd, res_bind_err] at h
        exact (Except.noConfusion h)
      | ok m' =>
        rw [hd, res_bind_ok] at h
        injection h with h1
        rw [← h1]

theorem Exist_keyMap_preserves_real (s : MState) (key k : Bytes) (o : Int)
    (hk : s.keyMap k = some o) (ho : o ≠ notExist) : (Exist s key).1.keyMap k = some o := by
  cases hkm : s.keyMap key with
  | none =>
    simp only [Exist, hkm]
    by_cases he : k = key
    · subst he
      rw [hkm] at hk
      cases hk
    · rw [if_neg he, hk]
  | some o2 =>
    simp only [Exist, hkm]
    by_cases hs2 : o2 ≠ notExist
    · rw [if_pos hs2]
      exact hk
    · rw [if_neg hs2]
      show (if k = key then some notExist else s.keyMap k) = some o
      by_cases he : k = key
      · subst he
        rw [hk] at hkm
        injection hkm with h2
        exact absurd (h2.trans (not_not.mp hs2)) ho
      · rw [if_neg he, hk]

/-- Validity of operation arguments per the data model: keys and values
are Go strings of bytes, at most 255 bytes long. -/
def ValidKey (k : Bytes) : Prop := k.length ≤ 255 ∧ CleanBytes k

/-- Validity of value arguments per the data model. -/
def ValidVals (vs : List Bytes) : Prop := ∀ v ∈ vs, v.length ≤ 255 ∧ CleanBytes v

/-! ### The disk layout invariant

Records are appended one after another starting at offset 0, so every
reachable memory is described by a list of abstract records laid out
consecutively; `offAt D i` is the file offset of the `i`-th record. -/

/-- File offset of the `i`-th record when the records of `D` are laid out
consecutively from offset 0. -/
def offAt : List Rec → Nat → Nat
  | _, 0 => 0
  | [], _ + 1 => 0
  | r :: D, i + 1 => recSize r + offAt D i

/-- The 8-byte `total` field of the record stored at `o`, as every source
loop reads it. -/
def recTotal (m : Mem) (o : Nat) : Nat := bigUint64 (readBytes m o 8)

/-- The 8-byte `next` field (the last eight bytes) of the record stored
at `o`. -/
def recNext (m : Mem) (o : Nat) : Nat :=
  bigUint64 (readBytes m (o + recTotal m o - 8) 8)

/-- Well-formed abstract record: clean key of length at most 246 and
well-formed slots.  The key bound is 246, not the data model's 255: each
scan loop starts at `(klen + 9) % 256`, so for a key of length 247..255
the wrapped start index lands inside the `total` field and the loops
misparse the record — the layout discipline is only maintained below the
wrap threshold. -/
def RecWF (r : Rec) : Prop :=
  r.key.length ≤ 246 ∧ CleanBytes r.key ∧ ∀ x ∈ r.slots, SlotWF x

theorem recSize_ge (r : Rec) : 25 ≤ recSize r := by
  simp only [recSize]
  omega

theorem offAt_nil (i : Nat) : offAt [] i = 0 := by
  cases i <;> rfl

theorem offAt_zero (D : List Rec) : offAt D 0 = 0 := by
  cases D <;> rfl

theorem offAt_cons_succ (r : Rec) (D : List Rec) (i : Nat) :
    offAt (r :: D) (i + 1) = recSize r + offAt D i := rfl

theorem offAt_mono (D : List Rec) : ∀ i j, i ≤ j → offAt D i ≤ offAt D j := by
  induction D with
  | nil =>
    intro i j _
    rw [offAt_nil, offAt_nil]
  | cons r D ih =>
    intro i j hij
    cases i with
    | zero =>
      show 0 ≤ _
      omega
    | succ i =>
      obtain ⟨j, rfl⟩ : ∃ j', j = j' + 1 := ⟨j - 1, by omega⟩
      rw [offAt_cons_succ, offAt_cons_succ]
      have := ih i j (by omega)
      omega

theorem offAt_get_succ (D : List Rec) : ∀ (i : Nat) (hi : i < D.length),
    offAt D (i + 1) = offAt D i + recSize (D.get ⟨i, hi⟩) := by
  induction D with
  | nil =>
    intro i hi
    simp at hi
  | cons r D ih =>
    intro i hi
    cases i with
    | zero =>
      show offAt (r :: D) 1 = offAt (r :: D) 0 + recSize r
      rw [offAt_cons_succ, offAt_zero, offAt_zero]
      omega
    | succ i =>
      rw [offAt_cons_succ, offAt_cons_succ, ih i (by simpa using hi)]
      show _ = recSize r + offAt D i + recSize (D.get ⟨i, _⟩)
      omega

theorem offAt_block_le (D : List Rec) (i j : Nat) (hi : i < D.length) (hij : i < j)
    (hj : j ≤ D.length) : offAt D i + recSize (D.get ⟨i, hi⟩) ≤ offAt D j := by
  rw [← offAt_get_succ D i hi]
  exact offAt_mono D (i + 1) j (by omega)

theorem offAt_lt_of_lt (D : List Rec) (i j : Nat) (hi : i < D.length) (hij : i < j)
    (hj : j ≤ D.length) : offAt D i < offAt D j := by
  have h1 := offAt_block_le D i j hi hij hj
  have h2 := recSize_ge (D.get ⟨i, hi⟩)
  omega

theorem length_le_offAt (D : List Rec) : D.length ≤ offAt D D.length := by
  induction D with
  | nil => rfl
  | cons r D ih =>
    show (r :: D).length ≤ recSize r + offAt D D.length
    have := recSize_ge r
    simp only [List.length_cons]
    omega

theorem offAt_congr (D D' : List Rec) (hlen : D'.length = D.length)
    (hsz : ∀ (i : Nat) (hi : i < D.length) (hi' : i < D'.length),
      recSize (D'.get ⟨i, hi'⟩) = recSize (D.get ⟨i, hi⟩)) :
    ∀ i, offAt D' i = offAt D i := by
  induction D generalizing D' with
  | nil =>
    intro i
    have h0 : D' = [] := List.length_eq_zero.mp (by rw [hlen]; rfl)
    subst h0
    rfl
  | cons r D ih =>
    intro i
    match D', hlen with
    | r' :: D', hlen =>
      cases i with
      | zero => rfl
      | succ i =>
        rw [offAt_cons_succ, offAt_cons_succ]
        have h0 := hsz 0 (by simp) (by simp)
        simp only [List.get] at h0
        rw [h0, ih D' (by simpa using hlen) (fun i hi hi' => by
          have := hsz (i + 1) (by simpa using hi) (by simpa using hi')
          simpa using this) i]

theorem offAt_set (D : List Rec) (j : Nat) (r' : Rec) (hj : j < D.length)
    (hsz : recSize r' = recSize (D.get ⟨j, hj⟩)) :
    ∀ i, offAt (D.set j r') i = offAt D i := by
  apply offAt_congr
  · simp
  · intro i hi hi'
    by_cases he : i = j
    · subst he
      simp only [List.get_eq_getElem, List.getElem_set_self, hsz]
    · simp only [List.get_eq_getElem]
      rw [List.getElem_set_ne (fun a => he a.symm) hi']

theorem offAt_append_le (D E : List Rec) : ∀ (i : Nat), i ≤ D.length →
    offAt (D ++ E) i = offAt D i := by
  induction D with
  | nil =>
    intro i hi
    have h0 : i = 0 := by simpa using hi
    subst h0
    rw [offAt_zero, offAt_zero]
  | cons r D ih =>
    intro i hi
    cases i with
    | zero => rfl
    | succ i =>
      show recSize r + offAt (D ++ E) i = recSize r + offAt D i
      rw [ih i (by simpa using hi)]

theorem offAt_append_len (D : List Rec) (r : Rec) :
    offAt (D ++ [r]) (D.length + 1) = offAt D D.length + recSize r := by
  induction D with
  | nil =>
    show recSize r + 0 = 0 + recSize r
    omega
  | cons q D ih =>
    show recSize q + offAt (D ++ [r]) (D.length + 1) = recSize q + offAt D D.length + recSize r
    rw [ih]
    omega

/-- The disk part of the reachability invariant: memory `m` holds the
records of `D` consecutively from offset 0, each record is well formed,
and every `next` field is 0 or the offset of a strictly later record. -/
structure DiskD (m : Mem) (D : List Rec) : Prop where
  hsz : offAt D D.length < 2 ^ 64
  hmem : ∀ (i : Nat) (hi : i < D.length), RecAt m (offAt D i) (D.get ⟨i, hi⟩)
  hwf : ∀ r ∈ D, RecWF r
  hnext : ∀ (i : Nat) (hi : i < D.length), (D.get ⟨i, hi⟩).next = 0 ∨
    ∃ j, ∃ hj : j < D.length, i < j ∧ (D.get ⟨i, hi⟩).next = offAt D j

/-- The full reachability invariant: the memory is a consecutive record
layout, `end_offset` sits exactly after the last record, and every index
entry is the sentinel or the offset of some record. -/
def StateD (s : MState) (D : List Rec) : Prop :=
  DiskD s.mem D ∧ s.offset = offAt D D.length ∧
    ∀ k o, s.keyMap k = some o → o = notExist ∨
      ∃ i, ∃ hi : i < D.length, o = Int.ofNat (offAt D i)

theorem DiskD.rec_small (m : Mem) (D : List Rec) (hd : DiskD m D)
    (i : Nat) (hi : i < D.length) : recSize (D.get ⟨i, hi⟩) < 2 ^ 64 := by
  have h1 := offAt_block_le D i D.length hi hi (le_refl _)
  have h2 := hd.hsz
  omega

theorem DiskD.next_small (m : Mem) (D : List Rec) (hd : DiskD m D)
    (i : Nat) (hi : i < D.length) : (D.get ⟨i, hi⟩).next < 2 ^ 64 := by
  rcases hd.hnext i hi with h | ⟨j, hj, _, h⟩
  · rw [h]
    exact Nat.pos_pow_of_pos _ (by norm_num)
  · rw [h]
    have h1 := offAt_mono D j D.length (by omega)
    have h2 := hd.hsz
    omega

theorem DiskD.recTotal_eq (m : Mem) (D : List Rec) (hd : DiskD m D)
    (i : Nat) (hi : i < D.length) :
    recTotal m (offAt D i) = recSize (D.get ⟨i, hi⟩) :=
  RecAt_total m _ _ (hd.hmem i hi) (hd.rec_small m D i hi)

theorem DiskD.recNext_eq (m : Mem) (D : List Rec) (hd : DiskD m D)
    (i : Nat) (hi : i < D.length) :
    recNext m (offAt D i) = (D.get ⟨i, hi⟩).next := by
  show bigUint64 (readBytes m (offAt D i + recTotal m (offAt D i) - 8) 8) = _
  rw [hd.recTotal_eq m D i hi]
  exact RecAt_next m _ _ (hd.hmem i hi) (hd.next_small m D i hi)

/-- The index list of one chain, head to tail: every link points to a
strictly later record and the last record has `next = 0`.  The strictly
increasing indices make every chain acyclic with exactly one tail. -/
inductive ChainIdx (D : List Rec) : Nat → List Nat → Prop
  | tail (i : Nat) (hi : i < D.length) (h0 : (D.get ⟨i, hi⟩).next = 0) : ChainIdx D i [i]
  | cons (i j : Nat) (l : List Nat) (hi : i < D.length) (hj : j < D.length) (hij : i < j)
      (hn : (D.get ⟨i, hi⟩).next = offAt D j) (hc : ChainIdx D j l) : ChainIdx D i (i :: l)

theorem ChainIdx.bound (D : List Rec) (i : Nat) (l : List Nat) (hc : ChainIdx D i l) :
    ∀ j ∈ l, i ≤ j ∧ j < D.length := by
  induction hc with
  | tail i hi _ =>
    intro j hj
    rw [List.mem_singleton] at hj
    subst hj
    exact ⟨le_refl _, hi⟩
  | cons i j l hi hj hij _ _ ih =>
    intro j' hj'
    rcases List.mem_cons.mp hj' with rfl | hj'
    · exact ⟨le_refl _, hi⟩
    · obtain ⟨h1, h2⟩ := ih j' hj'
      exact ⟨by omega, h2⟩

theorem ChainIdx.length_le (D : List Rec) (i : Nat) (l : List Nat)
    (hc : ChainIdx D i l) : l.length + i ≤ D.length := by
  induction hc with
  | tail i hi _ =>
    simp only [List.length_singleton]
    omega
  | cons i j l hi hj hij _ _ ih =>
    simp only [List.length_cons]
    omega

theorem ChainIdx.ne_nil (D : List Rec) (i : Nat) (l : List Nat)
    (hc : ChainIdx D i l) : l ≠ [] := by
  cases hc <;> simp

theorem chain_exists (D : List Rec)
    (hnext : ∀ (i : Nat) (hi : i < D.length), (D.get ⟨i, hi⟩).next = 0 ∨
      ∃ j, ∃ hj : j < D.length, i < j ∧ (D.get ⟨i, hi⟩).next = offAt D j) :
    ∀ (n i : Nat) (hi : i < D.length), D.length - i ≤ n → ∃ l, ChainIdx D i l := by
  intro n
  induction n with
  | zero =>
    intro i hi hn
    omega
  | succ n ih =>
    intro i hi hn
    rcases hnext i hi with h0 | ⟨j, hj, hij, hnx⟩
    · exact ⟨[i], .tail i hi h0⟩
    · obtain ⟨l, hl⟩ := ih j hj (by omega)
      exact ⟨i :: l, .cons i j l hi hj hij hnx hl⟩

/-! ### What the `empty1` scan computes, slot by slot -/

/-- Skip the leading tombstones of a slot list; returns the byte position
after them and the remaining slots. -/
def skipTombs : List Slot → Nat → Nat × List Slot
  | .tomb :: rest, i => skipTombs rest (i + 1)
  | l, i => (i, l)

theorem skipTombs_spec (sl : List Slot) : ∀ i, ∃ k rest,
    sl = List.replicate k .tomb ++ rest ∧ (rest = [] ∨ ∃ v t, rest = .live v :: t) ∧
    skipTombs sl i = (i + k, rest) := by
  induction sl with
  | nil =>
    intro i
    exact ⟨0, [], rfl, Or.inl rfl, rfl⟩
  | cons x rest ih =>
    intro i
    cases x with
    | tomb =>
      obtain ⟨k, rest', h1, h2, h3⟩ := ih (i + 1)
      refine ⟨k + 1, rest', ?_, h2, ?_⟩
      · rw [h1]
        rfl
      · show skipTombs rest (i + 1) = _
        rw [h3]
        congr 1
        omega
    | live v =>
      exact ⟨0, .live v :: rest, rfl, Or.inr ⟨v, rest, rfl⟩, rfl⟩

/-- The exit value of the `empty1` loop over a slot list starting at byte
position `i` (with `first` still false): `(start, end, t, early)`. -/
def scanSpec : List Slot → Nat → Nat × Nat × Bool × Bool
  | [], _ => (0, 0, false, false)
  | .tomb :: rest, i =>
    (match skipTombs rest (i + 1) with
     | (_, []) => (i, 0, true, false)
     | (j, _ :: _) => (i, j, true, true))
  | .live v :: rest, i => scanSpec rest (i + v.length + 1)

theorem empty1Loop_stop (m : Mem) (o bound fuel i : Nat) (t : Bool) (start : Nat)
    (h : ¬ i < bound) : empty1Loop m o bound fuel i t start = (start, 0, t, false) := by
  cases fuel with
  | zero => rfl
  | succ f =>
    show (if i < bound then
        (if m (o + i) = 0 then
          (if t then empty1Loop m o bound f (i + 1) t start
           else empty1Loop m o bound f (i + 1) true i)
         else (if t then (start, i, t, true)
           else empty1Loop m o bound f (i + m (o + i) + 1) t start))
      else (start, 0, t, false)) = (start, 0, t, false)
    rw [if_neg h]

theorem empty1Loop_zero_t (m : Mem) (o bound fuel i : Nat) (start : Nat)
    (h : i < bound) (h0 : m (o + i) = 0) :
    empty1Loop m o bound (fuel + 1) i true start = empty1Loop m o bound fuel (i + 1) true start := by
  show (if i < bound then
      (if m (o + i) = 0 then
        (if true then empty1Loop m o bound fuel (i + 1) true start
         else empty1Loop m o bound fuel (i + 1) true i)
       else (if true then (start, i, true, true)
         else empty1Loop m o bound fuel (i + m (o + i) + 1) true start))
    else (start, 0, true, false)) = _
  rw [if_pos h, if_pos h0, if_pos rfl]

theorem empty1Loop_zero_f (m : Mem) (o bound fuel i : Nat) (start : Nat)
    (h : i < bound) (h0 : m (o + i) = 0) :
    empty1Loop m o bound (fuel + 1) i false start = empty1Loop m o bound fuel (i + 1) true i := by
  show (if i < bound then
      (if m (o + i) = 0 then
        (if false then empty1Loop m o bound fuel (i + 1) false start
         else empty1Loop m o bound fuel (i + 1) true i)
       else (if false then (start, i, false, true)
         else empty1Loop m o bound fuel (i + m (o + i) + 1) false start))
    else (start, 0, false, false)) = _
  rw [if_pos h, if_pos h0, if_neg (by simp)]

theorem empty1Loop_live_t (m : Mem) (o bound fuel i : Nat) (start : Nat)
    (h : i < bound) (h0 : m (o + i) ≠ 0) :
    empty1Loop m o bound (fuel + 1) i true start = (start, i, true, true) := by
  show (if i < bound then
      (if m (o + i) = 0 then
        (if true then empty1Loop m o bound fuel (i + 1) true start
         else empty1Loop m o bound fuel (i + 1) true i)
       else (if true then (start, i, true, true)
         else empty1Loop m o bound fuel (i + m (o + i) + 1) true start))
    else (start, 0, true, false)) = _
  rw [if_pos h, if_neg h0, if_pos rfl]

theorem empty1Loop_live_f (m : Mem) (o bound fuel i : Nat) (start : Nat)
    (h : i < bound) (h0 : m (o + i) ≠ 0) :
    empty1Loop m o bound (fuel + 1) i false start
      = empty1Loop m o bound fuel (i + m (o + i) + 1) false start := by
  show (if i < bound then
      (if m (o + i) = 0 then
        (if false then empty1Loop m o bound fuel (i + 1) false start
         else empty1Loop m o bound fuel (i + 1) true i)
       else (if false then (start, i, false, true)
         else empty1Loop m o bound fuel (i + m (o + i) + 1) false start))
    else (start, 0, false, false)) = _
  rw [if_pos h, if_neg h0, if_neg (by simp)]

/-- The `empty1` loop in gap mode (`first` already true, gap started at
`st`): it skips the remaining tombstones and stops at the next live slot
(early) or at the boundary. -/
theorem empty1Loop_tombs (m : Mem) (o : Nat) (sl : List Slot)
    (hwf : ∀ x ∈ sl, SlotWF x) :
    ∀ (i bound fuel st : Nat), bound = i + (slotsBytes sl).length →
      (slotsBytes sl).length ≤ fuel →
      (∀ j < (slotsBytes sl).length, m (o + (i + j)) = (slotsBytes sl).getD j 0) →
      empty1Loop m o bound fuel i true st =
        (match skipTombs sl i with
         | (_, []) => (st, 0, true, false)
         | (j, _ :: _) => (st, j, true, true)) := by
  induction sl with
  | nil =>
    intro i bound fuel st hb _ _
    rw [empty1Loop_stop _ _ _ _ _ _ _ (by simp [slotsBytes] at hb; omega)]
    rfl
  | cons x rest ih =>
    intro i bound fuel st hb hfuel hr
    rw [slotsBytes_cons] at hb hfuel hr
    cases x with
    | tomb =>
      obtain ⟨f, rfl⟩ : ∃ f, fuel = f + 1 := by
        refine ⟨fuel - 1, ?_⟩
        simp only [slotBytes, List.length_append, List.length_singleton] at hfuel
        omega
      have h0 : m (o + i) = 0 := by
        have h00 := hr 0 (by simp [slotBytes])
        simpa [slotBytes] using h00
      have hlt : i < bound := by
        simp only [slotBytes, List.length_append, List.length_singleton] at hb
        omega
      rw [empty1Loop_zero_t _ _ _ _ _ _ hlt h0]
      show _ = (match skipTombs rest (i + 1) with
        | (_, []) => (st, 0, true, false)
        | (j, _ :: _) => (st, j, true, true))
      apply ih (fun w hw => hwf w (by simp [hw])) (i + 1) bound f st
      · simp only [slotBytes, List.length_append, List.length_singleton] at hb ⊢
        omega
      · simp only [slotBytes, List.length_append, List.length_singleton] at hfuel ⊢
        omega
      · intro j hj
        have hh := hr (1 + j) (by simp only [slotBytes, List.length_append,
          List.length_singleton]; omega)
        rw [show o + (i + (1 + j)) = o + (i + 1 + j) by omega] at hh
        rw [hh]
        simp only [slotBytes]
        rw [show (1 + j : Nat) = ([0] : Bytes).length + j by simp, getD_concat]
    | live v =>
      obtain ⟨hv1, _, _⟩ := hwf (.live v) (by simp)
      have hlb : slotBytes (.live v) = v.length :: v := rfl
      rw [hlb] at hb hfuel hr
      obtain ⟨f, rfl⟩ : ∃ f, fuel = f + 1 := by
        refine ⟨fuel - 1, ?_⟩
        simp only [List.length_append, List.length_cons] at hfuel
        omega
      have h0 : m (o + i) = v.length := by
        have h00 := hr 0 (by simp)
        simpa using h00
      have hlt : i < bound := by
        simp only [List.length_append, List.length_cons] at hb
        omega
      rw [empty1Loop_live_t _ _ _ _ _ _ hlt (by rw [h0]; omega)]
      rfl

/-- The `empty1` loop from a fresh start computes `scanSpec`: the first
zero run wins, whatever `start` value the caller threads through. -/
theorem empty1Loop_scan (m : Mem) (o : Nat) (sl : List Slot)
    (hwf : ∀ x ∈ sl, SlotWF x) :
    ∀ (i bound fuel st : Nat), bound = i + (slotsBytes sl).length →
      (slotsBytes sl).length ≤ fuel →
      (∀ j < (slotsBytes sl).length, m (o + (i + j)) = (slotsBytes sl).getD j 0) →
      empty1Loop m o bound fuel i false st =
        (if (scanSpec sl i).2.2.1 then scanSpec sl i else (st, 0, false, false)) := by
  induction sl with
  | nil =>
    intro i bound fuel st hb _ _
    rw [empty1Loop_stop _ _ _ _ _ _ _ (by simp [slotsBytes] at hb; omega)]
    rfl
  | cons x rest ih =>
    intro i bound fuel st hb hfuel hr
    rw [slotsBytes_cons] at hb hfuel hr
    cases x with
    | tomb =>
      obtain ⟨f, rfl⟩ : ∃ f, fuel = f + 1 := by
        refine ⟨fuel - 1, ?_⟩
        simp only [slotBytes, List.length_append, List.length_singleton] at hfuel
        omega
      have h0 : m (o + i) = 0 := by
        have h00 := hr 0 (by simp [slotBytes])
        simpa [slotBytes] using h00
      have hlt : i < bound := by
        simp only [slotBytes, List.length_append, List.length_singleton] at hb
        omega
      rw [empty1Loop_zero_f _ _ _ _ _ _ hlt h0]
      have htail := empty1Loop_tombs m o rest (fun w hw => hwf w (by simp [hw]))
        (i + 1) bound f i
        (by simp only [slotBytes, List.length_append, List.length_singleton] at hb ⊢; omega)
        (by simp only [slotBytes, List.length_append, List.length_singleton] at hfuel ⊢; omega)
        (by
          intro j hj
          have hh := hr (1 + j) (by simp only [slotBytes, List.length_append,
            List.length_singleton]; omega)
          rw [show o + (i + (1 + j)) = o + (i + 1 + j) by omega] at hh
          rw [hh]
          simp only [slotBytes]
          rw [show (1 + j : Nat) = ([0] : Bytes).length + j by simp, getD_concat])
      rw [htail]
      show _ = (if (scanSpec (.tomb :: rest) i).2.2.1 then scanSpec (.tomb :: rest) i
        else (st, 0, false, false))
      have hs : scanSpec (.tomb :: rest) i =
          (match skipTombs rest (i + 1) with
           | (_, []) => (i, 0, true, false)
           | (j, _ :: _) => (i, j, true, true)) := rfl
      rw [hs]
      obtain ⟨k, rest', _, _, h3⟩ := skipTombs_spec rest (i + 1)
      rw [h3]
      cases rest' with
      | nil => rfl
      | cons y t => rfl
    | live v =>
      obtain ⟨hv1, _, _⟩ := hwf (.live v) (by simp)
      have hlb : slotBytes (.live v) = v.length :: v := rfl
      rw [hlb] at hb hfuel hr
      obtain ⟨f, rfl⟩ : ∃ f, fuel = f + 1 := by
        refine ⟨fuel - 1, ?_⟩
        simp only [List.length_append, List.length_cons] at hfuel
        omega
      have h0 : m (o + i) = v.length := by
        have h00 := hr 0 (by simp)
        simpa using h00
      have hlt : i < bound := by
        simp only [List.length_append, List.length_cons] at hb
        omega
      rw [empty1Loop_live_f _ _ _ _ _ _ hlt (by rw [h0]; omega), h0]
      show _ = (if (scanSpec rest (i + v.length + 1)).2.2.1 then scanSpec rest (i + v.length + 1)
        else (st, 0, false, false))
      apply ih (fun w hw => hwf w (by simp [hw])) (i + v.length + 1) bound f st
      · simp only [List.length_append, List.length_cons] at hb ⊢
        omega
      · simp only [List.length_append, List.length_cons] at hfuel ⊢
        omega
      · intro j hj
        have hjj : v.length + 1 + j < (List.length v :: v ++ slotsBytes rest).length := by
          simp only [List.length_append, List.length_cons]
          omega
        have hh := hr (v.length + 1 + j) hjj
        rw [show o + (i + (v.length + 1 + j)) = o + (i + v.length + 1 + j) by omega] at hh
        have hcast : v.length + 1 + j = (List.length v :: v).length + j := by
          simp only [List.length_cons]
        rw [hh, hcast, getD_concat]

/-- The gap that `empty1` reports for an abstract record: the byte range
`[start, end)` of its first zero run, with the boundary fixup
`end := total - 16` when the run reaches the end of the value area. -/
def firstGapR (r : Rec) : Option (Nat × Nat) :=
  match scanSpec r.slots (r.key.length + 9) with
  | (st, en, true, true) => some (st, en)
  | (st, _, true, false) => some (st, recSize r - 16)
  | (_, _, false, _) => none

theorem slotsBytes_replicate_tomb (g : Nat) :
    slotsBytes (List.replicate g .tomb) = List.replicate g 0 := by
  induction g with
  | zero => rfl
  | succ g ih =>
    rw [List.replicate_succ, slotsBytes_cons, ih, List.replicate_succ]
    rfl

/-- Structure of a slot list whose scan finds a zero run: slots before
the run, the tombstone run itself, and the rest. -/
theorem scanSpec_gap (sl : List Slot) : ∀ (pos st en : Nat) (early : Bool),
    scanSpec sl pos = (st, en, true, early) →
    ∃ A g B, sl = A ++ List.replicate g .tomb ++ B ∧ 1 ≤ g ∧
      st = pos + (slotsBytes A).length ∧
      (if early then en = st + g ∧ B ≠ [] else en = 0 ∧ B = []) ∧
      pos + (slotsBytes sl).length = st + g + (slotsBytes B).length := by
  induction sl with
  | nil =>
    intro pos st en early h
    exact absurd (congrArg (fun q => q.2.2.1) h) (by simp [scanSpec])
  | cons x rest ih =>
    intro pos st en early h
    cases x with
    | tomb =>
      obtain ⟨k, rest', h1, _, h3⟩ := skipTombs_spec rest (pos + 1)
      have hs : scanSpec (.tomb :: rest) pos =
          (match skipTombs rest (pos + 1) with
           | (_, []) => (pos, 0, true, false)
           | (j, _ :: _) => (pos, j, true, true)) := rfl
      rw [hs, h3] at h
      have hsl : (Slot.tomb :: rest : List Slot) = [] ++ List.replicate (k + 1) .tomb ++ rest' := by
        rw [h1]
        rfl
      have hlen : (slotsBytes (Slot.tomb :: rest)).length = (k + 1) + (slotsBytes rest').length := by
        rw [hsl]
        simp only [List.nil_append, slotsBytes, List.map_append, List.flatten_append,
          List.length_append, slotsBytes_replicate_tomb]
        rw [show (List.replicate (k+1) Slot.tomb).map slotBytes
          = List.replicate (k+1) ([0] : Bytes) by rw [List.map_replicate]; rfl]
        have : (List.replicate (k+1) ([0] : Bytes)).flatten = List.replicate (k+1) 0 := by
          have := slotsBytes_replicate_tomb (k + 1)
          simp only [slotsBytes, List.map_replicate] at this
          rw [← this]
          rfl
        rw [this]
        simp
      cases rest' with
      | nil =>
        simp only [Prod.mk.injEq] at h
        refine ⟨[], k + 1, [], by simpa using hsl, by omega, by simp [h.1, slotsBytes], ?_, ?_⟩
        · rw [← h.2.2.2]
          simp [h.2.1]
        · rw [hlen]
          simp only [slotsBytes, List.map_nil, List.flatten_nil, List.length_nil]
          omega
      | cons y t =>
        simp only [Prod.mk.injEq] at h
        refine ⟨[], k + 1, y :: t, by simpa using hsl, by omega, by simp [h.1, slotsBytes], ?_, ?_⟩
        · rw [← h.2.2.2]
          simp only [if_pos]
          refine ⟨?_, by simp⟩
          rw [← h.2.1, ← h.1]
          omega
        · rw [hlen, ← h.1]
          omega
    | live v =>
      have hs : scanSpec (.live v :: rest) pos = scanSpec rest (pos + v.length + 1) := rfl
      rw [hs] at h
      obtain ⟨A, g, B, h1, h2, h3, h4, h5⟩ := ih (pos + v.length + 1) st en early h
      refine ⟨.live v :: A, g, B, by rw [h1]; rfl, h2, ?_, h4, ?_⟩
      · rw [h3, slotsBytes_cons]
        simp only [slotBytes, List.length_append, List.length_cons]
        omega
      · rw [slotsBytes_cons]
        simp only [slotBytes, List.length_append, List.length_cons]
        omega

/-- Source function `empty1` on a record that has a zero run: it reports the run of
`firstGapR` with `t = true` (so the caller stops the chain walk here). -/
theorem empty1_record_gap (m : Mem) (o : Nat) (r : Rec) (h : RecAt m o r)
    (hwf : RecWF r) (hkl : r.key.length ≤ 246) (hsz : recSize r < 2 ^ 64) (hnx : r.next < 2 ^ 64)
    (st en : Nat) (hg : firstGapR r = some (st, en)) :
    ∃ ld, empty1 m o = .ok (o, ld, st, en, true) := by
  have hloop := empty1Loop_scan m o r.slots hwf.2.2 (r.key.length + 9)
    (recSize r - 16) (recSize r - 16) 0
    (by simp only [recSize]; omega) (by simp only [recSize]; omega)
    (fun j hj => RecAt_area m o r h j hj)
  simp only [empty1, RecAt_total m o r h hsz, RecAt_klen m o r h]
  rw [if_neg (by have := recSize_ge r; omega)]
  rw [Nat.mod_eq_of_lt (show r.key.length + 9 < 256 by omega)]
  simp only [firstGapR] at hg
  rcases hsc : scanSpec r.slots (r.key.length + 9) with ⟨st', en', t', e'⟩
  rw [hsc] at hloop hg
  cases t' with
  | false => simp at hg
  | true =>
    have hloop2 : empty1Loop m o (recSize r - 16) (recSize r - 16) (r.key.length + 9) false 0
        = (st', en', true, e') := by rw [hloop]; rfl
    rw [hloop2]
    cases e' with
    | true =>
      simp only [Option.some.injEq, Prod.mk.injEq] at hg
      obtain ⟨rfl, rfl⟩ := hg
      exact ⟨0, rfl⟩
    | false =>
      simp only [Option.some.injEq, Prod.mk.injEq] at hg
      obtain ⟨A, g, B, _, _, _, h4, _⟩ := scanSpec_gap r.slots (r.key.length + 9) st' en'
        false hsc
      simp only [Bool.false_eq_true, if_neg] at h4
      obtain ⟨rfl, rfl⟩ := hg
      rw [h4.1]
      refine ⟨r.next, ?_⟩
      show Except.ok (o, bigUint64 (readBytes m (o + recSize r - 8) 8), st', recSize r - 16,
        true) = _
      rw [RecAt_next m o r h hnx]

/-- Source function `empty1` on a record with no zero run: `t = false` and the record's
`next` pointer is handed to the chain walk. -/
theorem empty1_record_nogap (m : Mem) (o : Nat) (r : Rec) (h : RecAt m o r)
    (hwf : RecWF r) (hkl : r.key.length ≤ 246) (hsz : recSize r < 2 ^ 64) (hnx : r.next < 2 ^ 64)
    (hg : firstGapR r = none) :
    empty1 m o = .ok (o, r.next, 0, 0, false) := by
  have hloop := empty1Loop_scan m o r.slots hwf.2.2 (r.key.length + 9)
    (recSize r - 16) (recSize r - 16) 0
    (by simp only [recSize]; omega) (by simp only [recSize]; omega)
    (fun j hj => RecAt_area m o r h j hj)
  simp only [empty1, RecAt_total m o r h hsz, RecAt_klen m o r h]
  rw [if_neg (by have := recSize_ge r; omega)]
  rw [Nat.mod_eq_of_lt (show r.key.length + 9 < 256 by omega)]
  simp only [firstGapR] at hg
  rcases hsc : scanSpec r.slots (r.key.length + 9) with ⟨st', en', t', e'⟩
  rw [hsc] at hloop hg
  cases t' with
  | true => cases e' <;> simp at hg
  | false =>
    have hloop2 : empty1Loop m o (recSize r - 16) (recSize r - 16) (r.key.length + 9) false 0
        = (0, 0, false, false) := by rw [hloop]; rfl
    rw [hloop2]
    show Except.ok (o, bigUint64 (readBytes m (o + recSize r - 8) 8), 0, 0, false) = _
    rw [RecAt_next m o r h hnx]

/-- The gap `firstGapR` reports, as a decomposition of the slot list:
run boundaries in record-relative byte positions. -/
theorem firstGapR_split (r : Rec) (st en : Nat) (hg : firstGapR r = some (st, en)) :
    ∃ A g B, r.slots = A ++ List.replicate g .tomb ++ B ∧ 1 ≤ g ∧
      st = r.key.length + 9 + (slotsBytes A).length ∧ en = st + g ∧
      en ≤ recSize r - 16 := by
  simp only [firstGapR] at hg
  rcases hsc : scanSpec r.slots (r.key.length + 9) with ⟨st', en', t', e'⟩
  rw [hsc] at hg
  cases t' with
  | false => simp at hg
  | true =>
    obtain ⟨A, g, B, h1, h2, h3, h4, h5⟩ := scanSpec_gap r.slots (r.key.length + 9)
      st' en' e' hsc
    have hrs : recSize r - 16 = r.key.length + 9 + (slotsBytes r.slots).length := by
      simp only [recSize]
      omega
    cases e' with
    | true =>
      simp only [Option.some.injEq, Prod.mk.injEq] at hg
      obtain ⟨rfl, rfl⟩ := hg
      simp only [if_pos] at h4
      refine ⟨A, g, B, h1, h2, h3, h4.1, ?_⟩
      rw [hrs]
      omega
    | false =>
      simp only [Option.some.injEq, Prod.mk.injEq] at hg
      obtain ⟨rfl, rfl⟩ := hg
      simp only [Bool.false_eq_true, if_neg] at h4
      refine ⟨A, g, B, h1, h2, h3, ?_, le_refl _⟩
      rw [hrs, h5, h4.2]
      simp only [slotsBytes, List.map_nil, List.flatten_nil, List.length_nil]
      omega

/-! ### What one `del` / `delPrefix` pass does to a record -/

/-- The slots a `del` pass leaves for one slot: a matched live value is
zeroed into `len+1` tombstone bytes. -/
def delSlot (vset : List Bytes) : Slot → List Slot
  | .tomb => [.tomb]
  | .live v => if v ∈ vset then List.replicate (v.length + 1) .tomb else [.live v]

/-- The slots a `del` pass leaves for a record's slot list. -/
def delSlots (vset : List Bytes) (sl : List Slot) : List Slot :=
  (sl.map (delSlot vset)).flatten

/-- The slots a `delPrefix` pass leaves for one slot. -/
def delPrefixSlot (prefixes : List Bytes) : Slot → List Slot
  | .tomb => [.tomb]
  | .live v => if prefixes.any (fun p => p.isPrefixOf v) then
      List.replicate (v.length + 1) .tomb
    else [.live v]

/-- The slots a `delPrefix` pass leaves for a record's slot list. -/
def delPrefixSlots (prefixes : List Bytes) (sl : List Slot) : List Slot :=
  (sl.map (delPrefixSlot prefixes)).flatten

theorem slotsBytes_append (A B : List Slot) :
    slotsBytes (A ++ B) = slotsBytes A ++ slotsBytes B := by
  simp [slotsBytes]

theorem delSlots_cons (vset : List Bytes) (x : Slot) (rest : List Slot) :
    delSlots vset (x :: rest) = delSlot vset x ++ delSlots vset rest := by
  simp [delSlots]

theorem delPrefixSlots_cons (prefixes : List Bytes) (x : Slot) (rest : List Slot) :
    delPrefixSlots prefixes (x :: rest) = delPrefixSlot prefixes x ++ delPrefixSlots prefixes rest := by
  simp [delPrefixSlots]

theorem length_slotsBytes_delSlot (vset : List Bytes) (x : Slot) :
    (slotsBytes (delSlot vset x)).length = (slotBytes x).length := by
  cases x with
  | tomb => rfl
  | live v =>
    by_cases h : v ∈ vset
    · simp [delSlot, h, slotsBytes_replicate_tomb, slotBytes]
    · simp [delSlot, h, slotsBytes, slotBytes]

theorem length_slotsBytes_delSlots (vset : List Bytes) (sl : List Slot) :
    (slotsBytes (delSlots vset sl)).length = (slotsBytes sl).length := by
  induction sl with
  | nil => rfl
  | cons x rest ih =>
    rw [delSlots_cons, slotsBytes_append, slotsBytes_cons]
    simp only [List.length_append, ih, length_slotsBytes_delSlot]

theorem length_slotsBytes_delPrefixSlot (prefixes : List Bytes) (x : Slot) :
    (slotsBytes (delPrefixSlot prefixes x)).length = (slotBytes x).length := by
  cases x with
  | tomb => rfl
  | live v =>
    by_cases h : prefixes.any (fun p => p.isPrefixOf v)
    · simp [delPrefixSlot, h, slotsBytes_replicate_tomb, slotBytes]
    · simp [delPrefixSlot, h, slotsBytes, slotBytes]

theorem length_slotsBytes_delPrefixSlots (prefixes : List Bytes) (sl : List Slot) :
    (slotsBytes (delPrefixSlots prefixes sl)).length = (slotsBytes sl).length := by
  induction sl with
  | nil => rfl
  | cons x rest ih =>
    rw [delPrefixSlots_cons, slotsBytes_append, slotsBytes_cons]
    simp only [List.length_append, ih, length_slotsBytes_delPrefixSlot]

theorem delSlots_wf (vset : List Bytes) (sl : List Slot) (hwf : ∀ x ∈ sl, SlotWF x) :
    ∀ x ∈ delSlots vset sl, SlotWF x := by
  intro x hx
  simp only [delSlots, List.mem_flatten, List.mem_map] at hx
  obtain ⟨l, ⟨y, hy, rfl⟩, hx⟩ := hx
  cases y with
  | tomb =>
    simp only [delSlot, List.mem_singleton] at hx
    subst hx
    trivial
  | live v =>
    simp only [delSlot] at hx
    split at hx
    · rw [List.eq_of_mem_replicate hx]
      trivial
    · rw [List.mem_singleton] at hx
      subst hx
      exact hwf _ hy

theorem delPrefixSlots_wf (prefixes : List Bytes) (sl : List Slot)
    (hwf : ∀ x ∈ sl, SlotWF x) : ∀ x ∈ delPrefixSlots prefixes sl, SlotWF x := by
  intro x hx
  simp only [delPrefixSlots, List.mem_flatten, List.mem_map] at hx
  obtain ⟨l, ⟨y, hy, rfl⟩, hx⟩ := hx
  cases y with
  | tomb =>
    simp only [delPrefixSlot, List.mem_singleton] at hx
    subst hx
    trivial
  | live v =>
    simp only [delPrefixSlot] at hx
    split at hx
    · rw [List.eq_of_mem_replicate hx]
      trivial
    · rw [List.mem_singleton] at hx
      subst hx
      exact hwf _ hy

theorem getD_replicate_zero (n j : Nat) (h : j < n) :
    (List.replicate n (0 : Nat)).getD j 0 = 0 := by
  rw [List.getD_eq_getElem _ _ (by simpa using h)]
  simp

theorem delLoop_stop (o total : Nat) (vset : List Bytes) (fuel : Nat) (m : Mem) (i : Nat)
    (h : ¬ i < total - 16) : delLoop o total vset fuel m i = m := by
  cases fuel with
  | zero => rfl
  | succ f =>
    show (if i < total - 16 then
        (if m (o + i) = 0 then delLoop o total vset f m (i + 1)
         else delLoop o total vset f
           (if readBytes m (o + i + 1) (m (o + i)) ∈ vset then
             writeBytes (writeBytes m (o + i + 1) (List.replicate (m (o + i)) 0)) (o + i) [0]
           else m) (i + m (o + i) + 1))
      else m) = m
    rw [if_neg h]

theorem delLoop_zero (o total : Nat) (vset : List Bytes) (fuel : Nat) (m : Mem) (i : Nat)
    (h : i < total - 16) (h0 : m (o + i) = 0) :
    delLoop o total vset (fuel + 1) m i = delLoop o total vset fuel m (i + 1) := by
  show (if i < total - 16 then
      (if m (o + i) = 0 then delLoop o total vset fuel m (i + 1)
       else delLoop o total vset fuel
         (if readBytes m (o + i + 1) (m (o + i)) ∈ vset then
           writeBytes (writeBytes m (o + i + 1) (List.replicate (m (o + i)) 0)) (o + i) [0]
         else m) (i + m (o + i) + 1))
    else m) = _
  rw [if_pos h, if_pos h0]

theorem delLoop_live (o total : Nat) (vset : List Bytes) (fuel : Nat) (m : Mem) (i : Nat)
    (h : i < total - 16) (h0 : m (o + i) ≠ 0) :
    delLoop o total vset (fuel + 1) m i
      = delLoop o total vset fuel
          (if readBytes m (o + i + 1) (m (o + i)) ∈ vset then
            writeBytes (writeBytes m (o + i + 1) (List.replicate (m (o + i)) 0)) (o + i) [0]
          else m) (i + m (o + i) + 1) := by
  show (if i < total - 16 then
      (if m (o + i) = 0 then delLoop o total vset fuel m (i + 1)
       else delLoop o total vset fuel
         (if readBytes m (o + i + 1) (m (o + i)) ∈ vset then
           writeBytes (writeBytes m (o + i + 1) (List.replicate (m (o + i)) 0)) (o + i) [0]
         else m) (i + m (o + i) + 1))
    else m) = _
  rw [if_pos h, if_neg h0]

/-- One `del` pass over a well-formed slot area: all writes stay inside
the area, and afterwards it holds the byte image of `delSlots`. -/
theorem delLoop_slots (o total : Nat) (vset : List Bytes) (sl : List Slot)
    (hwf : ∀ x ∈ sl, SlotWF x) :
    ∀ (i fuel : Nat) (m : Mem), total - 16 = i + (slotsBytes sl).length →
      (slotsBytes sl).length ≤ fuel →
      (∀ j < (slotsBytes sl).length, m (o + (i + j)) = (slotsBytes sl).getD j 0) →
      (∀ a, a < o + i ∨ o + i + (slotsBytes sl).length ≤ a →
        delLoop o total vset fuel m i a = m a) ∧
      (∀ j < (slotsBytes sl).length,
        delLoop o total vset fuel m i (o + (i + j)) = (slotsBytes (delSlots vset sl)).getD j 0) := by
  induction sl with
  | nil =>
    intro i fuel m hb _ _
    rw [delLoop_stop _ _ _ _ _ _ (by simp [slotsBytes] at hb; omega)]
    exact ⟨fun a _ => rfl, fun j hj => by simp [slotsBytes] at hj⟩
  | cons x rest ih =>
    intro i fuel m hb hfuel hr
    rw [slotsBytes_cons] at hb hfuel hr
    cases x with
    | tomb =>
      obtain ⟨f, rfl⟩ : ∃ f, fuel = f + 1 := by
        refine ⟨fuel - 1, ?_⟩
        simp only [slotBytes, List.length_append, List.length_singleton] at hfuel
        omega
      have h0 : m (o + i) = 0 := by
        have h00 := hr 0 (by simp [slotBytes])
        simpa [slotBytes] using h00
      have hlt : i < total - 16 := by
        simp only [slotBytes, List.length_append, List.length_singleton] at hb
        omega
      rw [delLoop_zero _ _ _ _ _ _ hlt h0]
      obtain ⟨P1, P2⟩ := ih (fun w hw => hwf w (by simp [hw])) (i + 1) f m
        (by simp only [slotBytes, List.length_append, List.length_singleton] at hb ⊢; omega)
        (by simp only [slotBytes, List.length_append, List.length_singleton] at hfuel ⊢; omega)
        (by
          intro j hj
          have hh := hr (1 + j) (by simp only [slotBytes, List.length_append,
            List.length_singleton]; omega)
          rw [show o + (i + (1 + j)) = o + (i + 1 + j) by omega] at hh
          rw [hh]
          simp only [slotBytes]
          rw [show (1 + j : Nat) = ([0] : Bytes).length + j by simp, getD_concat])
      constructor
      · intro a ha
        apply P1
        simp only [slotsBytes_cons, slotBytes, List.length_append, List.length_singleton] at ha
        omega
      · intro j hj
        have hd : slotsBytes (delSlots vset (.tomb :: rest))
            = [0] ++ slotsBytes (delSlots vset rest) := by
          rw [delSlots_cons, slotsBytes_append]
          rfl
        cases j with
        | zero =>
          rw [show o + (i + 0) = o + i by omega, P1 (o + i) (by omega), h0, hd]
          rfl
        | succ j =>
          have hjr : j < (slotsBytes rest).length := by
            simp only [slotsBytes_cons, slotBytes, List.length_append,
              List.length_singleton] at hj
            omega
          have := P2 j hjr
          rw [show o + (i + 1 + j) = o + (i + (j + 1)) by omega] at this
          rw [this, hd]
          rw [show (j + 1 : Nat) = ([0] : Bytes).length + j by simp [Nat.add_comm], getD_concat]
    | live v =>
      obtain ⟨hv1, hv2, hv3⟩ := hwf (.live v) (by simp)
      have hlb : slotBytes (.live v) = v.length :: v := rfl
      rw [hlb] at hb hfuel hr
      obtain ⟨f, rfl⟩ : ∃ f, fuel = f + 1 := by
        refine ⟨fuel - 1, ?_⟩
        simp only [List.length_append, List.length_cons] at hfuel
        omega
      have h0 : m (o + i) = v.length := by
        have h00 := hr 0 (by simp)
        simpa using h00
      have hval : readBytes m (o + i + 1) v.length = v := by
        apply readBytes_eq_of_getD _ _ _ _ rfl
        intro j hj
        have hh := hr (1 + j) (by simp only [List.length_append, List.length_cons]; omega)
        rw [show o + (i + (1 + j)) = o + i + 1 + j by omega] at hh
        rw [hh, show (1 + j : Nat) = j + 1 by omega,
          List.getD_append _ _ _ _ (by simp only [List.length_cons]; omega),
          List.getD_cons_succ]
      have hlt : i < total - 16 := by
        simp only [List.length_append, List.length_cons] at hb
        omega
      rw [delLoop_live _ _ _ _ _ _ hlt (by rw [h0]; omega), h0, hval]
      -- the possibly-mutated memory after this slot
      set m1 := (if v ∈ vset then
          writeBytes (writeBytes m (o + i + 1) (List.replicate v.length 0)) (o + i) [0]
        else m) with hm1
      have hm1_out : ∀ a, a < o + i ∨ o + i + v.length + 1 ≤ a → m1 a = m a := by
        intro a ha
        rw [hm1]
        split
        · rw [writeBytes_outside _ _ _ _ (by simp only [List.length_singleton]; omega),
            writeBytes_outside _ _ _ _ (by simp only [List.length_replicate]; omega)]
        · rfl
      have hm1_in : v ∈ vset → ∀ j < v.length + 1, m1 (o + (i + j)) = 0 := by
        intro hmem j hj
        rw [hm1, if_pos hmem]
        cases j with
        | zero =>
          rw [show o + (i + 0) = o + i + 0 by omega, writeBytes_at _ _ _ _ (by simp)]
          rfl
        | succ j =>
          rw [writeBytes_outside _ _ _ _ (by simp only [List.length_singleton]; omega)]
          rw [show o + (i + (j + 1)) = o + i + 1 + j by omega,
            writeBytes_at _ _ _ _ (by simp only [List.length_replicate]; omega)]
          rw [List.getD_eq_getElem _ _ (by simp only [List.length_replicate]; omega)]
          simp
      have hm1_keep : v ∉ vset → ∀ j < v.length + 1, m1 (o + (i + j)) = m (o + (i + j)) := by
        intro hmem _ _
        rw [hm1, if_neg hmem]
      obtain ⟨P1, P2⟩ := ih (fun w hw => hwf w (by simp [hw])) (i + v.length + 1) f m1
        (by simp only [List.length_append, List.length_cons] at hb ⊢; omega)
        (by simp only [List.length_append, List.length_cons] at hfuel ⊢; omega)
        (by
          intro j hj
          rw [show o + (i + v.length + 1 + j) = o + (i + (v.length + 1 + j)) by omega]
          rw [hm1_out _ (by omega)]
          have hjb : v.length + 1 + j < (List.length v :: v ++ slotsBytes rest).length := by
            simp only [List.length_append, List.length_cons]
            omega
          have hh := hr (v.length + 1 + j) hjb
          have hcast : v.length + 1 + j = (List.length v :: v).length + j := by
            simp only [List.length_cons]
          rw [hh, hcast, getD_concat])
      have hdb : slotsBytes (delSlots vset (.live v :: rest))
          = slotsBytes (delSlot vset (.live v)) ++ slotsBytes (delSlots vset rest) := by
        rw [delSlots_cons, slotsBytes_append]
      have hdl : (slotsBytes (delSlot vset (.live v))).length = v.length + 1 := by
        rw [length_slotsBytes_delSlot]
        simp [slotBytes]
      constructor
      · intro a ha
        simp only [slotsBytes_cons, slotBytes, List.length_append, List.length_cons] at ha
        rw [P1 a (by omega), hm1_out a (by omega)]
      · intro j hj
        simp only [slotsBytes_cons, slotBytes, List.length_append, List.length_cons] at hj
        by_cases hcur : j < v.length + 1
        · -- inside the slot just processed
          rw [show o + (i + j) = o + (i + v.length + 1) - (v.length + 1 - j) by omega]
          rw [P1 _ (by omega)]
          rw [show o + (i + v.length + 1) - (v.length + 1 - j) = o + (i + j) by omega]
          rw [hdb, List.getD_append _ _ _ _ (by rw [hdl]; omega)]
          by_cases hmem : v ∈ vset
          · rw [hm1_in hmem j hcur]
            have hrep : slotsBytes (delSlot vset (.live v))
                = List.replicate (v.length + 1) 0 := by
              simp [delSlot, hmem, slotsBytes_replicate_tomb]
            rw [hrep, getD_replicate_zero _ _ hcur]
          · rw [hm1_keep hmem j hcur]
            have hkeep : slotsBytes (delSlot vset (.live v)) = v.length :: v := by
              simp [delSlot, hmem, slotsBytes, slotBytes]
            rw [hkeep]
            have hh := hr j (by simp only [List.length_append, List.length_cons]; omega)
            rw [hh, List.getD_append _ _ _ _ (by simp only [List.length_cons]; omega)]
        · -- a later slot: handled by the induction hypothesis
          obtain ⟨j', rfl⟩ : ∃ j', j = v.length + 1 + j' := ⟨j - (v.length + 1), by omega⟩
          have := P2 j' (by omega)
          rw [show o + (i + v.length + 1 + j') = o + (i + (v.length + 1 + j')) by omega] at this
          rw [this, hdb, show (v.length + 1 + j' : Nat)
            = (slotsBytes (delSlot vset (.live v))).length + j' by rw [hdl], getD_concat]

theorem delPrefixLoop_stop (o total : Nat) (prefixes : List Bytes) (fuel : Nat) (m : Mem) (i : Nat)
    (h : ¬ i < total - 16) : delPrefixLoop o total prefixes fuel m i = m := by
  cases fuel with
  | zero => rfl
  | succ f =>
    show (if i < total - 16 then
        (if m (o + i) = 0 then delPrefixLoop o total prefixes f m (i + 1)
         else delPrefixLoop o total prefixes f
           (if prefixes.any (fun p => p.isPrefixOf (readBytes m (o + i + 1) (m (o + i)))) then
             writeBytes (writeBytes m (o + i + 1) (List.replicate (m (o + i)) 0)) (o + i) [0]
           else m) (i + m (o + i) + 1))
      else m) = m
    rw [if_neg h]

theorem delPrefixLoop_zero (o total : Nat) (prefixes : List Bytes) (fuel : Nat) (m : Mem) (i : Nat)
    (h : i < total - 16) (h0 : m (o + i) = 0) :
    delPrefixLoop o total prefixes (fuel + 1) m i = delPrefixLoop o total prefixes fuel m (i + 1) := by
  show (if i < total - 16 then
      (if m (o + i) = 0 then delPrefixLoop o total prefixes fuel m (i + 1)
       else delPrefixLoop o total prefixes fuel
         (if prefixes.any (fun p => p.isPrefixOf (readBytes m (o + i + 1) (m (o + i)))) then
           writeBytes (writeBytes m (o + i + 1) (List.replicate (m (o + i)) 0)) (o + i) [0]
         else m) (i + m (o + i) + 1))
    else m) = _
  rw [if_pos h, if_pos h0]

theorem delPrefixLoop_live (o total : Nat) (prefixes : List Bytes) (fuel : Nat) (m : Mem) (i : Nat)
    (h : i < total - 16) (h0 : m (o + i) ≠ 0) :
    delPrefixLoop o total prefixes (fuel + 1) m i
      = delPrefixLoop o total prefixes fuel
          (if prefixes.any (fun p => p.isPrefixOf (readBytes m (o + i + 1) (m (o + i)))) then
            writeBytes (writeBytes m (o + i + 1) (List.replicate (m (o + i)) 0)) (o + i) [0]
          else m) (i + m (o + i) + 1) := by
  show (if i < total - 16 then
      (if m (o + i) = 0 then delPrefixLoop o total prefixes fuel m (i + 1)
       else delPrefixLoop o total prefixes fuel
         (if prefixes.any (fun p => p.isPrefixOf (readBytes m (o + i + 1) (m (o + i)))) then
           writeBytes (writeBytes m (o + i + 1) (List.replicate (m (o + i)) 0)) (o + i) [0]
         else m) (i + m (o + i) + 1))
    else m) = _
  rw [if_pos h, if_neg h0]

/-- One `delPrefix` pass over a well-formed slot area: all writes stay inside
the area, and afterwards it holds the byte image of `delPrefixSlots`. -/
theorem delPrefixLoop_slots (o total : Nat) (prefixes : List Bytes) (sl : List Slot)
    (hwf : ∀ x ∈ sl, SlotWF x) :
    ∀ (i fuel : Nat) (m : Mem), total - 16 = i + (slotsBytes sl).length →
      (slotsBytes sl).length ≤ fuel →
      (∀ j < (slotsBytes sl).length, m (o + (i + j)) = (slotsBytes sl).getD j 0) →
      (∀ a, a < o + i ∨ o + i + (slotsBytes sl).length ≤ a →
        delPrefixLoop o total prefixes fuel m i a = m a) ∧
      (∀ j < (slotsBytes sl).length,
        delPrefixLoop o total prefixes fuel m i (o + (i + j)) = (slotsBytes (delPrefixSlots prefixes sl)).getD j 0) := by
  induction sl with
  | nil =>
    intro i fuel m hb _ _
    rw [delPrefixLoop_stop _ _ _ _ _ _ (by simp [slotsBytes] at hb; omega)]
    exact ⟨fun a _ => rfl, fun j hj => by simp [slotsBytes] at hj⟩
  | cons x rest ih =>
    intro i fuel m hb hfuel hr
    rw [slotsBytes_cons] at hb hfuel hr
    cases x with
    | tomb =>
      obtain ⟨f, rfl⟩ : ∃ f, fuel = f + 1 := by
        refine ⟨fuel - 1, ?_⟩
        simp only [slotBytes, List.length_append, List.length_singleton] at hfuel
        omega
      have h0 : m (o + i) = 0 := by
        have h00 := hr 0 (by simp [slotBytes])
        simpa [slotBytes] using h00
      have hlt : i < total - 16 := by
        simp only [slotBytes, List.length_append, List.length_singleton] at hb
        omega
      rw [delPrefixLoop_zero _ _ _ _ _ _ hlt h0]
      obtain ⟨P1, P2⟩ := ih (fun w hw => hwf w (by simp [hw])) (i + 1) f m
        (by simp only [slotBytes, List.length_append, List.length_singleton] at hb ⊢; omega)
        (by simp only [slotBytes, List.length_append, List.length_singleton] at hfuel ⊢; omega)
        (by
          intro j hj
          have hh := hr (1 + j) (by simp only [slotBytes, List.length_append,
            List.length_singleton]; omega)
          rw [show o + (i + (1 + j)) = o + (i + 1 + j) by omega] at hh
          rw [hh]
          simp only [slotBytes]
          rw [show (1 + j : Nat) = ([0] : Bytes).length + j by simp, getD_concat])
      constructor
      · intro a ha
        apply P1
        simp only [slotsBytes_cons, slotBytes, List.length_append, List.length_singleton] at ha
        omega
      · intro j hj
        have hd : slotsBytes (delPrefixSlots prefixes (.tomb :: rest))
            = [0] ++ slotsBytes (delPrefixSlots prefixes rest) := by
          rw [delPrefixSlots_cons, slotsBytes_append]
          rfl
        cases j with
        | zero =>
          rw [show o + (i + 0) = o + i by omega, P1 (o + i) (by omega), h0, hd]
          rfl
        | succ j =>
          have hjr : j < (slotsBytes rest).length := by
            simp only [slotsBytes_cons, slotBytes, List.length_append,
              List.length_singleton] at hj
            omega
          have := P2 j hjr
          rw [show o + (i + 1 + j) = o + (i + (j + 1)) by omega] at this
          rw [this, hd]
          rw [show (j + 1 : Nat) = ([0] : Bytes).length + j by simp [Nat.add_comm], getD_concat]
    | live v =>
      obtain ⟨hv1, hv2, hv3⟩ := hwf (.live v) (by simp)
      have hlb : slotBytes (.live v) = v.length :: v := rfl
      rw [hlb] at hb hfuel hr
      obtain ⟨f, rfl⟩ : ∃ f, fuel = f + 1 := by
        refine ⟨fuel - 1, ?_⟩
        simp only [List.length_append, List.length_cons] at hfuel
        omega
      have h0 : m (o + i) = v.length := by
        have h00 := hr 0 (by simp)
        simpa using h00
      have hval : readBytes m (o + i + 1) v.length = v := by
        apply readBytes_eq_of_getD _ _ _ _ rfl
        intro j hj
        have hh := hr (1 + j) (by simp only [List.length_append, List.length_cons]; omega)
        rw [show o + (i + (1 + j)) = o + i + 1 + j by omega] at hh
        rw [hh, show (1 + j : Nat) = j + 1 by omega,
          List.getD_append _ _ _ _ (by simp only [List.length_cons]; omega),
          List.getD_cons_succ]
      have hlt : i < total - 16 := by
        simp only [List.length_append, List.length_cons] at hb
        omega
      rw [delPrefixLoop_live _ _ _ _ _ _ hlt (by rw [h0]; omega), h0, hval]
      -- the possibly-mutated memory after this slot
      set m1 := (if prefixes.any (fun p => p.isPrefixOf v) then
          writeBytes (writeBytes m (o + i + 1) (List.replicate v.length 0)) (o + i) [0]
        else m) with hm1
      have hm1_out : ∀ a, a < o + i ∨ o + i + v.length + 1 ≤ a → m1 a = m a := by
        intro a ha
        rw [hm1]
        split
        · rw [writeBytes_outside _ _ _ _ (by simp only [List.length_singleton]; omega),
            writeBytes_outside _ _ _ _ (by simp only [List.length_replicate]; omega)]
        · rfl
      have hm1_in : prefixes.any (fun p => p.isPrefixOf v) → ∀ j < v.length + 1, m1 (o + (i + j)) = 0 := by
        intro hmem j hj
        rw [hm1, if_pos hmem]
        cases j with
        | zero =>
          rw [show o + (i + 0) = o + i + 0 by omega, writeBytes_at _ _ _ _ (by simp)]
          rfl
        | succ j =>
          rw [writeBytes_outside _ _ _ _ (by simp only [List.length_singleton]; omega)]
          rw [show o + (i + (j + 1)) = o + i + 1 + j by omega,
            writeBytes_at _ _ _ _ (by simp only [List.length_replicate]; omega)]
          rw [List.getD_eq_getElem _ _ (by simp only [List.length_replicate]; omega)]
          simp
      have hm1_keep : ¬ prefixes.any (fun p => p.isPrefixOf v) →
          ∀ j < v.length + 1, m1 (o + (i + j)) = m (o + (i + j)) := by
        intro hmem _ _
        rw [hm1, if_neg hmem]
      obtain ⟨P1, P2⟩ := ih (fun w hw => hwf w (by simp [hw])) (i + v.length + 1) f m1
        (by simp only [List.length_append, List.length_cons] at hb ⊢; omega)
        (by simp only [List.length_append, List.length_cons] at hfuel ⊢; omega)
        (by
          intro j hj
          rw [show o + (i + v.length + 1 + j) = o + (i + (v.length + 1 + j)) by omega]
          rw [hm1_out _ (by omega)]
          have hjb : v.length + 1 + j < (List.length v :: v ++ slotsBytes rest).length := by
            simp only [List.length_append, List.length_cons]
            omega
          have hh := hr (v.length + 1 + j) hjb
          have hcast : v.length + 1 + j = (List.length v :: v).length + j := by
            simp only [List.length_cons]
          rw [hh, hcast, getD_concat])
      have hdb : slotsBytes (delPrefixSlots prefixes (.live v :: rest))
          = slotsBytes (delPrefixSlot prefixes (.live v)) ++ slotsBytes (delPrefixSlots prefixes rest) := by
        rw [delPrefixSlots_cons, slotsBytes_append]
      have hdl : (slotsBytes (delPrefixSlot prefixes (.live v))).length = v.length + 1 := by
        rw [length_slotsBytes_delPrefixSlot]
        simp [slotBytes]
      constructor
      · intro a ha
        simp only [slotsBytes_cons, slotBytes, List.length_append, List.length_cons] at ha
        rw [P1 a (by omega), hm1_out a (by omega)]
      · intro j hj
        simp only [slotsBytes_cons, slotBytes, List.length_append, List.length_cons] at hj
        by_cases hcur : j < v.length + 1
        · -- inside the slot just processed
          rw [show o + (i + j) = o + (i + v.length + 1) - (v.length + 1 - j) by omega]
          rw [P1 _ (by omega)]
          rw [show o + (i + v.length + 1) - (v.length + 1 - j) = o + (i + j) by omega]
          rw [hdb, List.getD_append _ _ _ _ (by rw [hdl]; omega)]
          by_cases hmem : prefixes.any (fun p => p.isPrefixOf v)
          · rw [hm1_in hmem j hcur]
            have hrep : slotsBytes (delPrefixSlot prefixes (.live v))
                = List.replicate (v.length + 1) 0 := by
              simp [delPrefixSlot, hmem, slotsBytes_replicate_tomb]
            rw [hrep, getD_replicate_zero _ _ hcur]
          · rw [hm1_keep hmem j hcur]
            have hkeep : slotsBytes (delPrefixSlot prefixes (.live v)) = v.length :: v := by
              simp [delPrefixSlot, hmem, slotsBytes, slotBytes]
            rw [hkeep]
            have hh := hr j (by simp only [List.length_append, List.length_cons]; omega)
            rw [hh, List.getD_append _ _ _ _ (by simp only [List.length_cons]; omega)]
        · -- a later slot: handled by the induction hypothesis
          obtain ⟨j', rfl⟩ : ∃ j', j = v.length + 1 + j' := ⟨j - (v.length + 1), by omega⟩
          have := P2 j' (by omega)
          rw [show o + (i + v.length + 1 + j') = o + (i + (v.length + 1 + j')) by omega] at this
          rw [this, hdb, show (v.length + 1 + j' : Nat)
            = (slotsBytes (delPrefixSlot prefixes (.live v))).length + j' by rw [hdl], getD_concat]

/-- A record with its slot list replaced (everything else kept). -/
def setSlots (r : Rec) (sl' : List Slot) : Rec :=
  { key := r.key, slots := sl', selfEnd := r.selfEnd, next := r.next }

/-- Rebuilding a record-read hypothesis after its slot area was
rewritten in place (header, key and trailer bytes untouched, same area
length). -/
theorem RecAt_update_slots (m m' : Mem) (o : Nat) (r : Rec) (sl' : List Slot)
    (h : RecAt m o r)
    (hlen : (slotsBytes sl').length = (slotsBytes r.slots).length)
    (houter : ∀ j < recSize r, (j < r.key.length + 9 ∨
        r.key.length + 9 + (slotsBytes r.slots).length ≤ j) → m' (o + j) = m (o + j))
    (harea : ∀ j < (slotsBytes sl').length,
        m' (o + (r.key.length + 9 + j)) = (slotsBytes sl').getD j 0) :
    RecAt m' o (setSlots r sl') := by
  have hsz' : recSize (setSlots r sl') = recSize r := by
    simp only [recSize, setSlots, hlen]
  have hre : recBytes r = (putUint64 (recSize r) ++ (r.key.length :: r.key))
      ++ (slotsBytes r.slots ++ (putUint64 r.selfEnd ++ putUint64 r.next)) := by
    simp only [recBytes, List.append_assoc]
  have hre' : recBytes (setSlots r sl')
      = (putUint64 (recSize r) ++ (r.key.length :: r.key))
        ++ (slotsBytes sl' ++ (putUint64 r.selfEnd ++ putUint64 r.next)) := by
    rw [show (putUint64 (recSize r) : Bytes)
      = putUint64 (recSize (setSlots r sl')) by rw [hsz']]
    simp only [recBytes, setSlots, List.append_assoc]
  have hP : ((putUint64 (recSize r) ++ (r.key.length :: r.key)) : Bytes).length
      = r.key.length + 9 := by
    simp only [List.length_append, putUint64_length, List.length_cons]
    omega
  intro j hj
  rw [hsz'] at hj
  by_cases h1 : j < r.key.length + 9
  · rw [houter j hj (Or.inl h1), h j hj, hre, hre']
    have hLg : ((putUint64 (recSize r) ++ (r.key.length :: r.key))
          ++ (slotsBytes r.slots ++ (putUint64 r.selfEnd ++ putUint64 r.next))).getD j 0
        = ((putUint64 (recSize r) ++ (r.key.length :: r.key)) : Bytes).getD j 0 :=
      List.getD_append _ _ _ _ (by rw [hP]; omega)
    have hRg : ((putUint64 (recSize r) ++ (r.key.length :: r.key))
          ++ (slotsBytes sl' ++ (putUint64 r.selfEnd ++ putUint64 r.next))).getD j 0
        = ((putUint64 (recSize r) ++ (r.key.length :: r.key)) : Bytes).getD j 0 :=
      List.getD_append _ _ _ _ (by rw [hP]; omega)
    rw [hLg, hRg]
  · by_cases h2 : j < r.key.length + 9 + (slotsBytes sl').length
    · obtain ⟨j', rfl⟩ : ∃ j', j = r.key.length + 9 + j' := ⟨j - (r.key.length + 9), by omega⟩
      rw [harea j' (by omega), hre']
      have e3 : r.key.length + 9 + j'
          = ((putUint64 (recSize r) ++ (r.key.length :: r.key)) : Bytes).length + j' := by
        rw [hP]
      rw [e3, getD_concat, List.getD_append _ _ _ _ (by omega)]
    · obtain ⟨j'', rfl⟩ : ∃ j'', j = r.key.length + 9 + (slotsBytes sl').length + j'' :=
        ⟨j - (r.key.length + 9 + (slotsBytes sl').length), by omega⟩
      rw [houter _ hj (Or.inr (by omega)), h _ hj, hre, hre']
      have e1 : r.key.length + 9 + (slotsBytes sl').length + j''
          = ((putUint64 (recSize r) ++ (r.key.length :: r.key)) : Bytes).length
            + ((slotsBytes r.slots).length + j'') := by
        rw [hP]
        omega
      have e2 : r.key.length + 9 + (slotsBytes sl').length + j''
          = ((putUint64 (recSize r) ++ (r.key.length :: r.key)) : Bytes).length
            + ((slotsBytes sl').length + j'') := by
        rw [hP]
        omega
      have hL : ((putUint64 (recSize r) ++ (r.key.length :: r.key))
            ++ (slotsBytes r.slots ++ (putUint64 r.selfEnd ++ putUint64 r.next))).getD
            (r.key.length + 9 + (slotsBytes sl').length + j'') 0
          = (putUint64 r.selfEnd ++ putUint64 r.next).getD j'' 0 := by
        rw [e1, getD_concat, getD_concat]
      have hR : ((putUint64 (recSize r) ++ (r.key.length :: r.key))
            ++ (slotsBytes sl' ++ (putUint64 r.selfEnd ++ putUint64 r.next))).getD
            (r.key.length + 9 + (slotsBytes sl').length + j'') 0
          = (putUint64 r.selfEnd ++ putUint64 r.next).getD j'' 0 := by
        rw [e2, getD_concat, getD_concat]
      rw [hL, hR]

/-- Source function `del` on one record: matched live values are tombstoned in
place, everything outside the value area is untouched, and the record's
`next` pointer is returned. -/
theorem del_record (m : Mem) (o : Nat) (r : Rec) (h : RecAt m o r) (hwf : RecWF r)
    (hkl : r.key.length ≤ 246)
    (hsz : recSize r < 2 ^ 64) (hnx : r.next < 2 ^ 64) (vset : List Bytes) :
    ∃ m', del m (Int.ofNat o) vset = .ok (m', r.next) ∧
      RecAt m' o (setSlots r (delSlots vset r.slots)) ∧
      ∀ a, (a < o + (r.key.length + 9) ∨ o + (recSize r - 16) ≤ a) → m' a = m a := by
  obtain ⟨P1, P2⟩ := delLoop_slots o (recSize r) vset r.slots hwf.2.2 (r.key.length + 9)
    (recSize r - 16) m
    (by simp only [recSize]; omega) (by simp only [recSize]; omega)
    (fun j hj => RecAt_area m o r h j hj)
  refine ⟨delLoop o (recSize r) vset (recSize r - 16) m (r.key.length + 9), ?_, ?_, ?_⟩
  · simp only [del]
    rw [if_neg (by simp), Int.ofNat_eq_natCast, Int.toNat_ofNat, RecAt_total m o r h hsz, RecAt_klen m o r h]
    rw [if_neg (by have := recSize_ge r; omega), if_neg (by have := recSize_ge r; omega)]
    rw [Nat.mod_eq_of_lt (show r.key.length + 9 < 256 by omega)]
    have hnr : bigUint64 (readBytes
        (delLoop o (recSize r) vset (recSize r - 16) m (r.key.length + 9))
        (o + recSize r - 8) 8) = r.next := by
      rw [readBytes_congr _ m (o + recSize r - 8) (o + recSize r - 8) 8 ?hc]
      · exact RecAt_next m o r h hnx
      case hc =>
        intro j hj
        apply P1
        right
        have hrs : recSize r = 25 + r.key.length + (slotsBytes r.slots).length := rfl
        omega
    rw [hnr]
  · apply RecAt_update_slots m _ o r _ h (length_slotsBytes_delSlots vset r.slots)
    · intro j hj hside
      apply P1
      rcases hside with h1 | h1
      · left
        omega
      · right
        omega
    · intro j hj
      rw [length_slotsBytes_delSlots] at hj
      exact P2 j hj
  · intro a ha
    apply P1
    rcases ha with h1 | h1
    · left
      exact h1
    · right
      simp only [recSize] at h1 ⊢
      omega

/-- Source function `delPrefix` on one record: live values matching a prefix are
tombstoned in place; the record's `next` pointer is returned. -/
theorem delPrefix_record (m : Mem) (o : Nat) (r : Rec) (h : RecAt m o r) (hwf : RecWF r)
    (hkl : r.key.length ≤ 246)
    (hsz : recSize r < 2 ^ 64) (hnx : r.next < 2 ^ 64) (prefixes : List Bytes) :
    ∃ m', delPrefix m (Int.ofNat o) prefixes = .ok (m', r.next) ∧
      RecAt m' o (setSlots r (delPrefixSlots prefixes r.slots)) ∧
      ∀ a, (a < o + (r.key.length + 9) ∨ o + (recSize r - 16) ≤ a) → m' a = m a := by
  obtain ⟨P1, P2⟩ := delPrefixLoop_slots o (recSize r) prefixes r.slots hwf.2.2
    (r.key.length + 9) (recSize r - 16) m
    (by simp only [recSize]; omega) (by simp only [recSize]; omega)
    (fun j hj => RecAt_area m o r h j hj)
  refine ⟨delPrefixLoop o (recSize r) prefixes (recSize r - 16) m (r.key.length + 9), ?_, ?_, ?_⟩
  · simp only [delPrefix]
    rw [if_neg (by simp), Int.ofNat_eq_natCast, Int.toNat_ofNat, RecAt_total m o r h hsz, RecAt_klen m o r h]
    rw [if_neg (by have := recSize_ge r; omega), if_neg (by have := recSize_ge r; omega)]
    rw [Nat.mod_eq_of_lt (show r.key.length + 9 < 256 by omega)]
    have hnr : bigUint64 (readBytes
        (delPrefixLoop o (recSize r) prefixes (recSize r - 16) m (r.key.length + 9))
        (o + recSize r - 8) 8) = r.next := by
      rw [readBytes_congr _ m (o + recSize r - 8) (o + recSize r - 8) 8 ?hc]
      · exact RecAt_next m o r h hnx
      case hc =>
        intro j hj
        apply P1
        right
        have hrs : recSize r = 25 + r.key.length + (slotsBytes r.slots).length := rfl
        omega
    rw [hnr]
  · apply RecAt_update_slots m _ o r _ h (length_slotsBytes_delPrefixSlots prefixes r.slots)
    · intro j hj hside
      apply P1
      rcases hside with h1 | h1
      · left
        omega
      · right
        omega
    · intro j hj
      rw [length_slotsBytes_delPrefixSlots] at hj
      exact P2 j hj
  · intro a ha
    apply P1
    rcases ha with h1 | h1
    · left
      exact h1
    · right
      simp only [recSize] at h1 ⊢
      omega

/-! ### Chain walks over the layout invariant -/

/-- Placeholder record (for total list indexing). -/
def recD : Rec := { key := [], slots := [], selfEnd := 0, next := 0 }

/-- The values a `gets` walk returns: the live values of the chain's
records, head to tail. -/
def chainVals (D : List Rec) (l : List Nat) : List Bytes :=
  (l.map (fun j => liveVals ((D.getD j recD).slots))).flatten

theorem chainVals_cons (D : List Rec) (i : Nat) (l : List Nat) :
    chainVals D (i :: l) = liveVals ((D.getD i recD).slots) ++ chainVals D l := by
  simp [chainVals]

theorem RecAt_congr_mem (m m' : Mem) (o : Nat) (r : Rec) (h : RecAt m o r)
    (he : ∀ j < recSize r, m' (o + j) = m (o + j)) : RecAt m' o r :=
  fun j hj => (he j hj).trans (h j hj)

/-- Two record lists with identical keys, `next` fields and sizes
position for position (their slots may differ — tombstoning). -/
def SameShape (D D' : List Rec) : Prop :=
  D'.length = D.length ∧ ∀ (i : Nat) (hi : i < D.length) (hi' : i < D'.length),
    (D'.get ⟨i, hi'⟩).key = (D.get ⟨i, hi⟩).key ∧
    (D'.get ⟨i, hi'⟩).next = (D.get ⟨i, hi⟩).next ∧
    recSize (D'.get ⟨i, hi'⟩) = recSize (D.get ⟨i, hi⟩)

theorem SameShape_refl (D : List Rec) : SameShape D D :=
  ⟨rfl, fun _ _ _ => ⟨rfl, rfl, rfl⟩⟩

theorem SameShape_trans (D1 D2 D3 : List Rec) (h1 : SameShape D1 D2)
    (h2 : SameShape D2 D3) : SameShape D1 D3 := by
  obtain ⟨hl1, hk1⟩ := h1
  obtain ⟨hl2, hk2⟩ := h2
  refine ⟨hl2.trans hl1, fun i hi hi' => ?_⟩
  obtain ⟨a1, b1, c1⟩ := hk1 i hi (by omega)
  obtain ⟨a2, b2, c2⟩ := hk2 i (by omega) hi'
  exact ⟨a2.trans a1, b2.trans b1, c2.trans c1⟩

theorem SameShape_offAt (D D' : List Rec) (h : SameShape D D') :
    ∀ i, offAt D' i = offAt D i :=
  offAt_congr D D' h.1 (fun i hi hi' => (h.2 i hi hi').2.2)

theorem SameShape_set_slots (D : List Rec) (i : Nat) (hi : i < D.length) (sl' : List Slot)
    (hlen : (slotsBytes sl').length = (slotsBytes (D.get ⟨i, hi⟩).slots).length) :
    SameShape D (D.set i (setSlots (D.get ⟨i, hi⟩) sl')) := by
  simp only [List.get_eq_getElem] at hlen
  refine ⟨by simp, fun i' hi' hi'' => ?_⟩
  simp only [List.get_eq_getElem]
  simp only [List.length_set] at hi''
  by_cases he : i' = i
  · subst he
    rw [List.getElem_set_self]
    refine ⟨rfl, rfl, ?_⟩
    simp only [setSlots, recSize, hlen]
  · rw [List.getElem_set_ne (fun a => he a.symm) (by simpa using hi'')]
    exact ⟨rfl, rfl, rfl⟩

theorem ChainIdx_congr (D D' : List Rec) (h : SameShape D D') (i : Nat) (l : List Nat)
    (hc : ChainIdx D i l) : ChainIdx D' i l := by
  have hlen := h.1
  induction hc with
  | tail i hi h0 =>
    refine .tail i (by omega) ?_
    rw [(h.2 i hi (by omega)).2.1, h0]
  | cons i j l hi hj hij hn _ ih =>
    refine .cons i j l (by omega) (by omega) hij ?_ ih
    rw [(h.2 i hi (by omega)).2.1, hn, SameShape_offAt D D' h]

/-- List indexing through an update, elementwise. -/
theorem get_set_self (D : List Rec) (i : Nat) (r : Rec) (h : i < (D.set i r).length) :
    (D.set i r).get ⟨i, h⟩ = r := by
  simp

/-- List indexing through an update at another position. -/
theorem get_set_ne (D : List Rec) (i i2 : Nat) (r : Rec) (hne : i2 ≠ i)
    (h : i2 < (D.set i r).length) (h2 : i2 < D.length) :
    (D.set i r).get ⟨i2, h⟩ = D.get ⟨i2, h2⟩ := by
  simp only [List.get_eq_getElem]
  exact List.getElem_set_ne (fun a => hne a.symm) h

/-- Updating one record's slot area in place (same byte length, the rest
of memory untouched) preserves the layout invariant. -/
theorem DiskD_set_slots (m m' : Mem) (D : List Rec) (hd : DiskD m D) (i : Nat)
    (hi : i < D.length) (sl' : List Slot)
    (hlen : (slotsBytes sl').length = (slotsBytes (D.get ⟨i, hi⟩).slots).length)
    (hwfs : ∀ x ∈ sl', SlotWF x)
    (hR : RecAt m' (offAt D i) (setSlots (D.get ⟨i, hi⟩) sl'))
    (hout : ∀ a, (a < offAt D i + ((D.get ⟨i, hi⟩).key.length + 9)
        ∨ offAt D i + (recSize (D.get ⟨i, hi⟩) - 16) ≤ a) → m' a = m a) :
    DiskD m' (D.set i (setSlots (D.get ⟨i, hi⟩) sl')) := by
  have hshape := SameShape_set_slots D i hi sl' hlen
  have hoffeq := SameShape_offAt _ _ hshape
  refine ⟨?_, ?_, ?_, ?_⟩
  · rw [hoffeq (D.set i (setSlots (D.get ⟨i, hi⟩) sl')).length]
    rw [List.length_set]
    exact hd.hsz
  · intro i2 hi2
    have hi2' : i2 < D.length := by simpa using hi2
    rw [hoffeq i2]
    by_cases he : i2 = i
    · subst he
      rw [get_set_self]
      exact hR
    · rw [get_set_ne D i i2 _ he hi2 hi2']
      apply RecAt_congr_mem m m' _ _ (hd.hmem i2 hi2')
      intro j hj
      apply hout
      rcases Nat.lt_or_ge i2 i with hlt | hge
      · left
        have hb := offAt_block_le D i2 i hi2' hlt (by omega)
        omega
      · have hgt : i < i2 := by omega
        right
        have hb := offAt_block_le D i i2 hi hgt (by omega)
        have h16 := recSize_ge (D.get ⟨i, hi⟩)
        omega
  · intro r hr
    rcases List.mem_or_eq_of_mem_set hr with hmem | rfl
    · exact hd.hwf r hmem
    · obtain ⟨h1, h2, _⟩ := hd.hwf _ (List.get_mem D i hi)
      exact ⟨h1, h2, hwfs⟩
  · intro i2 hi2
    have hi2' : i2 < D.length := by simpa using hi2
    by_cases he : i2 = i
    · subst he
      rw [get_set_self]
      show (setSlots (D.get ⟨i2, hi⟩) sl').next = 0 ∨ _
      have hnx : (setSlots (D.get ⟨i2, hi⟩) sl').next = (D.get ⟨i2, hi⟩).next := rfl
      rw [hnx]
      rcases hd.hnext i2 hi2' with h0 | ⟨j, hj, hij, hnj⟩
      · left
        rw [← h0]
      · right
        refine ⟨j, by simpa using hj, hij, ?_⟩
        rw [hoffeq j, show (D.get ⟨i2, hi2'⟩).next = offAt D j from hnj]
    · rw [get_set_ne D i i2 _ he hi2 hi2']
      rcases hd.hnext i2 hi2' with h0 | ⟨j, hj, hij, hnj⟩
      · exact Or.inl h0
      · right
        refine ⟨j, by simpa using hj, hij, ?_⟩
        rw [hoffeq j]
        exact hnj

theorem offAt_pos_of_chain (D : List Rec) (i j : Nat) (hi : i < D.length)
    (hij : i < j) (hj : j ≤ D.length) : 0 < offAt D j := by
  have h1 := offAt_lt_of_lt D i j hi hij hj
  omega

/-- The `gets` walk along a chain returns the concatenated live values of
its records, head to tail. -/
theorem getsLoop_chain (m : Mem) (D : List Rec) (hd : DiskD m D)
    (l : List Nat) (i : Nat) (hc : ChainIdx D i l) :
    ∀ fuel, l.length ≤ fuel → getsLoop m fuel (offAt D i) = .ok (chainVals D l) := by
  induction hc with
  | tail i hi h0 =>
    intro fuel hf
    obtain ⟨f, rfl⟩ : ∃ f, fuel = f + 1 := ⟨fuel - 1, by simp at hf; omega⟩
    have hget := get_record m (offAt D i) (D.get ⟨i, hi⟩) (hd.hmem i hi)
      (hd.hwf _ (List.get_mem D i hi)).2.2 (hd.hwf _ (List.get_mem D i hi)).1
      (hd.rec_small m D i hi) (hd.next_small m D i hi)
    rw [h0] at hget
    show (get m (offAt D i) >>= fun p =>
      (match p with
       | (list, d) =>
        if d = 0 then Except.ok list
        else getsLoop m f d >>= fun rest => Except.ok (list ++ rest))) = _
    rw [hget, res_bind_ok]
    show Except.ok (liveVals (D.get ⟨i, hi⟩).slots) = _
    have hcv : chainVals D [i] = liveVals (D.get ⟨i, hi⟩).slots := by
      simp [chainVals, List.getD_eq_getElem, hi]
    rw [hcv]
  | cons i j l hi hj hij hn hcj ih =>
    intro fuel hf
    obtain ⟨f, rfl⟩ : ∃ f, fuel = f + 1 := ⟨fuel - 1, by simp at hf; omega⟩
    have hget := get_record m (offAt D i) (D.get ⟨i, hi⟩) (hd.hmem i hi)
      (hd.hwf _ (List.get_mem D i hi)).2.2 (hd.hwf _ (List.get_mem D i hi)).1
      (hd.rec_small m D i hi) (hd.next_small m D i hi)
    rw [hn] at hget
    have hpos := offAt_pos_of_chain D i j hi hij (by omega)
    show (get m (offAt D i) >>= fun p =>
      (match p with
       | (list, d) =>
        if d = 0 then Except.ok list
        else getsLoop m f d >>= fun rest => Except.ok (list ++ rest))) = _
    rw [hget, res_bind_ok]
    show (if offAt D j = 0 then Except.ok (liveVals (D.get ⟨i, hi⟩).slots)
      else getsLoop m f (offAt D j) >>= fun rest =>
        Except.ok (liveVals (D.get ⟨i, hi⟩).slots ++ rest)) = _
    rw [if_neg (by omega), ih f (by simp at hf; omega), res_bind_ok, chainVals_cons]
    rw [List.getD_eq_getElem D recD hi]
    rfl

/-- The `getB8byOffset` walk: it ends at the chain's tail and returns the
address of the tail's `next` field. -/
theorem getB8Loop_chain (s : MState) (D : List Rec) (hd : DiskD s.mem D)
    (hoff : s.offset = offAt D D.length)
    (l : List Nat) (i : Nat) (hc : ChainIdx D i l) :
    ∀ fuel, l.length ≤ fuel →
      ∃ j, ∃ hj : j < D.length, l.getLast? = some j ∧ (D.get ⟨j, hj⟩).next = 0 ∧
        getB8Loop s fuel (offAt D i) = .ok (some (offAt D j + recSize (D.get ⟨j, hj⟩) - 8)) := by
  induction hc with
  | tail i hi h0 =>
    intro fuel hf
    obtain ⟨f, rfl⟩ : ∃ f, fuel = f + 1 := ⟨fuel - 1, by simp at hf; omega⟩
    have hlt : offAt D i < s.offset := by
      rw [hoff]
      exact offAt_lt_of_lt D i D.length hi hi (le_refl _)
    have hb8 : b8 s (offAt D i) = .ok ((D.get ⟨i, hi⟩).next,
        some (offAt D i + recSize (D.get ⟨i, hi⟩) - 8)) := by
      simp only [b8]
      rw [if_neg (by omega), RecAt_total s.mem _ _ (hd.hmem i hi) (hd.rec_small s.mem D i hi)]
      rw [if_neg (by have := recSize_ge (D.get ⟨i, hi⟩); omega)]
      rw [show offAt D i + recSize (D.get ⟨i, hi⟩) - 8
        = offAt D i + recSize (D.get ⟨i, hi⟩) - 8 from rfl]
      rw [RecAt_next s.mem _ _ (hd.hmem i hi) (hd.next_small s.mem D i hi)]
    refine ⟨i, hi, rfl, h0, ?_⟩
    show (b8 s (offAt D i) >>= fun p =>
      (match p with
       | (lastDec, loc) => if lastDec = 0 then Except.ok loc else getB8Loop s f lastDec)) = _
    rw [hb8, res_bind_ok]
    show (if (D.get ⟨i, hi⟩).next = 0 then _ else _) = _
    rw [if_pos h0]
  | cons i j l hi hj hij hn hcj ih =>
    intro fuel hf
    obtain ⟨f, rfl⟩ : ∃ f, fuel = f + 1 := ⟨fuel - 1, by simp at hf; omega⟩
    have hlt : offAt D i < s.offset := by
      rw [hoff]
      exact offAt_lt_of_lt D i D.length hi hi (le_refl _)
    have hb8 : b8 s (offAt D i) = .ok ((D.get ⟨i, hi⟩).next,
        some (offAt D i + recSize (D.get ⟨i, hi⟩) - 8)) := by
      simp only [b8]
      rw [if_neg (by omega), RecAt_total s.mem _ _ (hd.hmem i hi) (hd.rec_small s.mem D i hi)]
      rw [if_neg (by have := recSize_ge (D.get ⟨i, hi⟩); omega)]
      rw [RecAt_next s.mem _ _ (hd.hmem i hi) (hd.next_small s.mem D i hi)]
    have hpos := offAt_pos_of_chain D i j hi hij (by omega)
    obtain ⟨jt, hjt, hlast, hjn, hrun⟩ := ih f (by simp at hf; omega)
    refine ⟨jt, hjt, ?_, hjn, ?_⟩
    · rw [← hlast]
      cases l with
      | nil => exact absurd rfl (ChainIdx.ne_nil D j [] hcj)
      | cons x t => rfl
    · show (b8 s (offAt D i) >>= fun p =>
        (match p with
         | (lastDec, loc) => if lastDec = 0 then Except.ok loc else getB8Loop s f lastDec)) = _
      rw [hb8, res_bind_ok]
      show (if (D.get ⟨i, hi⟩).next = 0 then _ else getB8Loop s f (D.get ⟨i, hi⟩).next) = _
      rw [if_neg (by rw [hn]; omega), hn, hrun]

/-- The `empty` walk: either some chain record has a zero run — the walk
stops at the first such record and reports its first run — or no record
has one and the walk reports `t = false`. -/
theorem emptyLoop_chain (m : Mem) (D : List Rec) (hd : DiskD m D)
    (l : List Nat) (i : Nat) (hc : ChainIdx D i l) :
    ∀ fuel, l.length ≤ fuel →
      (∃ l1 j l2, l = l1 ++ j :: l2 ∧
        (∀ j' ∈ l1, ∀ hj' : j' < D.length, firstGapR (D.get ⟨j', hj'⟩) = none) ∧
        ∃ hj : j < D.length, ∃ st en, firstGapR (D.get ⟨j, hj⟩) = some (st, en) ∧
          emptyLoop m fuel (offAt D i) = .ok (offAt D j, st, en, true))
      ∨ ((∀ j' ∈ l, ∀ hj' : j' < D.length, firstGapR (D.get ⟨j', hj'⟩) = none) ∧
         ∃ j, ∃ hj : j < D.length, emptyLoop m fuel (offAt D i) = .ok (offAt D j, 0, 0, false)) := by
  induction hc with
  | tail i hi h0 =>
    intro fuel hf
    obtain ⟨f, rfl⟩ : ∃ f, fuel = f + 1 := ⟨fuel - 1, by simp at hf; omega⟩
    have hwfr := hd.hwf _ (List.get_mem D i hi)
    cases hg : firstGapR (D.get ⟨i, hi⟩) with
    | some p =>
      obtain ⟨st, en⟩ := p
      obtain ⟨ld, hemp⟩ := empty1_record_gap m (offAt D i) _ (hd.hmem i hi) hwfr hwfr.1
        (hd.rec_small m D i hi) (hd.next_small m D i hi) st en hg
      left
      refine ⟨[], i, [], rfl, by simp, hi, st, en, hg, ?_⟩
      show (empty1 m (offAt D i) >>= fun r =>
        (match r with
         | (o, lastDec, start, e, t) =>
          if lastDec = 0 ∨ t then Except.ok (o, start, e, t) else emptyLoop m f lastDec)) = _
      rw [hemp, res_bind_ok]
      show (if ld = 0 ∨ (true : Bool) then Except.ok (offAt D i, st, en, true) else _) = _
      rw [if_pos (Or.inr rfl)]
    | none =>
      have hemp := empty1_record_nogap m (offAt D i) _ (hd.hmem i hi) hwfr hwfr.1
        (hd.rec_small m D i hi) (hd.next_small m D i hi) hg
      right
      refine ⟨?_, i, hi, ?_⟩
      · intro j' hj' hb'
        rw [List.mem_singleton] at hj'
        subst hj'
        exact hg
      · show (empty1 m (offAt D i) >>= fun r =>
          (match r with
           | (o, lastDec, start, e, t) =>
            if lastDec = 0 ∨ t then Except.ok (o, start, e, t) else emptyLoop m f lastDec)) = _
        rw [hemp, res_bind_ok]
        show (if (D.get ⟨i, hi⟩).next = 0 ∨ (false : Bool) then
          Except.ok (offAt D i, 0, 0, false) else _) = _
        rw [if_pos (Or.inl h0)]
  | cons i j l hi hj hij hn hcj ih =>
    intro fuel hf
    obtain ⟨f, rfl⟩ : ∃ f, fuel = f + 1 := ⟨fuel - 1, by simp at hf; omega⟩
    have hwfr := hd.hwf _ (List.get_mem D i hi)
    cases hg : firstGapR (D.get ⟨i, hi⟩) with
    | some p =>
      obtain ⟨st, en⟩ := p
      obtain ⟨ld, hemp⟩ := empty1_record_gap m (offAt D i) _ (hd.hmem i hi) hwfr hwfr.1
        (hd.rec_small m D i hi) (hd.next_small m D i hi) st en hg
      left
      refine ⟨[], i, l, rfl, by simp, hi, st, en, hg, ?_⟩
      show (empty1 m (offAt D i) >>= fun r =>
        (match r with
         | (o, lastDec, start, e, t) =>
          if lastDec = 0 ∨ t then Except.ok (o, start, e, t) else emptyLoop m f lastDec)) = _
      rw [hemp, res_bind_ok]
      show (if ld = 0 ∨ (true : Bool) then Except.ok (offAt D i, st, en, true) else _) = _
      rw [if_pos (Or.inr rfl)]
    | none =>
      have hemp := empty1_record_nogap m (offAt D i) _ (hd.hmem i hi) hwfr hwfr.1
        (hd.rec_small m D i hi) (hd.next_small m D i hi) hg
      have hpos := offAt_pos_of_chain D i j hi hij (by omega)
      have hstep : emptyLoop m (f + 1) (offAt D i) = emptyLoop m f (offAt D j) := by
        show (empty1 m (offAt D i) >>= fun r =>
          (match r with
           | (o, lastDec, start, e, t) =>
            if lastDec = 0 ∨ t then Except.ok (o, start, e, t) else emptyLoop m f lastDec)) = _
        rw [hemp, res_bind_ok]
        show (if (D.get ⟨i, hi⟩).next = 0 ∨ (false : Bool) then _
          else emptyLoop m f (D.get ⟨i, hi⟩).next) = _
        rw [if_neg (by simp only [hn, Bool.false_eq_true, or_false]; omega), hn]
      rcases ih f (by simp only [List.length_cons] at hf; omega) with
        ⟨l1, j2, l2, hl, hnone, hj2, st, en, hg2, hrun⟩ | ⟨hnone, j2, hj2, hrun⟩
      · left
        refine ⟨i :: l1, j2, l2, by simp [hl], ?_, hj2, st, en, hg2, by rw [hstep, hrun]⟩
        intro j' hj' hb'
        rcases List.mem_cons.mp hj' with rfl | hj'
        · exact hg
        · exact hnone j' hj' hb'
      · right
        refine ⟨?_, j2, hj2, by rw [hstep, hrun]⟩
        intro j' hj' hb'
        rcases List.mem_cons.mp hj' with rfl | hj'
        · exact hg
        · exact hnone j' hj' hb'

/-- The `dels` walk along a chain: it succeeds, and the resulting memory
is the same record layout with some slots tombstoned (keys, sizes and
links untouched). -/
theorem delsLoop_chain (vset : List Bytes) :
    ∀ (l : List Nat) (D : List Rec) (m : Mem), DiskD m D → ∀ (i : Nat), ChainIdx D i l →
      ∀ fuel, l.length ≤ fuel →
      ∃ m' D', delsLoop vset fuel m (Int.ofNat (offAt D i)) = .ok m' ∧
        DiskD m' D' ∧ SameShape D D' := by
  intro l
  induction l with
  | nil =>
    intro D m hd i hc fuel hf
    cases hc
  | cons x t ihl =>
    intro D m hd i hc fuel hf
    obtain ⟨f, rfl⟩ : ∃ f, fuel = f + 1 := ⟨fuel - 1, by simp at hf; omega⟩
    cases hc with
    | tail i hi h0 =>
      obtain ⟨m1, hdel, hR, hout⟩ := del_record m (offAt D x) (D.get ⟨x, hi⟩) (hd.hmem x hi)
        (hd.hwf _ (List.get_mem D x hi)) (hd.hwf _ (List.get_mem D x hi)).1
        (hd.rec_small m D x hi) (hd.next_small m D x hi) vset
      rw [h0] at hdel
      refine ⟨m1, D.set x (setSlots (D.get ⟨x, hi⟩) (delSlots vset (D.get ⟨x, hi⟩).slots)),
        ?_, ?_, ?_⟩
      · show (del m (Int.ofNat (offAt D x)) vset >>= fun p =>
          (match p with
           | (m', d) => if d = 0 then Except.ok m' else delsLoop vset f m' (Int.ofNat d))) = _
        rw [hdel, res_bind_ok]
        show (if (0 : Nat) = 0 then Except.ok m1 else _) = _
        rw [if_pos rfl]
      · exact DiskD_set_slots m m1 D hd x hi _ (length_slotsBytes_delSlots _ _)
          (delSlots_wf _ _ (hd.hwf _ (List.get_mem D x hi)).2.2) hR hout
      · exact SameShape_set_slots D x hi _ (length_slotsBytes_delSlots _ _)
    | cons i j t' hi hj hij hn hcj =>
      obtain ⟨m1, hdel, hR, hout⟩ := del_record m (offAt D x) (D.get ⟨x, hi⟩) (hd.hmem x hi)
        (hd.hwf _ (List.get_mem D x hi)) (hd.hwf _ (List.get_mem D x hi)).1
        (hd.rec_small m D x hi) (hd.next_small m D x hi) vset
      rw [hn] at hdel
      have hshape1 := SameShape_set_slots D x hi (delSlots vset (D.get ⟨x, hi⟩).slots)
        (length_slotsBytes_delSlots _ _)
      have hd1 : DiskD m1 (D.set x (setSlots (D.get ⟨x, hi⟩)
          (delSlots vset (D.get ⟨x, hi⟩).slots))) :=
        DiskD_set_slots m m1 D hd x hi _ (length_slotsBytes_delSlots _ _)
          (delSlots_wf _ _ (hd.hwf _ (List.get_mem D x hi)).2.2) hR hout
      have hc1 := ChainIdx_congr D _ hshape1 j t hcj
      obtain ⟨m2, D2, hrun, hd2, hshape2⟩ := ihl _ m1 hd1 j hc1 f
        (by simp only [List.length_cons] at hf; omega)
      have hoff1 := SameShape_offAt D _ hshape1 j
      refine ⟨m2, D2, ?_, hd2, SameShape_trans D _ D2 hshape1 hshape2⟩
      show (del m (Int.ofNat (offAt D x)) vset >>= fun p =>
        (match p with
         | (m', d) => if d = 0 then Except.ok m' else delsLoop vset f m' (Int.ofNat d))) = _
      rw [hdel, res_bind_ok]
      show (if offAt D j = 0 then Except.ok m1
        else delsLoop vset f m1 (Int.ofNat (offAt D j))) = _
      have hpos := offAt_pos_of_chain D x j hi hij (by omega)
      rw [if_neg (by omega), ← hoff1, hrun]

/-- The `delsPrefix` walk along a chain (same statement as `dels`). -/
theorem delsPrefixLoop_chain (prefixes : List Bytes) :
    ∀ (l : List Nat) (D : List Rec) (m : Mem), DiskD m D → ∀ (i : Nat), ChainIdx D i l →
      ∀ fuel, l.length ≤ fuel →
      ∃ m' D', delsPrefixLoop prefixes fuel m (Int.ofNat (offAt D i)) = .ok m' ∧
        DiskD m' D' ∧ SameShape D D' := by
  intro l
  induction l with
  | nil =>
    intro D m hd i hc fuel hf
    cases hc
  | cons x t ihl =>
    intro D m hd i hc fuel hf
    obtain ⟨f, rfl⟩ : ∃ f, fuel = f + 1 := ⟨fuel - 1, by simp at hf; omega⟩
    cases hc with
    | tail i hi h0 =>
      obtain ⟨m1, hdel, hR, hout⟩ := delPrefix_record m (offAt D x) (D.get ⟨x, hi⟩)
        (hd.hmem x hi) (hd.hwf _ (List.get_mem D x hi)) (hd.hwf _ (List.get_mem D x hi)).1
        (hd.rec_small m D x hi)
        (hd.next_small m D x hi) prefixes
      rw [h0] at hdel
      refine ⟨m1, D.set x (setSlots (D.get ⟨x, hi⟩)
        (delPrefixSlots prefixes (D.get ⟨x, hi⟩).slots)), ?_, ?_, ?_⟩
      · show (delPrefix m (Int.ofNat (offAt D x)) prefixes >>= fun p =>
          (match p with
           | (m', d) => if d = 0 then Except.ok m'
             else delsPrefixLoop prefixes f m' (Int.ofNat d))) = _
        rw [hdel, res_bind_ok]
        show (if (0 : Nat) = 0 then Except.ok m1 else _) = _
        rw [if_pos rfl]
      · exact DiskD_set_slots m m1 D hd x hi _ (length_slotsBytes_delPrefixSlots _ _)
          (delPrefixSlots_wf _ _ (hd.hwf _ (List.get_mem D x hi)).2.2) hR hout
      · exact SameShape_set_slots D x hi _ (length_slotsBytes_delPrefixSlots _ _)
    | cons i j t' hi hj hij hn hcj =>
      obtain ⟨m1, hdel, hR, hout⟩ := delPrefix_record m (offAt D x) (D.get ⟨x, hi⟩)
        (hd.hmem x hi) (hd.hwf _ (List.get_mem D x hi)) (hd.hwf _ (List.get_mem D x hi)).1
        (hd.rec_small m D x hi)
        (hd.next_small m D x hi) prefixes
      rw [hn] at hdel
      have hshape1 := SameShape_set_slots D x hi
        (delPrefixSlots prefixes (D.get ⟨x, hi⟩).slots)
        (length_slotsBytes_delPrefixSlots _ _)
      have hd1 : DiskD m1 (D.set x (setSlots (D.get ⟨x, hi⟩)
          (delPrefixSlots prefixes (D.get ⟨x, hi⟩).slots))) :=
        DiskD_set_slots m m1 D hd x hi _ (length_slotsBytes_delPrefixSlots _ _)
          (delPrefixSlots_wf _ _ (hd.hwf _ (List.get_mem D x hi)).2.2) hR hout
      have hc1 := ChainIdx_congr D _ hshape1 j t hcj
      obtain ⟨m2, D2, hrun, hd2, hshape2⟩ := ihl _ m1 hd1 j hc1 f
        (by simp only [List.length_cons] at hf; omega)
      have hoff1 := SameShape_offAt D _ hshape1 j
      refine ⟨m2, D2, ?_, hd2, SameShape_trans D _ D2 hshape1 hshape2⟩
      show (delPrefix m (Int.ofNat (offAt D x)) prefixes >>= fun p =>
        (match p with
         | (m', d) => if d = 0 then Except.ok m'
           else delsPrefixLoop prefixes f m' (Int.ofNat d))) = _
      rw [hdel, res_bind_ok]
      show (if offAt D j = 0 then Except.ok m1
        else delsPrefixLoop prefixes f m1 (Int.ofNat (offAt D j))) = _
      have hpos := offAt_pos_of_chain D x j hi hij (by omega)
      rw [if_neg (by omega), ← hoff1, hrun]

/-! ### Preservation of the invariant by `add` -/

/-- The invariant only concerns bytes below `end_offset`, the index and
the offset; anything that leaves those alone preserves it. -/
theorem StateD_congr (s s' : MState) (D : List Rec) (hD : StateD s D)
    (hoff : s'.offset = s.offset) (hkm : s'.keyMap = s.keyMap)
    (hmem : ∀ a < s.offset, s'.mem a = s.mem a) : StateD s' D := by
  obtain ⟨hdk, hof, hkey⟩ := hD
  refine ⟨⟨hdk.hsz, ?_, hdk.hwf, hdk.hnext⟩, by rw [hoff, hof], ?_⟩
  · intro i hi
    apply RecAt_congr_mem s.mem s'.mem _ _ (hdk.hmem i hi)
    intro j hj
    apply hmem
    have hb := offAt_block_le D i D.length hi hi (le_refl _)
    rw [hof]
    omega
  · intro k o hko
    rw [hkm] at hko
    exact hkey k o hko

/-- A record with its `next` field replaced (everything else kept). -/
def setNext (r : Rec) (n : Nat) : Rec :=
  { key := r.key, slots := r.slots, selfEnd := r.selfEnd, next := n }

theorem recSize_setNext (r : Rec) (n : Nat) : recSize (setNext r n) = recSize r := rfl

/-- Rebuilding a record-read hypothesis after its `next` field (the last
eight bytes) was overwritten. -/
theorem RecAt_update_next (m m' : Mem) (o : Nat) (r : Rec) (n : Nat)
    (h : RecAt m o r)
    (houter : ∀ j < recSize r - 8, m' (o + j) = m (o + j))
    (hlast : ∀ j < 8, m' (o + (recSize r - 8 + j)) = (putUint64 n).getD j 0) :
    RecAt m' o (setNext r n) := by
  have hQ : recBytes r = (putUint64 (recSize r) ++ ((r.key.length :: r.key)
      ++ (slotsBytes r.slots ++ putUint64 r.selfEnd))) ++ putUint64 r.next := by
    simp only [recBytes, List.append_assoc]
  have hQ' : recBytes (setNext r n) = (putUint64 (recSize r) ++ ((r.key.length :: r.key)
      ++ (slotsBytes r.slots ++ putUint64 r.selfEnd))) ++ putUint64 n := by
    rw [show (putUint64 (recSize r) : Bytes) = putUint64 (recSize (setNext r n)) from rfl]
    simp only [recBytes, setNext, List.append_assoc]
  have hQlen : ((putUint64 (recSize r) ++ ((r.key.length :: r.key)
      ++ (slotsBytes r.slots ++ putUint64 r.selfEnd))) : Bytes).length = recSize r - 8 := by
    simp only [List.length_append, putUint64_length, List.length_cons, recSize]
    omega
  intro j hj
  rw [show recSize (setNext r n) = recSize r from rfl] at hj
  by_cases h1 : j < recSize r - 8
  · rw [houter j h1, h j hj, hQ, hQ']
    have hLg : (((putUint64 (recSize r) ++ ((r.key.length :: r.key)
          ++ (slotsBytes r.slots ++ putUint64 r.selfEnd))) ++ putUint64 r.next) : Bytes).getD j 0
        = ((putUint64 (recSize r) ++ ((r.key.length :: r.key)
          ++ (slotsBytes r.slots ++ putUint64 r.selfEnd))) : Bytes).getD j 0 :=
      List.getD_append _ _ _ _ (by rw [hQlen]; omega)
    have hRg : (((putUint64 (recSize r) ++ ((r.key.length :: r.key)
          ++ (slotsBytes r.slots ++ putUint64 r.selfEnd))) ++ putUint64 n) : Bytes).getD j 0
        = ((putUint64 (recSize r) ++ ((r.key.length :: r.key)
          ++ (slotsBytes r.slots ++ putUint64 r.selfEnd))) : Bytes).getD j 0 :=
      List.getD_append _ _ _ _ (by rw [hQlen]; omega)
    rw [hLg, hRg]
  · obtain ⟨j', rfl⟩ : ∃ j', j = recSize r - 8 + j' := ⟨j - (recSize r - 8), by omega⟩
    have hj8 : j' < 8 := by
      have := recSize_ge r
      omega
    rw [hlast j' hj8, hQ']
    have e1 : recSize r - 8 + j'
        = ((putUint64 (recSize r) ++ ((r.key.length :: r.key)
          ++ (slotsBytes r.slots ++ putUint64 r.selfEnd))) : Bytes).length + j' := by
      rw [hQlen]
    rw [e1, getD_concat]

theorem get_append_left (A : List Rec) (r : Rec) (j : Nat) (hj : j < A.length)
    (h2 : j < (A ++ [r]).length) : (A ++ [r]).get ⟨j, h2⟩ = A.get ⟨j, hj⟩ := by
  simp only [List.get_eq_getElem]
  exact List.getElem_append_left hj

theorem get_append_last (A : List Rec) (r : Rec) (h2 : A.length < (A ++ [r]).length) :
    (A ++ [r]).get ⟨A.length, h2⟩ = r := by
  simp only [List.get_eq_getElem]
  simp

theorem get_append_last_of_len (A : List Rec) (r : Rec) (n : Nat) (hn : n = A.length)
    (h2 : n < (A ++ [r]).length) : (A ++ [r]).get ⟨n, h2⟩ = r := by
  subst hn
  exact get_append_last A r h2

/-- Appending a fresh-key record preserves the layout invariant, with the
new record (and no tail patch) added to the layout. -/
theorem add_fresh_inv (s : MState) (D : List Rec) (hD : StateD s D) (key : Bytes)
    (values : List Bytes) (hk : ValidKey key) (hk246 : key.length ≤ 246) (hv : ValidVals values)
    (s' : MState) (t : Nat) (h : add s none none key values = .ok (s', none, t))
    (hs' : s'.offset < 2 ^ 64) :
    StateD s' (D ++ [addRec key values s.offset]) := by
  obtain ⟨hdk, hof, hkey⟩ := hD
  obtain ⟨_, ht, hofs, hkm, hmem⟩ := add_ok_spec s none key values hk.1
    (fun v hv2 => (hv v hv2).1) s' none t h
  have hwfn : ∀ x ∈ slotsOf values, SlotWF x := slotsOf_wf values hv
  have hR : RecAt s'.mem s.offset (addRec key values s.offset) := by
    intro j hj
    rw [hmem]
    show writeBytes s.mem s.offset (recBytes (addRec key values s.offset)) (s.offset + j) = _
    rw [writeBytes_at _ _ _ _ (by rw [recBytes_length]; omega)]
    exact getD_mod_256 _ (recBytes_clean _ hk.1 hk.2 hwfn) j
  have hRold : ∀ (i : Nat) (hi : i < D.length),
      RecAt s'.mem (offAt D i) (D.get ⟨i, hi⟩) := by
    intro i hi
    apply RecAt_congr_mem s.mem s'.mem _ _ (hdk.hmem i hi)
    intro j hj
    rw [hmem]
    show writeBytes s.mem s.offset (recBytes (addRec key values s.offset)) _ = _
    apply writeBytes_outside
    left
    have hb := offAt_block_le D i D.length hi hi (le_refl _)
    rw [hof]
    omega
  have hlenE : (D ++ [addRec key values s.offset]).length = D.length + 1 := by simp
  have hofE : ∀ i ≤ D.length, offAt (D ++ [addRec key values s.offset]) i = offAt D i :=
    fun i hi => offAt_append_le D _ i hi
  have hofl : offAt (D ++ [addRec key values s.offset]) (D.length + 1)
      = offAt D D.length + recSize (addRec key values s.offset) := offAt_append_len D _
  have hoffs' : s'.offset = offAt (D ++ [addRec key values s.offset]) (D.length + 1) := by
    rw [hofl, hofs, ht, hof]
  refine ⟨⟨?_, ?_, ?_, ?_⟩, ?_, ?_⟩
  · rw [hlenE, ← hoffs']
    exact hs'
  · intro i hi
    rw [hlenE] at hi
    by_cases he : i = D.length
    · subst he
      rw [get_append_last, hofE D.length (le_refl _), ← hof]
      exact hR
    · have hiD : i < D.length := by omega
      rw [get_append_left D _ i hiD, hofE i (by omega)]
      exact hRold i hiD
  · intro r hr
    rcases List.mem_append.mp hr with hr | hr
    · exact hdk.hwf r hr
    · rw [List.mem_singleton] at hr
      subst hr
      exact ⟨hk246, hk.2, hwfn⟩
  · intro i hi
    rw [hlenE] at hi
    by_cases he : i = D.length
    · subst he
      rw [get_append_last]
      left
      rfl
    · have hiD : i < D.length := by omega
      rw [get_append_left D _ i hiD]
      rcases hdk.hnext i hiD with h0 | ⟨j, hj, hij, hnj⟩
      · exact Or.inl h0
      · right
        refine ⟨j, by rw [hlenE]; omega, hij, ?_⟩
        rw [hofE j (by omega)]
        exact hnj
  · rw [hlenE, ← hoffs']
  · intro k o hko
    rw [hkm] at hko
    simp only [addKeyMap] at hko
    by_cases he : k = key
    · rw [if_pos he] at hko
      have hnew : o = Int.ofNat s.offset → o = notExist ∨
          ∃ i, ∃ hi : i < (D ++ [addRec key values s.offset]).length,
            o = Int.ofNat (offAt (D ++ [addRec key values s.offset]) i) := by
        intro hov
        right
        refine ⟨D.length, by rw [hlenE]; omega, ?_⟩
        rw [hofE D.length (le_refl _), ← hof, hov]
      cases hsk : s.keyMap key with
      | none =>
        rw [hsk] at hko
        injection hko with h1
        exact hnew h1.symm
      | some i0 =>
        rw [hsk] at hko
        simp only [] at hko
        by_cases hsent : i0 = notExist
        · rw [if_pos hsent] at hko
          injection hko with h1
          exact hnew h1.symm
        · rw [if_neg hsent] at hko
          injection hko with h1
          subst h1
          rcases hkey k i0 (he ▸ hsk) with hs | ⟨i, hi, hieq⟩
          · exact Or.inl hs
          · right
            refine ⟨i, by rw [hlenE]; omega, ?_⟩
            rw [hofE i (by omega)]
            exact hieq
    · rw [if_neg he] at hko
      rcases hkey k o hko with hs | ⟨i, hi, hieq⟩
      · exact Or.inl hs
      · right
        refine ⟨i, by rw [hlenE]; omega, ?_⟩
        rw [hofE i (by omega)]
        exact hieq

/-- Appending a record for an existing key — patching the `next` field of
the chain record at index `i` to point at the new record — preserves the
layout invariant. -/
theorem add_link_inv (s : MState) (D : List Rec) (hD : StateD s D) (key : Bytes)
    (values : List Bytes) (i : Nat) (hi : i < D.length) (hk : ValidKey key)
    (hk246 : key.length ≤ 246)
    (hv : ValidVals values) (s' : MState) (t : Nat)
    (h : add s none (some (offAt D i + recSize (D.get ⟨i, hi⟩) - 8)) key values
      = .ok (s', none, t))
    (hs' : s'.offset < 2 ^ 64) :
    StateD s' (D.set i (setNext (D.get ⟨i, hi⟩) s.offset)
      ++ [addRec key values s.offset]) := by
  obtain ⟨hdk, hof, hkey⟩ := hD
  obtain ⟨_, ht, hofs, hkm, hmem⟩ := add_ok_spec s
    (some (offAt D i + recSize (D.get ⟨i, hi⟩) - 8)) key values hk.1
    (fun v hv2 => (hv v hv2).1) s' none t h
  have hwfn : ∀ x ∈ slotsOf values, SlotWF x := slotsOf_wf values hv
  have hrge := recSize_ge (D.get ⟨i, hi⟩)
  have hbound : offAt D i + recSize (D.get ⟨i, hi⟩) ≤ s.offset := by
    rw [hof]
    exact offAt_block_le D i D.length hi hi (le_refl _)
  have hsoff : s.offset < 2 ^ 64 := by
    rw [hofs] at hs'
    omega
  -- the written memory, split into the two writes
  have hmem2 : ∀ a, s'.mem a = writeBytes
      (writeBytes s.mem s.offset (recBytes (addRec key values s.offset)))
      (offAt D i + recSize (D.get ⟨i, hi⟩) - 8) (putUint64 s.offset) a := by
    intro a
    rw [hmem]
    rfl
  have hR : RecAt s'.mem s.offset (addRec key values s.offset) := by
    intro j hj
    rw [hmem2]
    rw [writeBytes_outside _ _ _ _ (by rw [putUint64_length]; omega)]
    rw [writeBytes_at _ _ _ _ (by rw [recBytes_length]; omega)]
    exact getD_mod_256 _ (recBytes_clean _ hk.1 hk.2 hwfn) j
  have hRi : RecAt s'.mem (offAt D i) (setNext (D.get ⟨i, hi⟩) s.offset) := by
    apply RecAt_update_next s.mem s'.mem _ _ _ (hdk.hmem i hi)
    · intro j hj
      rw [hmem2]
      rw [writeBytes_outside _ _ _ _ (by rw [putUint64_length]; omega)]
      rw [writeBytes_outside _ _ _ _ (by left; omega)]
    · intro j hj
      rw [hmem2]
      rw [show offAt D i + (recSize (D.get ⟨i, hi⟩) - 8 + j)
        = offAt D i + recSize (D.get ⟨i, hi⟩) - 8 + j by omega]
      rw [writeBytes_at _ _ _ _ (by rw [putUint64_length]; omega)]
      exact getD_mod_256 _ (putUint64_clean _) j
  have hRold : ∀ (i2 : Nat) (hi2 : i2 < D.length), i2 ≠ i →
      RecAt s'.mem (offAt D i2) (D.get ⟨i2, hi2⟩) := by
    intro i2 hi2 hne
    apply RecAt_congr_mem s.mem s'.mem _ _ (hdk.hmem i2 hi2)
    intro j hj
    have hb2 : offAt D i2 + recSize (D.get ⟨i2, hi2⟩) ≤ s.offset := by
      rw [hof]
      exact offAt_block_le D i2 D.length hi2 hi2 (le_refl _)
    rw [hmem2]
    rw [writeBytes_outside _ _ _ _ ?hp]
    · rw [writeBytes_outside _ _ _ _ (by left; omega)]
    case hp =>
      rw [putUint64_length]
      rcases Nat.lt_or_ge i2 i with hlt | hge
      · left
        have hb := offAt_block_le D i2 i hi2 hlt (by omega)
        omega
      · right
        have hgt : i < i2 := by omega
        have hb := offAt_block_le D i i2 hi hgt (by omega)
        omega
  -- bookkeeping for the new layout
  have hlenS : (D.set i (setNext (D.get ⟨i, hi⟩) s.offset)).length = D.length := by simp
  have hofS : ∀ i2, offAt (D.set i (setNext (D.get ⟨i, hi⟩) s.offset)) i2 = offAt D i2 :=
    offAt_set D i _ hi (recSize_setNext _ _)
  have hlenE : (D.set i (setNext (D.get ⟨i, hi⟩) s.offset)
      ++ [addRec key values s.offset]).length = D.length + 1 := by simp
  have hofE : ∀ i2 ≤ D.length, offAt (D.set i (setNext (D.get ⟨i, hi⟩) s.offset)
      ++ [addRec key values s.offset]) i2 = offAt D i2 := by
    intro i2 hi2
    rw [offAt_append_le _ _ i2 (by rw [hlenS]; omega), hofS i2]
  have hofl : offAt (D.set i (setNext (D.get ⟨i, hi⟩) s.offset)
      ++ [addRec key values s.offset]) (D.length + 1)
      = offAt D D.length + recSize (addRec key values s.offset) := by
    have := offAt_append_len (D.set i (setNext (D.get ⟨i, hi⟩) s.offset))
      (addRec key values s.offset)
    rw [hlenS] at this
    rw [this, hofS]
  have hoffs' : s'.offset = offAt (D.set i (setNext (D.get ⟨i, hi⟩) s.offset)
      ++ [addRec key values s.offset]) (D.length + 1) := by
    rw [hofl, hofs, ht, hof]
  refine ⟨⟨?_, ?_, ?_, ?_⟩, ?_, ?_⟩
  · rw [hlenE, ← hoffs']
    exact hs'
  · intro i2 hi2
    rw [hlenE] at hi2
    by_cases he : i2 = D.length
    · subst he
      have hg : (D.set i (setNext (D.get ⟨i, hi⟩) s.offset)
          ++ [addRec key values s.offset]).get ⟨D.length, by rw [hlenE]; omega⟩
          = addRec key values s.offset :=
        get_append_last_of_len _ _ D.length hlenS.symm _
      rw [hg, hofE D.length (le_refl _), ← hof]
      exact hR
    · have hiD : i2 < D.length := by omega
      have hg : (D.set i (setNext (D.get ⟨i, hi⟩) s.offset)
          ++ [addRec key values s.offset]).get ⟨i2, by rw [hlenE]; omega⟩
          = (D.set i (setNext (D.get ⟨i, hi⟩) s.offset)).get ⟨i2, by rw [hlenS]; omega⟩ :=
        get_append_left _ _ i2 (by rw [hlenS]; omega) _
      rw [hg, hofE i2 (by omega)]
      by_cases hei : i2 = i
      · subst hei
        rw [get_set_self]
        exact hRi
      · rw [get_set_ne D i i2 _ hei _ hiD]
        exact hRold i2 hiD hei
  · intro r hr
    rcases List.mem_append.mp hr with hr | hr
    · rcases List.mem_or_eq_of_mem_set hr with hr2 | rfl
      · exact hdk.hwf r hr2
      · obtain ⟨h1, h2, h3⟩ := hdk.hwf _ (List.get_mem D i hi)
        exact ⟨h1, h2, h3⟩
    · rw [List.mem_singleton] at hr
      subst hr
      exact ⟨hk246, hk.2, hwfn⟩
  · intro i2 hi2
    rw [hlenE] at hi2
    by_cases he : i2 = D.length
    · subst he
      have hg : (D.set i (setNext (D.get ⟨i, hi⟩) s.offset)
          ++ [addRec key values s.offset]).get ⟨D.length, by rw [hlenE]; omega⟩
          = addRec key values s.offset :=
        get_append_last_of_len _ _ D.length hlenS.symm _
      rw [hg]
      left
      rfl
    · have hiD : i2 < D.length := by omega
      have hg : (D.set i (setNext (D.get ⟨i, hi⟩) s.offset)
          ++ [addRec key values s.offset]).get ⟨i2, by rw [hlenE]; omega⟩
          = (D.set i (setNext (D.get ⟨i, hi⟩) s.offset)).get ⟨i2, by rw [hlenS]; omega⟩ :=
        get_append_left _ _ i2 (by rw [hlenS]; omega) _
      rw [hg]
      by_cases hei : i2 = i
      · subst hei
        rw [get_set_self]
        right
        refine ⟨D.length, by rw [hlenE]; omega, by omega, ?_⟩
        rw [hofE D.length (le_refl _), ← hof]
        rfl
      · rw [get_set_ne D i i2 _ hei _ hiD]
        rcases hdk.hnext i2 hiD with h0 | ⟨j, hj, hij, hnj⟩
        · exact Or.inl h0
        · right
          refine ⟨j, by rw [hlenE]; omega, hij, ?_⟩
          rw [hofE j (by omega)]
          exact hnj
  · rw [hlenE, ← hoffs']
  · intro k o hko
    rw [hkm] at hko
    simp only [addKeyMap] at hko
    by_cases he : k = key
    · rw [if_pos he] at hko
      have hnew : o = Int.ofNat s.offset → o = notExist ∨
          ∃ i2, ∃ hi2 : i2 < (D.set i (setNext (D.get ⟨i, hi⟩) s.offset)
            ++ [addRec key values s.offset]).length,
            o = Int.ofNat (offAt (D.set i (setNext (D.get ⟨i, hi⟩) s.offset)
              ++ [addRec key values s.offset]) i2) := by
        intro hov
        right
        refine ⟨D.length, by rw [hlenE]; omega, ?_⟩
        rw [hofE D.length (le_refl _), ← hof, hov]
      cases hsk : s.keyMap key with
      | none =>
        rw [hsk] at hko
        injection hko with h1
        exact hnew h1.symm
      | some i0 =>
        rw [hsk] at hko
        simp only [] at hko
        by_cases hsent : i0 = notExist
        · rw [if_pos hsent] at hko
          injection hko with h1
          exact hnew h1.symm
        · rw [if_neg hsent] at hko
          injection hko with h1
          subst h1
          rcases hkey k i0 (he ▸ hsk) with hs | ⟨i2, hi2, hieq⟩
          · exact Or.inl hs
          · right
            refine ⟨i2, by rw [hlenE]; omega, ?_⟩
            rw [hofE i2 (by omega)]
            exact hieq
    · rw [if_neg he] at hko
      rcases hkey k o hko with hs | ⟨i2, hi2, hieq⟩
      · exact Or.inl hs
      · right
        refine ⟨i2, by rw [hlenE]; omega, ?_⟩
        rw [hofE i2 (by omega)]
        exact hieq

theorem writeBytes_cons_ptw (m : Mem) (o : Nat) (c : Nat) (bs : Bytes) (a : Nat) :
    writeBytes (writeBytes m o [c]) (o + 1) bs a = writeBytes m o (c :: bs) a := by
  simp only [writeBytes, List.length_cons, List.length_singleton, List.length_nil]
  by_cases h1 : o + 1 ≤ a ∧ a < o + 1 + bs.length
  · rw [if_pos h1, if_pos (by omega)]
    have : a - o = (a - (o + 1)) + 1 := by omega
    rw [this, List.getD_cons_succ]
  · rw [if_neg h1]
    by_cases h2 : a = o
    · subst h2
      rw [if_pos (by omega), if_pos (by omega)]
      simp
    · rw [if_neg (by omega), if_neg (by omega)]

/-- Writing one value into a record's first zero run (what the gap-reuse
path of `adds` does, with the payload possibly cut to `n` bytes by the
head-record aliasing bug) preserves the layout invariant: the run
becomes a live slot followed by the leftover tombstones. -/
theorem reuse_inv (s : MState) (D : List Rec) (hD : StateD s D) (jg : Nat)
    (hj : jg < D.length) (st en : Nat)
    (hg : firstGapR (D.get ⟨jg, hj⟩) = some (st, en)) (v : Bytes)
    (hfit : v.length < en - st) (hv255 : v.length ≤ 255) (hvc : CleanBytes v) (n : Nat) :
    ∃ sl', StateD
      { s with
        mem := writeBytes (writeBytes s.mem (offAt D jg + st) [v.length % 256])
            (offAt D jg + st + 1) (v.take n) }
      (D.set jg (setSlots (D.get ⟨jg, hj⟩) sl')) := by
  obtain ⟨hdk, hof, hkey⟩ := hD
  obtain ⟨A, g, B, hsl, hg1, hst, hen, hbnd⟩ := firstGapR_split (D.get ⟨jg, hj⟩) st en hg
  have hwfr := hdk.hwf _ (List.get_mem D jg hj)
  have htlen : (v.take n).length = min v.length n := by
    rw [List.length_take]
    omega
  have htle : (v.take n).length ≤ v.length := by
    rw [htlen]
    omega
  have hgg : v.length < g := by omega
  set w := v.take n ++ List.replicate (v.length - n) 0 with hw
  have hwlen : w.length = v.length := by
    rw [hw]
    simp only [List.length_append, List.length_take, List.length_replicate]
    omega
  have hwc : CleanBytes w := by
    intro x hx
    rw [hw] at hx
    rcases List.mem_append.mp hx with hx | hx
    · exact hvc x (List.mem_of_mem_take hx)
    · rw [List.eq_of_mem_replicate hx]
      omega
  refine ⟨A ++ (slotOf w :: List.replicate (g - 1 - v.length) Slot.tomb) ++ B, ?_⟩
  -- byte image of the rewritten run
  have hmid : slotsBytes (slotOf w :: List.replicate (g - 1 - v.length) Slot.tomb)
      = (v.length :: v.take n) ++ List.replicate (g - 1 - (v.take n).length) 0 := by
    rw [slotsBytes_cons, slotBytes_slotOf, slotsBytes_replicate_tomb, hwlen, hw]
    show v.length :: ((v.take n ++ List.replicate (v.length - n) 0)
      ++ List.replicate (g - 1 - v.length) 0) = _
    rw [List.append_assoc, ← List.replicate_add]
    show (v.length :: v.take n) ++ List.replicate (v.length - n + (g - 1 - v.length)) 0 = _
    rw [htlen, show v.length - n + (g - 1 - v.length) = g - 1 - min v.length n by omega]
  have hmlen : (slotsBytes (slotOf w :: List.replicate (g - 1 - v.length) Slot.tomb)).length
      = g := by
    rw [hmid]
    simp only [List.length_append, List.length_cons, List.length_take, List.length_replicate]
    omega
  have hrun : slotsBytes (List.replicate g Slot.tomb) = List.replicate g 0 :=
    slotsBytes_replicate_tomb g
  have hruns : slotsBytes (D.get ⟨jg, hj⟩).slots
      = slotsBytes A ++ (List.replicate g 0 ++ slotsBytes B) := by
    rw [hsl, slotsBytes_append, slotsBytes_append, hrun, List.append_assoc]
  have hnew : slotsBytes (A ++ (slotOf w :: List.replicate (g - 1 - v.length) Slot.tomb) ++ B)
      = slotsBytes A ++ (((v.length :: v.take n)
        ++ List.replicate (g - 1 - (v.take n).length) 0) ++ slotsBytes B) := by
    rw [slotsBytes_append, slotsBytes_append, hmid, List.append_assoc]
  have hlen2 : (slotsBytes (A ++ (slotOf w :: List.replicate (g - 1 - v.length) Slot.tomb)
      ++ B)).length = (slotsBytes (D.get ⟨jg, hj⟩).slots).length := by
    rw [hnew, hruns]
    simp only [List.length_append, List.length_cons, List.length_replicate, List.length_take]
    omega
  have hwind : st + 1 + (v.take n).length ≤ en := by
    rw [htlen]
    omega
  have hwfs : ∀ x ∈ A ++ (slotOf w :: List.replicate (g - 1 - v.length) Slot.tomb) ++ B,
      SlotWF x := by
    intro x hx
    rcases List.mem_append.mp hx with hx | hx
    · rcases List.mem_append.mp hx with hx | hx
      · exact hwfr.2.2 x (by rw [hsl]; exact List.mem_append.mpr (Or.inl
          (List.mem_append.mpr (Or.inl hx))))
      · rcases List.mem_cons.mp hx with rfl | hx
        · by_cases h0 : w.length = 0
          · rw [List.length_eq_zero] at h0
            rw [slotOf, h0]
            simp [SlotWF]
          · rw [slotOf, if_neg h0]
            exact ⟨by omega, by rw [hwlen]; exact hv255, hwc⟩
        · rw [List.eq_of_mem_replicate hx]
          trivial
    · exact hwfr.2.2 x (by rw [hsl]; exact List.mem_append.mpr (Or.inr hx))
  -- the write, folded into a single span
  set m2 := writeBytes (writeBytes s.mem (offAt D jg + st) [v.length % 256])
    (offAt D jg + st + 1) (v.take n) with hm2
  have hm2p : ∀ a, m2 a = writeBytes s.mem (offAt D jg + st)
      ((v.length % 256) :: v.take n) a := fun a => writeBytes_cons_ptw _ _ _ _ a
  have hmod : v.length % 256 = v.length := Nat.mod_eq_of_lt (by omega)
  have harea_old := RecAt_area s.mem (offAt D jg) _ (hdk.hmem jg hj)
  have hR : RecAt m2 (offAt D jg)
      (setSlots (D.get ⟨jg, hj⟩)
        (A ++ (slotOf w :: List.replicate (g - 1 - v.length) Slot.tomb) ++ B)) := by
    apply RecAt_update_slots s.mem m2 _ _ _ (hdk.hmem jg hj) hlen2
    · intro j hjj hside
      rw [hm2p]
      apply writeBytes_outside
      simp only [List.length_cons]
      have hb16 : recSize (D.get ⟨jg, hj⟩) - 16
          = (D.get ⟨jg, hj⟩).key.length + 9 + (slotsBytes (D.get ⟨jg, hj⟩).slots).length := by
        simp only [recSize]
        omega
      rcases hside with h1 | h1
      · left
        omega
      · right
        omega
    · intro jj hjj
      rw [hlen2] at hjj
      rw [hm2p]
      have hsplitA : (slotsBytes A).length + g + (slotsBytes B).length
          = (slotsBytes (D.get ⟨jg, hj⟩).slots).length := by
        rw [hruns]
        simp only [List.length_append, List.length_replicate]
        omega
      by_cases h1 : jj < (slotsBytes A).length
      · -- before the run: untouched, same bytes
        rw [writeBytes_outside _ _ _ _ (by left; omega)]
        rw [harea_old jj (by omega), hruns, hnew]
        rw [List.getD_append _ _ _ _ h1, List.getD_append _ _ _ _ h1]
      · by_cases h2 : jj < (slotsBytes A).length + 1 + (v.take n).length
        · -- inside the written span
          obtain ⟨k, rfl⟩ : ∃ k, jj = (slotsBytes A).length + k :=
            ⟨jj - (slotsBytes A).length, by omega⟩
          have hpos : offAt D jg + ((D.get ⟨jg, hj⟩).key.length + 9
              + ((slotsBytes A).length + k)) = offAt D jg + st + k := by
            omega
          rw [hpos, writeBytes_at _ _ _ _ (by simp only [List.length_cons]; omega)]
          rw [hnew, getD_concat]
          have hk1 : k < (((v.length :: v.take n) ++ List.replicate
              (g - 1 - (v.take n).length) 0) : Bytes).length := by
            simp only [List.length_append, List.length_cons, List.length_replicate]
            omega
          rw [List.getD_append _ _ _ _ hk1]
          have hk2 : k < ((v.length :: v.take n) : Bytes).length := by
            simp only [List.length_cons]
            omega
          rw [List.getD_append _ _ _ _ hk2]
          have hclean : CleanBytes ((v.length % 256) :: v.take n) := by
            intro x hx
            rcases List.mem_cons.mp hx with rfl | hx
            · omega
            · exact hvc x (List.mem_of_mem_take hx)
          rw [getD_mod_256 _ hclean k]
          rw [show ((v.length % 256 :: v.take n) : Bytes) = v.length :: v.take n by
            rw [hmod]]
        · -- after the written span: untouched zeros or the B suffix
          rw [writeBytes_outside _ _ _ _ (by right; simp only [List.length_cons]; omega)]
          rw [harea_old jj (by omega), hruns, hnew]
          obtain ⟨k, rfl⟩ : ∃ k, jj = (slotsBytes A).length + k :=
            ⟨jj - (slotsBytes A).length, by omega⟩
          rw [getD_concat, getD_concat]
          by_cases h3 : k < g
          · -- leftover zero bytes of the run
            have hzl : (List.replicate g 0 ++ slotsBytes B).getD k 0 = 0 := by
              rw [List.getD_append _ _ _ _ (by simpa using h3)]
              exact getD_replicate_zero g k h3
            have hzr : (((v.length :: v.take n) ++ List.replicate
                (g - 1 - (v.take n).length) 0) ++ slotsBytes B).getD k 0 = 0 := by
              rw [List.getD_append _ _ _ _ (by
                simp only [List.length_append, List.length_cons, List.length_replicate]
                omega)]
              rw [show k = ((v.length :: v.take n) : Bytes).length
                + (k - 1 - (v.take n).length) by simp only [List.length_cons]; omega]
              rw [getD_concat]
              exact getD_replicate_zero _ _ (by simp only [List.length_cons] at *; omega)
            rw [hzl, hzr]
          · -- the untouched suffix after the run
            obtain ⟨q, rfl⟩ : ∃ q, k = g + q := ⟨k - g, by omega⟩
            have hql : (List.replicate g 0 ++ slotsBytes B).getD (g + q) 0
                = (slotsBytes B).getD q 0 := by
              rw [show g + q = (List.replicate g (0 : Nat)).length + q by simp, getD_concat]
            have hqr : (((v.length :: v.take n) ++ List.replicate
                (g - 1 - (v.take n).length) 0) ++ slotsBytes B).getD (g + q) 0
                = (slotsBytes B).getD q 0 := by
              rw [show g + q = (((v.length :: v.take n) ++ List.replicate
                (g - 1 - (v.take n).length) 0) : Bytes).length + q by
                  simp only [List.length_append, List.length_cons, List.length_replicate]
                  omega]
              rw [getD_concat]
            rw [hql, hqr]
  have hout : ∀ a, (a < offAt D jg + ((D.get ⟨jg, hj⟩).key.length + 9)
      ∨ offAt D jg + (recSize (D.get ⟨jg, hj⟩) - 16) ≤ a) → m2 a = s.mem a := by
    intro a ha
    rw [hm2p]
    apply writeBytes_outside
    simp only [List.length_cons]
    have hb16 : recSize (D.get ⟨jg, hj⟩) - 16
        = (D.get ⟨jg, hj⟩).key.length + 9 + (slotsBytes (D.get ⟨jg, hj⟩).slots).length := by
      simp only [recSize]
      omega
    have hsplitA : (slotsBytes A).length + g + (slotsBytes B).length
        = (slotsBytes (D.get ⟨jg, hj⟩).slots).length := by
      rw [hruns]
      simp only [List.length_append, List.length_replicate]
      omega
    rcases ha with h1 | h1
    · left
      omega
    · right
      omega
  have hdk' := DiskD_set_slots s.mem m2 D hdk jg hj _ hlen2 hwfs hR hout
  have hshape := SameShape_set_slots D jg hj _ hlen2
  have hoffeq := SameShape_offAt _ _ hshape
  refine ⟨hdk', ?_, ?_⟩
  · show s.offset = _
    rw [hoffeq, hof]
    congr 1
    simp
  · intro k o hko
    rcases hkey k o hko with hs | ⟨i2, hi2, hieq⟩
    · exact Or.inl hs
    · right
      refine ⟨i2, by simpa using hi2, ?_⟩
      rw [hoffeq i2]
      exact hieq

/-- With a failing i/o oracle, `add` never reports success. -/
theorem add_some_io_not_none (s : MState) (nw : Nat) (b8loc : Option Nat) (key : Bytes)
    (values : List Bytes) (s' : MState) (t : Nat)
    (h : add s (some nw) b8loc key values = .ok (s', none, t)) : False := by
  simp only [add] at h
  generalize addLoop (listCopy ((List.replicate 1024 0).set 8 (key.length % 256)) 9 key)
      (min key.length (((List.replicate 1024 0).set 8 (key.length % 256)).length - 9) + 1 + 8)
      values = r at h
  match r with
  | .error er =>
    injection h with h1
    injection h1 with h2 h3
    injection h3 with h4
    exact Option.noConfusion h4
  | .ok (b, idx) =>
    simp only [] at h
    split at h
    · cases h
    · split at h
      · cases h
      · injection h with h1
        injection h1 with h2 h3
        injection h3 with h4
        exact Option.noConfusion h4

/-- Every successful `adds` call preserves the layout invariant. -/
theorem adds_inv (s : MState) (D : List Rec) (hD : StateD s D) (io : Option Nat)
    (key : Bytes) (values : List Bytes) (hk : ValidKey key) (hk246 : key.length ≤ 246)
    (hv : ValidVals values)
    (s' : MState) (e : Option AddErr) (h : adds s io key values = .ok (s', e))
    (hs' : s'.offset < 2 ^ 64) : ∃ D', StateD s' D' := by
  have hAdd : ∀ (b8loc : Option Nat), (b8loc = none ∨ ∃ i, ∃ hi : i < D.length,
      b8loc = some (offAt D i + recSize (D.get ⟨i, hi⟩) - 8)) →
      ∀ trip, add s io b8loc key values = .ok trip → trip.1 = s' → trip.2.1 = e →
      ∃ D', StateD s' D' := by
    intro b8loc hb8 trip hadd h2 h3
    cases he : trip.2.1 with
    | some er =>
      cases er with
      | tooLarge =>
        obtain ⟨hs, _⟩ := add_tooLarge_spec s io b8loc key values trip.1 trip.2.2
          (by rw [hadd, ← he])
        rw [← h2, hs]
        exact ⟨D, hD⟩
      | ioFail =>
        obtain ⟨h1, hkm2, hmm⟩ := add_ioFail_spec s io b8loc key values trip.1 trip.2.2
          (by rw [hadd, ← he])
        refine ⟨D, ?_⟩
        rw [← h2]
        exact StateD_congr s trip.1 D hD h1 hkm2 hmm
    | none =>
      cases io with
      | some nw =>
        exact (add_some_io_not_none s nw b8loc key values trip.1 trip.2.2
          (by rw [hadd, ← he])).elim
      | none =>
        rcases hb8 with rfl | ⟨i, hi, rfl⟩
        · refine ⟨D ++ [addRec key values s.offset], ?_⟩
          rw [← h2]
          exact add_fresh_inv s D hD key values hk hk246 hv trip.1 trip.2.2
            (by rw [hadd, ← he]) (by rw [h2]; exact hs')
        · refine ⟨D.set i (setNext (D.get ⟨i, hi⟩) s.offset) ++ [addRec key values s.offset], ?_⟩
          rw [← h2]
          exact add_link_inv s D hD key values i hi hk hk246 hv trip.1 trip.2.2
            (by rw [hadd, ← he]) (by rw [h2]; exact hs')
  cases values with
  | nil =>
    simp only [adds, if_pos rfl] at h
    injection h with h1
    injection h1 with h2 h3
    rw [← h2]
    exact ⟨D, hD⟩
  | cons v vs =>
    have hv0 : (v :: vs : List Bytes) ≠ [] := by simp
    cases hkm : s.keyMap key with
    | none =>
      simp only [adds, if_neg hv0, hkm] at h
      cases hadd : add s io none key (v :: vs) with
      | error u =>
        rw [hadd, res_bind_err] at h
        exact (Except.noConfusion h)
      | ok trip =>
        rw [hadd, res_bind_ok] at h
        injection h with h1
        injection h1 with h2 h3
        exact hAdd none (Or.inl rfl) trip hadd h2 h3
    | some offInt =>
      by_cases hsent : offInt = notExist
      · simp only [adds, if_neg hv0, hkm, if_pos hsent] at h
        cases hadd : add s io none key (v :: vs) with
        | error u =>
          rw [hadd, res_bind_err] at h
          exact (Except.noConfusion h)
        | ok trip =>
          rw [hadd, res_bind_ok] at h
          injection h with h1
          injection h1 with h2 h3
          exact hAdd none (Or.inl rfl) trip hadd h2 h3
      · -- a real head offset: it is some record's offset
        obtain ⟨i0, hi0, hoi⟩ : ∃ i0, ∃ hi0 : i0 < D.length,
            offInt = Int.ofNat (offAt D i0) := by
          rcases hD.2.2 key offInt hkm with hs | hex
          · exact absurd hs hsent
          · exact hex
        have htoNat : offInt.toNat = offAt D i0 := by
          rw [hoi, Int.ofNat_eq_natCast, Int.toNat_ofNat]
        obtain ⟨l, hl⟩ := chain_exists D hD.1.hnext D.length i0 hi0 (by omega)
        have hfuel : l.length ≤ s.offset + 1 := by
          have h1 := ChainIdx.length_le D i0 l hl
          have h2 := length_le_offAt D
          rw [hD.2.1]
          omega
        have happend : ∀ (start : Nat), (hstart : start = offAt D i0) →
            (do
              let lb ← getB8Loop s (s.offset + 1) start
              let r ← add s io lb key (v :: vs)
              (Except.ok (r.1, r.2.1) : Res (MState × Option AddErr))) = .ok (s', e) →
            ∃ D', StateD s' D' := by
          intro start hstart hh
          subst hstart
          obtain ⟨jt, hjt, _, _, hB⟩ := getB8Loop_chain s D hD.1 hD.2.1 l i0 hl
            (s.offset + 1) hfuel
          rw [hB, res_bind_ok] at hh
          cases hadd : add s io (some (offAt D jt + recSize (D.get ⟨jt, hjt⟩) - 8))
              key (v :: vs) with
          | error u =>
            rw [hadd, res_bind_err] at hh
            exact (Except.noConfusion hh)
          | ok trip =>
            rw [hadd, res_bind_ok] at hh
            injection hh with h1
            injection h1 with h2 h3
            exact hAdd _ (Or.inr ⟨jt, hjt, rfl⟩) trip hadd h2 h3
        cases vs with
        | cons w ws =>
          simp only [adds, if_neg hv0, hkm, if_neg hsent] at h
          rw [res_bind_pure] at h
          exact happend _ htoNat h
        | nil =>
          simp only [adds, if_neg hv0, hkm, if_neg hsent] at h
          rw [htoNat] at h
          rcases emptyLoop_chain s.mem D hD.1 l i0 hl (s.offset + 1) hfuel with
            ⟨l1, jg, l2, hle, _, hjg, st, en, hg, hrun⟩ | ⟨_, jt, hjt, hrun⟩
          · rw [hrun, res_bind_ok] at h
            by_cases hfit : v.length < en - st
            · rw [if_pos ⟨rfl, hfit⟩] at h
              have hTot : bigUint64 (readBytes s.mem (offAt D i0) 8)
                  = recSize (D.get ⟨i0, hi0⟩) :=
                RecAt_total s.mem _ _ (hD.1.hmem i0 hi0) (hD.1.rec_small s.mem D i0 hi0)
              rw [hTot] at h
              by_cases hst : st < recSize (D.get ⟨i0, hi0⟩)
              · rw [if_pos hst, res_bind_pure] at h
                injection h with h1
                injection h1 with h2 h3
                obtain ⟨sl', hst'⟩ := reuse_inv s D hD jg hjg st en hg v hfit
                  (hv v (by simp)).1 (hv v (by simp)).2
                  (recSize (D.get ⟨i0, hi0⟩) - st - 1)
                refine ⟨D.set jg (setSlots (D.get ⟨jg, hjg⟩) sl'), ?_⟩
                rw [← h2]
                exact hst'
              · rw [if_neg hst, res_bind_err] at h
                exact (Except.noConfusion h)
            · rw [if_neg (by intro hx; exact hfit hx.2), res_bind_pure] at h
              exact happend _ rfl h
          · rw [hrun, res_bind_ok] at h
            rw [if_neg (by intro hx; exact (Bool.false_ne_true hx.1)), res_bind_pure] at h
            exact happend _ rfl h

/-- A record-list description surviving a `SameShape` rewrite still
describes the state (offset and index unchanged). -/
theorem StateD_of_shape (s : MState) (m' : Mem) (D D' : List Rec)
    (hD : StateD s D) (hd' : DiskD m' D') (hshape : SameShape D D') :
    StateD { s with mem := m' } D' := by
  obtain ⟨_, hof, hkey⟩ := hD
  have hoffeq := SameShape_offAt D D' hshape
  refine ⟨hd', ?_, ?_⟩
  · show s.offset = offAt D' D'.length
    rw [hoffeq D'.length, hshape.1, hof]
  · intro k o hko
    rcases hkey k o hko with hs | ⟨i, hi, hieq⟩
    · exact Or.inl hs
    · right
      refine ⟨i, by rw [hshape.1]; omega, ?_⟩
      rw [hoffeq i]
      exact hieq

/-- Every successful `dels` call preserves the layout invariant. -/
theorem dels_inv (s : MState) (D : List Rec) (hD : StateD s D) (key : Bytes)
    (values : List Bytes) (s' : MState) (h : dels s key values = .ok s') :
    ∃ D', StateD s' D' := by
  cases hkm : s.keyMap key with
  | none =>
    simp only [dels, hkm] at h
    injection h with h1
    rw [← h1]
    exact ⟨D, hD⟩
  | some offset =>
    simp only [dels, hkm] at h
    split at h
    · injection h with h1
      rw [← h1]
      exact ⟨D, hD⟩
    · by_cases hsent : offset = notExist
      · subst hsent
        have hfault : delsLoop values (s.offset + 1) s.mem notExist = .error () := by
          show (del s.mem notExist values >>= fun p =>
            (match p with
             | (m', d) => if d = 0 then (Except.ok m' : Res Mem)
               else delsLoop values s.offset m' (Int.ofNat d))) = _
          rw [show del s.mem notExist values = .error () from rfl, res_bind_err]
        rw [hfault, res_bind_err] at h
        exact (Except.noConfusion h)
      · obtain ⟨i0, hi0, hoi⟩ : ∃ i0, ∃ hi0 : i0 < D.length,
            offset = Int.ofNat (offAt D i0) := by
          rcases hD.2.2 key offset hkm with hs | hex
          · exact absurd hs hsent
          · exact hex
        obtain ⟨l, hl⟩ := chain_exists D hD.1.hnext D.length i0 hi0 (by omega)
        have hfuel : l.length ≤ s.offset + 1 := by
          have h1 := ChainIdx.length_le D i0 l hl
          have h2 := length_le_offAt D
          rw [hD.2.1]
          omega
        obtain ⟨m', D', hrun, hd', hshape⟩ := delsLoop_chain values l D s.mem hD.1 i0 hl
          (s.offset + 1) hfuel
        rw [hoi, hrun, res_bind_ok] at h
        injection h with h1
        rw [← h1]
        exact ⟨D', StateD_of_shape s m' D D' hD hd' hshape⟩

/-- Every successful `delsPrefix` call preserves the layout invariant. -/
theorem delsPrefix_inv (s : MState) (D : List Rec) (hD : StateD s D) (key : Bytes)
    (values : List Bytes) (s' : MState) (h : delsPrefix s key values = .ok s') :
    ∃ D', StateD s' D' := by
  cases hkm : s.keyMap key with
  | none =>
    simp only [delsPrefix, hkm] at h
    injection h with h1
    rw [← h1]
    exact ⟨D, hD⟩
  | some offset =>
    simp only [delsPrefix, hkm] at h
    split at h
    · injection h with h1
      rw [← h1]
      exact ⟨D, hD⟩
    · by_cases hsent : offset = notExist
      · subst hsent
        have hfault : delsPrefixLoop values (s.offset + 1) s.mem notExist = .error () := by
          show (delPrefix s.mem notExist values >>= fun p =>
            (match p with
             | (m', d) => if d = 0 then (Except.ok m' : Res Mem)
               else delsPrefixLoop values s.offset m' (Int.ofNat d))) = _
          rw [show delPrefix s.mem notExist values = .error () from rfl, res_bind_err]
        rw [hfault, res_bind_err] at h
        exact (Except.noConfusion h)
      · obtain ⟨i0, hi0, hoi⟩ : ∃ i0, ∃ hi0 : i0 < D.length,
            offset = Int.ofNat (offAt D i0) := by
          rcases hD.2.2 key offset hkm with hs | hex
          · exact absurd hs hsent
          · exact hex
        obtain ⟨l, hl⟩ := chain_exists D hD.1.hnext D.length i0 hi0 (by omega)
        have hfuel : l.length ≤ s.offset + 1 := by
          have h1 := ChainIdx.length_le D i0 l hl
          have h2 := length_le_offAt D
          rw [hD.2.1]
          omega
        obtain ⟨m', D', hrun, hd', hshape⟩ := delsPrefixLoop_chain values l D s.mem hD.1 i0 hl
          (s.offset + 1) hfuel
        rw [hoi, hrun, res_bind_ok] at h
        injection h with h1
        rw [← h1]
        exact ⟨D', StateD_of_shape s m' D D' hD hd' hshape⟩

/-- `Exist` preserves the layout invariant: it touches no memory and
writes only the sentinel into the index. -/
theorem Exist_inv (s : MState) (D : List Rec) (hD : StateD s D) (key : Bytes) :
    StateD (Exist s key).1 D := by
  obtain ⟨hdk, hof, hkey⟩ := hD
  have hsent : StateD
      { s with keyMap := fun k => if k = key then some notExist else s.keyMap k } D := by
    refine ⟨hdk, hof, ?_⟩
    intro k o hko
    have hko2 : (if k = key then some notExist else s.keyMap k) = some o := hko
    by_cases he : k = key
    · rw [if_pos he] at hko2
      injection hko2 with h1
      exact Or.inl h1.symm
    · rw [if_neg he] at hko2
      exact hkey k o hko2
  cases hkm : s.keyMap key with
  | some o =>
    by_cases hs2 : o ≠ notExist
    · simp only [Exist, hkm, if_pos hs2]
      exact ⟨hdk, hof, hkey⟩
    · simp only [Exist, hkm, if_neg hs2]
      exact hsent
  | none =>
    simp only [Exist, hkm]
    exact hsent

/-- One public engine operation that returned normally (a panic kills the
process, so it has no successor state).  `Add`/`Update` carry the i/o
oracle; the `2^64` bound on the resulting offset reflects the 64-bit
offset arithmetic (and the mapping bound) of the platform. -/
inductive Step : MState → MState → Prop
  | add (key : Bytes) (values : List Bytes) (io : Option Nat) (s s' : MState)
      (e : Option AddErr) :
      ValidKey key → ValidVals values → s'.offset < 2 ^ 64 →
      adds s io key values = .ok (s', e) → Step s s'
  | del (key : Bytes) (values : List Bytes) (s s' : MState) :
      dels s key values = .ok s' → Step s s'
  | delByPre (key : Bytes) (values : List Bytes) (s s' : MState) :
      delsPrefix s key values = .ok s' → Step s s'
  | update (key : Bytes) (values : List Bytes) (io : Option Nat) (s s' : MState)
      (e : Option AddErr) :
      ValidKey key → ValidVals values → s'.offset < 2 ^ 64 →
      Update s io key values = .ok (s', e) → Step s s'
  | exist (key : Bytes) (s : MState) :
      ValidKey key → Step s (Exist s key).1
  | get (key : Bytes) (s : MState) : Step s s

/-- Claim C10: once the index maps a key to a real (non-sentinel) offset,
no operation ever changes that key's index entry: `add` installs a head
offset only for keys that are absent or mapped to the sentinel, deletes
never touch the index, and `Exist` writes the sentinel only for keys
without a real entry. -/
theorem C10_real_index_entries_immutable (s s' : MState) (k : Bytes) (o : Int)
    (hstep : Step s s') (hk : s.keyMap k = some o) (ho : o ≠ notExist) :
    s'.keyMap k = some o := by
  induction hstep with
  | add key values io s s' e _ _ _ h =>
    rcases adds_keyMap_spec s io key values s' e h with h1 | h1
    · rw [h1, hk]
    · rw [h1]
      exact addKeyMap_preserves_real s key k o hk ho
  | del key values s s' h =>
    rw [dels_keyMap s key values s' h, hk]
  | delByPre key values s s' h =>
    rw [delsPrefix_keyMap s key values s' h, hk]
  | update key values io s s' e _ _ _ h =>
    simp only [Update] at h
    cases hg : gets s key with
    | error u =>
      rw [hg, res_bind_err] at h
      exact (Except.noConfusion h)
    | ok old =>
      rw [hg, res_bind_ok] at h
      cases hd : dels s key old with
      | error u =>
        rw [hd, res_bind_err] at h
        exact (Except.noConfusion h)
      | ok s1 =>
        rw [hd, res_bind_ok] at h
        have hk1 : s1.keyMap k = some o := by
          rw [dels_keyMap s key old s1 hd, hk]
        rcases adds_keyMap_spec s1 io key values s' e h with h1 | h1
        · rw [h1, hk1]
        · rw [h1]
          exact addKeyMap_preserves_real s1 key k o hk1 ho
  | exist key s _ =>
    exact Exist_keyMap_preserves_real s key k o hk ho
  | get key s =>
    exact hk

/-- Witness for C10: after the C1 witness `Add`, the key "u" has the real
offset 0; a subsequent `Exist` on another key leaves that entry intact. -/
theorem C10_real_index_entries_immutable_witness :
    (Exist c1State [99]).1.keyMap [117] = some (Int.ofNat 0) :=
  C10_real_index_entries_immutable c1State (Exist c1State [99]).1 [117] (Int.ofNat 0)
    (Step.exist [99] c1State (by constructor <;> decide)) (by rfl) (by decide)


/-! ### Claim C9: the chain invariant of reachable states -/

/-- States reachable from a fresh engine by any sequence of public
operations. -/
def Reach (s : MState) : Prop := Relation.ReflTransGen Step initState s

theorem initState_inv : StateD initState [] := by
  refine ⟨⟨?_, ?_, ?_, ?_⟩, ?_, ?_⟩
  · show offAt [] 0 < 2 ^ 64
    rw [offAt_nil]
    exact Nat.pos_pow_of_pos _ (by norm_num)
  · intro i hi
    simp at hi
  · intro r hr
    simp at hr
  · intro i hi
    simp at hi
  · rfl
  · intro k o hko
    exact Option.noConfusion hko

/-- A key below the scan-start wrap threshold (length at most 246). -/
def SafeKey (k : Bytes) : Prop := k.length ≤ 246 ∧ CleanBytes k

/-- The operation relation restricted to wrap-safe keys: like `Step`, but
every key handed to `Add` or `Update` has length at most 246, so no
record the scans walk ever triggers the modulo-256 wrap of the scan
start index `(klen + 9) % 256`. -/
inductive StepSafe : MState → MState → Prop
  | add (key : Bytes) (values : List Bytes) (io : Option Nat) (s s' : MState)
      (e : Option AddErr) :
      SafeKey key → ValidVals values → s'.offset < 2 ^ 64 →
      adds s io key values = .ok (s', e) → StepSafe s s'
  | del (key : Bytes) (values : List Bytes) (s s' : MState) :
      dels s key values = .ok s' → StepSafe s s'
  | delByPre (key : Bytes) (values : List Bytes) (s s' : MState) :
      delsPrefix s key values = .ok s' → StepSafe s s'
  | update (key : Bytes) (values : List Bytes) (io : Option Nat) (s s' : MState)
      (e : Option AddErr) :
      SafeKey key → ValidVals values → s'.offset < 2 ^ 64 →
      Update s io key values = .ok (s', e) → StepSafe s s'
  | exist (key : Bytes) (s : MState) :
      ValidKey key → StepSafe s (Exist s key).1
  | get (key : Bytes) (s : MState) : StepSafe s s

/-- States reachable using only wrap-safe keys. -/
def ReachSafe (s : MState) : Prop := Relation.ReflTransGen StepSafe initState s

/-- Every wrap-safe operation step preserves the layout invariant. -/
theorem stepSafe_inv (s s' : MState) (hstep : StepSafe s s') (D : List Rec) (hD : StateD s D) :
    ∃ D', StateD s' D' := by
  cases hstep with
  | add key values io s s' e hk hv hs' h =>
    exact adds_inv s D hD io key values ⟨hk.1.trans (by norm_num), hk.2⟩ hk.1 hv s' e h hs'
  | del key values s s' h =>
    exact dels_inv s D hD key values s' h
  | delByPre key values s s' h =>
    exact delsPrefix_inv s D hD key values s' h
  | update key values io s s' e hk hv hs' h =>
    simp only [Update] at h
    cases hg : gets s key with
    | error u =>
      rw [hg, res_bind_err] at h
      exact (Except.noConfusion h)
    | ok old =>
      rw [hg, res_bind_ok] at h
      cases hd : dels s key old with
      | error u =>
        rw [hd, res_bind_err] at h
        exact (Except.noConfusion h)
      | ok s1 =>
        rw [hd, res_bind_ok] at h
        obtain ⟨D1, hD1⟩ := dels_inv s D hD key old s1 hd
        exact adds_inv s1 D1 hD1 io key values ⟨hk.1.trans (by norm_num), hk.2⟩ hk.1 hv s' e h hs'
  | exist key s hk =>
    exact ⟨D, Exist_inv s D hD key⟩
  | get key s =>
    exact ⟨D, hD⟩

/-- Every wrap-safely reachable state satisfies the layout invariant. -/
theorem reachSafe_inv (s : MState) (h : ReachSafe s) : ∃ D, StateD s D := by
  induction h with
  | refl => exact ⟨[], initState_inv⟩
  | tail hab hbc ih =>
    obtain ⟨D, hD⟩ := ih
    exact stepSafe_inv _ _ hbc D hD

/-- A well-formed record chain in memory, below `bound`: from each record
the `next` field is either 0 (the single tail) or points strictly
forward to another well-formed record.  The strictly increasing offsets
of the derivation make every chain finite, acyclic and single-tailed. -/
inductive ChainOK (m : Mem) (bound : Nat) : Nat → Prop
  | tail (o : Nat) (hsz : 25 ≤ recTotal m o) (hb : o + recTotal m o ≤ bound)
      (h0 : recNext m o = 0) : ChainOK m bound o
  | link (o : Nat) (hsz : 25 ≤ recTotal m o) (hb : o + recTotal m o ≤ bound)
      (hmono : o < recNext m o) (hnext : ChainOK m bound (recNext m o)) : ChainOK m bound o

/-- Under the layout invariant, the chain from every record offset is
well formed. -/
theorem StateD_chainOK (s : MState) (D : List Rec) (hD : StateD s D) :
    ∀ (n i : Nat) (hi : i < D.length), D.length - i ≤ n →
      ChainOK s.mem s.offset (offAt D i) := by
  intro n
  induction n with
  | zero =>
    intro i hi hn
    omega
  | succ n ih =>
    intro i hi hn
    have htot : recTotal s.mem (offAt D i) = recSize (D.get ⟨i, hi⟩) :=
      hD.1.recTotal_eq s.mem D i hi
    have hnxt : recNext s.mem (offAt D i) = (D.get ⟨i, hi⟩).next :=
      hD.1.recNext_eq s.mem D i hi
    have hb : offAt D i + recSize (D.get ⟨i, hi⟩) ≤ s.offset := by
      rw [hD.2.1]
      exact offAt_block_le D i D.length hi hi (le_refl _)
    rcases hD.1.hnext i hi with h0 | ⟨j, hj, hij, hnj⟩
    · exact ChainOK.tail _ (by rw [htot]; exact recSize_ge _) (by rw [htot]; exact hb)
        (by rw [hnxt, h0])
    · refine ChainOK.link _ (by rw [htot]; exact recSize_ge _) (by rw [htot]; exact hb)
        ?_ ?_
      · rw [hnxt, hnj]
        exact offAt_lt_of_lt D i j hi hij (by omega)
      · rw [hnxt, hnj]
        exact ih j hj (by omega)

/-- Both `ChainOK` constructors carry the extent bound, so it holds of
every well-formed chain head. -/
theorem ChainOK_bound (m : Mem) (bound o : Nat) (h : ChainOK m bound o) :
    o + recTotal m o ≤ bound := by
  cases h with
  | tail o hsz hb h0 => exact hb
  | link o hsz hb hmono hnext => exact hb

set_option maxHeartbeats 8000000 in
/-- Counterexample to C9 as stated: the state `sLong2` is reachable by
two `Add` operations with data-model-valid arguments (a 247-byte key),
its index maps `kLong` to the real offset 0, yet the record at 0 has no
well-formed chain: the second `Add`'s wrapped gap scan overwrote the
high bytes of the record's `total` field, so the stored `total` is now
99360666778861842 and `end_offset` (274) no longer bounds the record's
extent — the `next` field's location lies far beyond the file. -/
theorem C9_counterexample_long_key_breaks_bound :
    Reach sLong2 ∧
    sLong2.keyMap kLong = some (Int.ofNat 0) ∧ (Int.ofNat 0 : Int) ≠ notExist ∧
    sLong2.offset < (Int.ofNat 0).toNat + recTotal sLong2.mem ((Int.ofNat 0).toNat) ∧
    ¬ ChainOK sLong2.mem sLong2.offset ((Int.ofNat 0).toNat) := by
  refine ⟨?_, by decide, by decide, by decide, ?_⟩
  · exact Relation.ReflTransGen.tail
      (Relation.ReflTransGen.single
        (Step.add kLong [[98]] none initState sLong1 none
          (by constructor <;> decide) (by unfold ValidVals; decide) (by decide) rfl))
      (Step.add kLong [[97]] none sLong1 sLong2 none
        (by constructor <;> decide) (by unfold ValidVals; decide) (by decide) rfl)
  · intro h
    have hb := ChainOK_bound _ _ _ h
    have ht : recTotal sLong2.mem ((Int.ofNat 0).toNat) = 99360666778861842 := by decide
    have ho : sLong2.offset = 274 := by decide
    rw [ht, ho] at hb
    omega

/-- Claim C9, amended: in every state reachable by `Add`, `Del`,
`DelByPrefix`, `Update`, `Get` and `Exist` operations **whose keys stay
at or below 246 bytes** (below the scan-start wrap threshold), every
real index entry points at a record whose chain is well formed: each
record's `next` field is 0 or strictly greater than the record's own
offset (so chains are acyclic and have exactly one tail, the derivation
walking strictly forward), and `end_offset` bounds every record's
extent — hence every chain offset and every nonzero `next` link.  For
keys of length 247..255 the invariant is not maintained: a single-value
`Add` on such a key misreads the `total` field's leading zero bytes as a
gap and overwrites them (see the C9 counterexample). -/
theorem C9_amended_chain_invariant (s : MState) (hr : ReachSafe s) (k : Bytes) (o : Int)
    (hk : s.keyMap k = some o) (ho : o ≠ notExist) :
    ChainOK s.mem s.offset o.toNat := by
  obtain ⟨D, hD⟩ := reachSafe_inv s hr
  rcases hD.2.2 k o hk with hs | ⟨i, hi, hieq⟩
  · exact absurd hs ho
  · rw [hieq, Int.ofNat_eq_natCast, Int.toNat_ofNat]
    exact StateD_chainOK s D hD D.length i hi (by omega)

/-- Witness for the amended C9: the concrete state after one `Add`
satisfies the chain invariant at the key's head offset. -/
theorem C9_amended_chain_invariant_witness :
    ChainOK c1State.mem c1State.offset ((Int.ofNat 0).toNat) :=
  C9_amended_chain_invariant c1State
    (Relation.ReflTransGen.single
      (StepSafe.add [117] [[97], [98]] none initState c1State none
        (by constructor <;> decide) (by unfold ValidVals; decide) (by decide) rfl))
    [117] (Int.ofNat 0) rfl (by decide)


/-! ### Claim C3: which gap a single-value `Add` reuses -/

/-- Memory after the in-place gap write at byte `st` of record `j`: the
length byte, then the payload, truncated by the head record's (`i₀`)
`total` — the C4 aliasing. -/
def gapWriteMem (s : MState) (D : List Rec) (i₀ j st : Nat) (v : Bytes) : Mem :=
  writeBytes (writeBytes s.mem (offAt D j + st) [v.length % 256])
    (offAt D j + st + 1) (v.take (recTotal s.mem (offAt D i₀) - st - 1))

/-- The observable behaviour of a single-value `Add` on an existing key
whose chain is `l` (head record index `i₀`), as the code implements it.
Either no record in the chain has a zero run, and a new record is
appended; or the walk stops at the first record `j` whose value area has
a zero run, committing to that record's first run `[st, en)`: the value
is written in place into that run exactly when it fits there (strictly
shorter than the run) and the run start lies inside the head record's
`total` (the aliasing of C4); the engine faults when the value fits but
`st` overruns the head total; and a new record is appended when the
value does not fit that particular run — even if a later run in the same
record, or a later record of the chain, offers a larger one. -/
def C3Concl (s : MState) (D : List Rec) (i₀ : Nat) (l : List Nat) (k v : Bytes) : Prop :=
  ((∀ j ∈ l, ∀ hj : j < D.length, firstGapR (D.get ⟨j, hj⟩) = none) ∧
    ∃ s', adds s none k [v] = .ok (s', none) ∧
      s'.offset = s.offset + (26 + k.length + v.length))
  ∨ (∃ l1 j l2, l = l1 ++ j :: l2 ∧
      (∀ j' ∈ l1, ∀ hj' : j' < D.length, firstGapR (D.get ⟨j', hj'⟩) = none) ∧
      ∃ hj : j < D.length, ∃ st en, firstGapR (D.get ⟨j, hj⟩) = some (st, en) ∧
        (v.length < en - st ∧ st < recTotal s.mem (offAt D i₀) →
          adds s none k [v] = .ok ({ s with mem := gapWriteMem s D i₀ j st v }, none)) ∧
        (v.length < en - st ∧ ¬ st < recTotal s.mem (offAt D i₀) →
          adds s none k [v] = .error ()) ∧
        (¬ v.length < en - st →
          ∃ s', adds s none k [v] = .ok (s', none) ∧
            s'.offset = s.offset + (26 + k.length + v.length)))

/-- Claim C3, amended: for a single-value `Add(k, v)` on an existing key
the engine does **not** choose the first record with a *usable* gap.
The chain walk stops at the first record that has *any* maximal run of
zero bytes and commits to that record's first run: when `v` fits that
particular run strictly (and the run start is below the head record's
`total` — the C4 aliasing), it is written there in place; in every other
case — including when a later run of the same record or a later record
of the chain would fit `v` — a new record is appended (see the C3
counterexample).  Appending always succeeds for data-model-sized
arguments and advances the offset by the new record's size. -/
theorem C3_amended (s : MState) (D : List Rec) (hD : StateD s D)
    (k : Bytes) (hk : k.length ≤ 255) (i₀ : Nat) (hi₀ : i₀ < D.length)
    (hkm : s.keyMap k = some (Int.ofNat (offAt D i₀)))
    (v : Bytes) (hv : v.length ≤ 255) :
    ∃ l, ChainIdx D i₀ l ∧ C3Concl s D i₀ l k v := by
  have hv0 : ([v] : List Bytes) ≠ [] := by simp
  have hsent : (Int.ofNat (offAt D i₀) : Int) ≠ notExist := by
    simp only [notExist, Int.ofNat_eq_natCast]
    omega
  have htoNat : (Int.ofNat (offAt D i₀)).toNat = offAt D i₀ := by
    rw [Int.ofNat_eq_natCast, Int.toNat_ofNat]
  obtain ⟨l, hl⟩ := chain_exists D hD.1.hnext D.length i₀ hi₀ (by omega)
  have hfuel : l.length ≤ s.offset + 1 := by
    have h1 := ChainIdx.length_le D i₀ l hl
    have h2 := length_le_offAt D
    rw [hD.2.1]
    omega
  refine ⟨l, hl, ?_⟩
  have happend : ∃ s1, (do
        let lb ← getB8Loop s (s.offset + 1) (offAt D i₀)
        let r ← add s none lb k [v]
        (Except.ok (r.1, r.2.1) : Res (MState × Option AddErr))) = .ok (s1, none) ∧
      s1.offset = s.offset + (26 + k.length + v.length) := by
    obtain ⟨jt, hjt, _, _, hB⟩ := getB8Loop_chain s D hD.1 hD.2.1 l i₀ hl
      (s.offset + 1) hfuel
    obtain ⟨s1, hAdd, hOff⟩ := add_single_ok s
      (some (offAt D jt + recSize (D.get ⟨jt, hjt⟩) - 8)) k v hk hv
    refine ⟨s1, ?_, hOff⟩
    rw [hB, res_bind_ok, hAdd, res_bind_ok]
  rcases emptyLoop_chain s.mem D hD.1 l i₀ hl (s.offset + 1) hfuel with
    ⟨l1, jg, l2, hle, hnone1, hjg, st, en, hg, hrun⟩ | ⟨hnoneAll, jt, hjt, hrun⟩
  · right
    refine ⟨l1, jg, l2, hle, hnone1, hjg, st, en, hg, ?_, ?_, ?_⟩
    · rintro ⟨hfit, hst⟩
      simp only [adds, if_neg hv0, hkm, if_neg hsent]
      rw [htoNat, hrun, res_bind_ok]
      rw [if_pos ⟨rfl, hfit⟩]
      rw [if_pos (show st < bigUint64 (readBytes s.mem (offAt D i₀) 8) from hst)]
      rw [res_bind_pure]
      rfl
    · rintro ⟨hfit, hst⟩
      simp only [adds, if_neg hv0, hkm, if_neg hsent]
      rw [htoNat, hrun, res_bind_ok]
      rw [if_pos ⟨rfl, hfit⟩]
      rw [if_neg (show ¬ st < bigUint64 (readBytes s.mem (offAt D i₀) 8) from hst)]
      rw [res_bind_err]
    · intro hfit
      obtain ⟨s1, he, ho⟩ := happend
      refine ⟨s1, ?_, ho⟩
      simp only [adds, if_neg hv0, hkm, if_neg hsent]
      rw [htoNat, hrun, res_bind_ok]
      rw [if_neg (by intro hx; exact hfit hx.2), res_bind_pure]
      exact he
  · left
    refine ⟨hnoneAll, ?_⟩
    obtain ⟨s1, he, ho⟩ := happend
    refine ⟨s1, ?_, ho⟩
    simp only [adds, if_neg hv0, hkm, if_neg hsent]
    rw [htoNat, hrun, res_bind_ok]
    rw [if_neg (by intro hx; exact (Bool.false_ne_true hx.1)), res_bind_pure]
    exact he

/-- The one-record layout description of `c1State` (the state after the
witness `Add` of C1). -/
theorem c1StateD : StateD c1State [addRec [117] [[97], [98]] 0] :=
  add_fresh_inv initState [] initState_inv [117] [[97], [98]]
    (by constructor <;> decide) (by decide) (by unfold ValidVals; decide)
    c1State 30 rfl (by decide)

/-- Witness for the amended C3: applying it at the one-record state after
the C1 witness `Add`, with a fresh single value. -/
theorem C3_amended_witness :
    ∃ l, ChainIdx [addRec [117] [[97], [98]] 0] 0 l ∧
      C3Concl c1State [addRec [117] [[97], [98]] 0] 0 l [117] [120] :=
  C3_amended c1State [addRec [117] [[97], [98]] 0] c1StateD [117] (by decide) 0 (by decide)
    (by decide) [120] (by decide)


/-! ### Claim C7: ordering of values across two completed Adds -/

/-- Offsets up to the old length are unchanged when the tail's `next`
field is patched and a record is appended. -/
theorem offAt_extend_eq (D : List Rec) (jt : Nat) (hjt : jt < D.length) (off : Nat) (r : Rec) :
    ∀ i, i ≤ D.length →
      offAt (D.set jt (setNext (D.get ⟨jt, hjt⟩) off) ++ [r]) i = offAt D i := by
  intro i hi
  rw [offAt_append_le _ _ i (by rw [List.length_set]; exact hi)]
  refine offAt_congr D _ (by rw [List.length_set]) ?_ i
  intro i2 hi2 hi2'
  by_cases he : i2 = jt
  · subst he
    rw [get_set_self, recSize_setNext]
  · rw [get_set_ne D jt i2 _ he hi2' hi2]

/-- Extending a chain after an append for an existing key: the old tail
`jt` is patched to point at the new record, which becomes the new tail. -/
theorem ChainIdx_extend (D : List Rec) (jt : Nat) (hjt : jt < D.length) (r : Rec)
    (hr : r.next = 0) (off : Nat) (hoff : off = offAt D D.length) :
    ∀ (i : Nat) (l : List Nat), ChainIdx D i l → l.getLast? = some jt →
      ChainIdx (D.set jt (setNext (D.get ⟨jt, hjt⟩) off) ++ [r]) i (l ++ [D.length]) := by
  intro i l hc
  induction hc with
  | tail i hi h0 =>
    intro hlast
    have hij : i = jt := by
      have h2 : ([i].getLast? : Option Nat) = some i := by simp
      rw [h2] at hlast
      injection hlast
    subst hij
    have hlen' : (D.set i (setNext (D.get ⟨i, hjt⟩) off) ++ [r]).length = D.length + 1 := by
      simp
    refine ChainIdx.cons i D.length [D.length] (by rw [hlen']; omega) (by rw [hlen']; omega)
      hjt ?_ ?_
    · have hg : (D.set i (setNext (D.get ⟨i, hjt⟩) off) ++ [r]).get
          ⟨i, by rw [hlen']; omega⟩ = setNext (D.get ⟨i, hjt⟩) off := by
        rw [get_append_left _ _ i (by rw [List.length_set]; exact hjt)]
        exact get_set_self D i _ _
      rw [hg]
      show off = _
      rw [offAt_extend_eq D i hjt off r D.length (le_refl _)]
      exact hoff
    · refine ChainIdx.tail D.length (by rw [hlen']; omega) ?_
      have hg : (D.set i (setNext (D.get ⟨i, hjt⟩) off) ++ [r]).get
          ⟨D.length, by rw [hlen']; omega⟩ = r :=
        get_append_last_of_len _ r D.length (by rw [List.length_set]) _
      rw [hg, hr]
  | cons i j l hi hj hij hn hcj ih =>
    intro hlast
    obtain ⟨x, t, rfl⟩ : ∃ x t, l = x :: t := by
      cases l with
      | nil => exact absurd rfl (ChainIdx.ne_nil D j [] hcj)
      | cons x t => exact ⟨x, t, rfl⟩
    have hlast' : (x :: t).getLast? = some jt := hlast
    have hjtmem : jt ∈ x :: t := List.mem_of_getLast?_eq_some hlast'
    have hijt : i < jt := by
      have := (ChainIdx.bound D j (x :: t) hcj) jt hjtmem
      omega
    have hlen' : (D.set jt (setNext (D.get ⟨jt, hjt⟩) off) ++ [r]).length = D.length + 1 := by
      simp
    refine ChainIdx.cons i j ((x :: t) ++ [D.length]) (by rw [hlen']; omega)
      (by rw [hlen']; omega) hij ?_ (ih hlast')
    have hg : (D.set jt (setNext (D.get ⟨jt, hjt⟩) off) ++ [r]).get
        ⟨i, by rw [hlen']; omega⟩ = D.get ⟨i, hi⟩ := by
      rw [get_append_left _ _ i (by rw [List.length_set]; omega)]
      exact get_set_ne D jt i _ (by omega) _ hi
    rw [hg, hn, offAt_extend_eq D jt hjt off r j (by omega)]

/-- Chain values only depend on the slot areas of the indexed records. -/
theorem chainVals_congr (D E : List Rec) (l : List Nat)
    (h : ∀ j ∈ l, (E.getD j recD).slots = (D.getD j recD).slots) :
    chainVals E l = chainVals D l := by
  simp only [chainVals]
  congr 1
  exact List.map_congr_left (fun j hj => by rw [h j hj])

theorem chainVals_append (D : List Rec) (l1 l2 : List Nat) :
    chainVals D (l1 ++ l2) = chainVals D l1 ++ chainVals D l2 := by
  simp [chainVals]

/-- Claim C7, amended: between two completed Adds `A` then `B` on the
same key, a `Get` observes all of `A`'s values before all of `B`'s
values **provided `B` appended a new record** — which is guaranteed
whenever `B` carries two or more values, since only single-value Adds
attempt gap reuse.  (A single-value `B` that reuses a tombstoned gap in
an earlier record of the chain is observed at the gap's position, i.e.
possibly *before* surviving older values — see the C7 counterexample.)
Stated for an engine state satisfying the layout invariant with a real
index entry for the key, and for wrap-safe key length (see C1). -/
theorem C7_amended (s : MState) (D : List Rec) (hD : StateD s D)
    (k : Bytes) (hk246 : k.length ≤ 246) (hkc : CleanBytes k)
    (i₀ : Nat) (hi₀ : i₀ < D.length)
    (hkm : s.keyMap k = some (Int.ofNat (offAt D i₀)))
    (values : List Bytes)
    (hv : ∀ v ∈ values, 1 ≤ v.length ∧ v.length ≤ 255 ∧ CleanBytes v)
    (hlen2 : 2 ≤ values.length)
    (s' : MState) (h : adds s none k values = .ok (s', none))
    (hs' : s'.offset < 2 ^ 64) :
    ∃ L, gets s k = .ok L ∧ gets s' k = .ok (L ++ values) := by
  obtain ⟨v1, rest1, rfl⟩ : ∃ v1 r1, values = v1 :: r1 := by
    cases values with
    | nil => simp at hlen2
    | cons a b => exact ⟨a, b, rfl⟩
  obtain ⟨v2, rest2, rfl⟩ : ∃ v2 r2, rest1 = v2 :: r2 := by
    cases rest1 with
    | nil => simp at hlen2
    | cons a b => exact ⟨a, b, rfl⟩
  have hv0 : (v1 :: v2 :: rest2 : List Bytes) ≠ [] := by simp
  have hsent : (Int.ofNat (offAt D i₀) : Int) ≠ notExist := by
    simp only [notExist, Int.ofNat_eq_natCast]
    omega
  have htoNat : (Int.ofNat (offAt D i₀)).toNat = offAt D i₀ := by
    rw [Int.ofNat_eq_natCast, Int.toNat_ofNat]
  obtain ⟨l, hl⟩ := chain_exists D hD.1.hnext D.length i₀ hi₀ (by omega)
  have hfuel : l.length ≤ s.offset + 1 := by
    have h1 := ChainIdx.length_le D i₀ l hl
    have h2 := length_le_offAt D
    rw [hD.2.1]
    omega
  have hgets1 : gets s k = .ok (chainVals D l) := by
    simp only [gets, hkm, if_neg hsent]
    rw [htoNat]
    exact getsLoop_chain s.mem D hD.1 l i₀ hl (s.offset + 1) hfuel
  have happly : ∀ (start : Nat), start = offAt D i₀ →
      (do
        let lb ← getB8Loop s (s.offset + 1) start
        let r ← add s none lb k (v1 :: v2 :: rest2)
        (Except.ok (r.1, r.2.1) : Res (MState × Option AddErr))) = .ok (s', none) →
      ∃ L, gets s k = .ok L ∧ gets s' k = .ok (L ++ (v1 :: v2 :: rest2)) := by
    intro start hstart hh
    subst hstart
    obtain ⟨jt, hjt, hlastl, hnext0, hB⟩ := getB8Loop_chain s D hD.1 hD.2.1 l i₀ hl
      (s.offset + 1) hfuel
    rw [hB, res_bind_ok] at hh
    cases hadd : add s none (some (offAt D jt + recSize (D.get ⟨jt, hjt⟩) - 8))
        k (v1 :: v2 :: rest2) with
    | error u =>
      rw [hadd, res_bind_err] at hh
      exact (Except.noConfusion hh)
    | ok trip =>
      rw [hadd, res_bind_ok] at hh
      injection hh with h1
      injection h1 with h2 h3
      have hv255 : ∀ v ∈ (v1 :: v2 :: rest2 : List Bytes), v.length ≤ 255 :=
        fun v hvm => (hv v hvm).2.1
      obtain ⟨_, ht', hoff', hkm2, hmem'⟩ := add_ok_spec s
        (some (offAt D jt + recSize (D.get ⟨jt, hjt⟩) - 8)) k (v1 :: v2 :: rest2)
        (by omega) hv255 trip.1 trip.2.1 trip.2.2 (by rw [hadd])
      have hlink := add_link_inv s D hD k (v1 :: v2 :: rest2) jt hjt
        ⟨by omega, hkc⟩ hk246 (fun v hvm => ⟨(hv v hvm).2.1, (hv v hvm).2.2⟩)
        trip.1 trip.2.2 (by rw [hadd, ← h3]) (by rw [h2]; exact hs')
      have hchain' : ChainIdx (D.set jt (setNext (D.get ⟨jt, hjt⟩) s.offset)
          ++ [addRec k (v1 :: v2 :: rest2) s.offset]) i₀ (l ++ [D.length]) :=
        ChainIdx_extend D jt hjt _ rfl s.offset hD.2.1 i₀ l hl hlastl
      have hlen' : (D.set jt (setNext (D.get ⟨jt, hjt⟩) s.offset)
          ++ [addRec k (v1 :: v2 :: rest2) s.offset]).length = D.length + 1 := by
        simp
      have hkm' : trip.1.keyMap k = some (Int.ofNat (offAt D i₀)) := by
        rw [hkm2]
        simp only [addKeyMap, if_pos rfl, hkm]
        split <;> rfl
      have hoffi : offAt (D.set jt (setNext (D.get ⟨jt, hjt⟩) s.offset)
          ++ [addRec k (v1 :: v2 :: rest2) s.offset]) i₀ = offAt D i₀ :=
        offAt_extend_eq D jt hjt s.offset _ i₀ (by omega)
      have hgets2 : gets trip.1 k = .ok (chainVals
          (D.set jt (setNext (D.get ⟨jt, hjt⟩) s.offset)
            ++ [addRec k (v1 :: v2 :: rest2) s.offset]) (l ++ [D.length])) := by
        simp only [gets, hkm', if_neg hsent]
        rw [htoNat, ← hoffi]
        refine getsLoop_chain trip.1.mem _ hlink.1 (l ++ [D.length]) i₀ hchain'
          (trip.1.offset + 1) ?_
        have h4 := ChainIdx.length_le D i₀ l hl
        have h5 := length_le_offAt (D.set jt (setNext (D.get ⟨jt, hjt⟩) s.offset)
          ++ [addRec k (v1 :: v2 :: rest2) s.offset])
        rw [hlen'] at h5
        have h6 : trip.1.offset = offAt (D.set jt (setNext (D.get ⟨jt, hjt⟩) s.offset)
            ++ [addRec k (v1 :: v2 :: rest2) s.offset]) (D.length + 1) := by
          rw [← hlen']
          exact hlink.2.1
        simp only [List.length_append, List.length_singleton]
        omega
      have hvals : chainVals (D.set jt (setNext (D.get ⟨jt, hjt⟩) s.offset)
            ++ [addRec k (v1 :: v2 :: rest2) s.offset]) (l ++ [D.length])
          = chainVals D l ++ (v1 :: v2 :: rest2) := by
        rw [chainVals_append]
        congr 1
        · apply chainVals_congr
          intro j hj
          have hjlt : j < D.length := ((ChainIdx.bound D i₀ l hl) j hj).2
          have hjlt' : j < (D.set jt (setNext (D.get ⟨jt, hjt⟩) s.offset)
              ++ [addRec k (v1 :: v2 :: rest2) s.offset]).length := by
            rw [hlen']
            omega
          rw [List.getD_eq_getElem _ recD hjlt', List.getD_eq_getElem D recD hjlt]
          show ((D.set jt (setNext (D.get ⟨jt, hjt⟩) s.offset)
            ++ [addRec k (v1 :: v2 :: rest2) s.offset]).get ⟨j, hjlt'⟩).slots
            = (D.get ⟨j, hjlt⟩).slots
          by_cases he : j = jt
          · subst he
            have hg : (D.set j (setNext (D.get ⟨j, hjt⟩) s.offset)
                ++ [addRec k (v1 :: v2 :: rest2) s.offset]).get ⟨j, hjlt'⟩
                = setNext (D.get ⟨j, hjt⟩) s.offset := by
              rw [get_append_left _ _ j (by rw [List.length_set]; exact hjt)]
              exact get_set_self D j _ _
            rw [hg]
            rfl
          · have hg : (D.set jt (setNext (D.get ⟨jt, hjt⟩) s.offset)
                ++ [addRec k (v1 :: v2 :: rest2) s.offset]).get ⟨j, hjlt'⟩
                = D.get ⟨j, hjlt⟩ := by
              rw [get_append_left _ _ j (by rw [List.length_set]; exact hjlt)]
              exact get_set_ne D jt j _ he _ hjlt
            rw [hg]
        · have hgD : (D.set jt (setNext (D.get ⟨jt, hjt⟩) s.offset)
              ++ [addRec k (v1 :: v2 :: rest2) s.offset]).getD D.length recD
              = addRec k (v1 :: v2 :: rest2) s.offset := by
            rw [List.getD_eq_getElem _ recD (by rw [hlen']; omega)]
            exact get_append_last_of_len _ _ D.length (by rw [List.length_set]) _
          show chainVals _ [D.length] = v1 :: v2 :: rest2
          simp only [chainVals, List.map_cons, List.map_nil, List.flatten_cons,
            List.flatten_nil, List.append_nil]
          rw [hgD]
          show liveVals (slotsOf (v1 :: v2 :: rest2)) = _
          exact liveVals_slotsOf _ (fun v hvm => by have := (hv v hvm).1; omega)
      refine ⟨chainVals D l, hgets1, ?_⟩
      rw [← h2, hgets2, hvals]
  simp only [adds, if_neg hv0, hkm, if_neg hsent] at h
  rw [res_bind_pure] at h
  exact happly _ htoNat h

/-- State after a second, two-value `Add` on the C1 witness key. -/
def c7w : MState :=
  match adds c1State none [117] [[99], [100]] with
  | .ok p => p.1
  | .error _ => initState

/-- Witness for the amended C7: a two-value second `Add` on the C1
witness key appends, and `Get` returns the old values before the new
ones. -/
theorem C7_amended_witness :
    ∃ L, gets c1State [117] = .ok L ∧ gets c7w [117] = .ok (L ++ [[99], [100]]) :=
  C7_amended c1State [addRec [117] [[97], [98]] 0] c1StateD [117] (by decide) (by decide)
    0 (by decide) (by decide) [[99], [100]] (by decide) (by decide) c7w rfl (by decide)

end Msearch
